import Mathlib

/-!
# A shallow embedding of tiny-json (`src/tiny-json.c`)

The C parser works in place on a mutable NUL-terminated character buffer and
allocates tree nodes from a caller-supplied fixed pool.  The embedding models

* the buffer as a `List Char` (the terminating NUL is the first `'\x00'`
  character, or the end of the list: reading past the end yields `'\x00'`,
  matching a NUL-terminated buffer),
* pointers into the buffer as `Nat` positions,
* `json_t*` node pointers as `Nat` indices into a `List JNode` pool,
* every C loop as a structurally recursive function over an explicit fuel
  argument, with the top-level wrappers supplying fuel that is proved (and in
  the theorems below, shown) to be sufficient.

Buffer mutation (`*p = c`) becomes `List.set`; a C function that can return a
null pointer returns an `Option`.
-/

set_option maxRecDepth 10000

namespace TinyJson

/-- Reading `*p` from a NUL-terminated buffer: past the end of the list we read `'\x00'`. -/
def getC (buf : List Char) (pos : Nat) : Char := buf.getD pos '\x00'

/-- The classifier `isdigit` from `<ctype.h>`, on the characters the parser feeds it. -/
def isdigitC (c : Char) : Bool := '0' ≤ c && c ≤ '9'

/-- The classifier `isxdigit` from `<ctype.h>`. -/
def isxdigitC (c : Char) : Bool :=
  isdigitC c || ('a' ≤ c && c ≤ 'f') || ('A' ≤ c && c ≤ 'F')

/-- Membership test `isOneOfThem` (tiny-json.c line 417): membership of a character in a
NUL-terminated set string, modelled as a `List Char` without the NUL. -/
def isOneOfThem (ch : Char) : List Char → Bool
  | [] => false
  | c :: cs => if ch = c then true else isOneOfThem ch cs

/-- The blank set `" \n\r\t\f"` (line 437). -/
def blank : List Char := [' ', '\n', '\r', '\t', '\x0C']

/-- The end-of-block set `"}]"` (line 458). -/
def endofblock : List Char := ['}', ']']

/-- The loop body of `goWhile` (line 428): scan while the character is in the
set, fail on the terminating NUL.  `fuel` bounds the iteration count; the
wrapper below supplies enough for the whole buffer. -/
def goWhileAux (set : List Char) (buf : List Char) : Nat → Nat → Option Nat
  | 0, _ => none
  | fuel + 1, pos =>
    if getC buf pos = '\x00' then none
    else if isOneOfThem (getC buf pos) set then goWhileAux set buf fuel (pos + 1)
    else some pos

/-- Scanner `goWhile` (line 428). -/
def goWhile (buf : List Char) (set : List Char) (pos : Nat) : Option Nat :=
  goWhileAux set buf (buf.length + 1 - pos) pos

/-- Scanner `goBlank` (line 442). -/
def goBlank (buf : List Char) (pos : Nat) : Option Nat := goWhile buf blank pos

/-- The loop body of `goNum` (line 449). -/
def goNumAux (buf : List Char) : Nat → Nat → Option Nat
  | 0, _ => none
  | fuel + 1, pos =>
    if getC buf pos = '\x00' then none
    else if isdigitC (getC buf pos) then goNumAux buf fuel (pos + 1)
    else some pos

/-- Scanner `goNum` (line 449). -/
def goNum (buf : List Char) (pos : Nat) : Option Nat :=
  goNumAux buf (buf.length + 1 - pos) pos

/-- Predicate `isEndOfPrimitive` (line 469). -/
def isEndOfPrimitive (ch : Char) : Bool :=
  ch = ',' || isOneOfThem ch blank || isOneOfThem ch endofblock

/-- Helper `setToNull` (line 463): overwrite with NUL and advance unless the
character is `'}'` or `']'`. -/
def setToNull (buf : List Char) (pos : Nat) : List Char × Nat :=
  if isOneOfThem (getC buf pos) endofblock then (buf, pos)
  else (buf.set pos '\x00', pos + 1)

/-- The escape table of `getEscape` (line 100). -/
def escapePairs : List (Char × Char) :=
  [('\"', '\"'), ('\\', '\\'), ('/', '/'), ('b', '\x08'),
   ('f', '\x0C'), ('n', '\n'), ('r', '\r'), ('t', '\t')]

/-- The lookup loop of `getEscape` (line 100). -/
def getEscapeAux (ch : Char) : List (Char × Char) → Char
  | [] => '\x00'
  | p :: ps => if p.1 = ch then p.2 else getEscapeAux ch ps

/-- Escape decoder `getEscape` (line 100). -/
def getEscape (ch : Char) : Char := getEscapeAux ch escapePairs

/-- Validator `getCharFromUnicode` (line 118): `'?'` if the next four characters are
hexadecimal digits, NUL otherwise. -/
def getCharFromUnicode (buf : List Char) (pos : Nat) : Char :=
  if isxdigitC (getC buf pos) && isxdigitC (getC buf (pos + 1)) &&
     isxdigitC (getC buf (pos + 2)) && isxdigitC (getC buf (pos + 3))
  then '?' else '\x00'

/-- The copy loop of `parseString` (line 131): `head` is the read cursor,
`tail` the write cursor (`tail ≤ head`).  On the unescaped closing quote the
quote's slot is overwritten with NUL and the position just past the quote is
returned. -/
def parseStringAux : Nat → List Char → Nat → Nat → Option (List Char × Nat)
  | 0, _, _, _ => none
  | fuel + 1, buf, head, tail =>
    let c := getC buf head
    if c = '\x00' then none
    else if c = '\"' then some (buf.set tail '\x00', head + 1)
    else if c = '\\' then
      if getC buf (head + 1) = 'u' then
        let ch := getCharFromUnicode buf (head + 2)
        if ch = '\x00' then none
        else parseStringAux fuel (buf.set tail ch) (head + 6) (tail + 1)
      else
        let esc := getEscape (getC buf (head + 1))
        if esc = '\x00' then none
        else parseStringAux fuel (buf.set tail esc) (head + 2) (tail + 1)
    else parseStringAux fuel (buf.set tail c) (head + 1) (tail + 1)

/-- String unescaper `parseString` (line 131). -/
def parseString (buf : List Char) (pos : Nat) : Option (List Char × Nat) :=
  parseStringAux (buf.length + 1 - pos) buf pos pos

/-- The comparison loop of `checkStr` (line 190): match the literal `str`
character by character. -/
def checkStr (buf : List Char) : Nat → List Char → Option Nat
  | pos, [] => some pos
  | pos, c :: cs => if getC buf pos = c then checkStr buf (pos + 1) cs else none

/-- Modelled from the spec: the tag enumeration `jsonType_t` lives in the
missing header `tiny-json.h`; the spec gives the tags Object, Array, Text,
Integer, Real, Boolean and Null. -/
inductive jsonType
  | JSON_OBJ
  | JSON_ARRAY
  | JSON_TEXT
  | JSON_BOOLEAN
  | JSON_INTEGER
  | JSON_REAL
  | JSON_NULL
deriving DecidableEq, Repr, Inhabited

/-- Modelled from the spec: the numeric value of each `jsonType_t` enumerator
in the missing header, with Object and Array first — `json_getPropertyValue`
rejects exactly the container types with `JSON_ARRAY >= type`. -/
def jsonType.code : jsonType → Nat
  | .JSON_OBJ => 0
  | .JSON_ARRAY => 1
  | .JSON_TEXT => 2
  | .JSON_BOOLEAN => 3
  | .JSON_INTEGER => 4
  | .JSON_REAL => 5
  | .JSON_NULL => 6

/-- Modelled from the spec: the node record `json_t` (declared in the missing
header, as described by the spec's data model):
`name` and `value` are positions into the buffer, the links are pool
indices.  The C `union u` overlays `value` with `child`/`last_child`; here
the fields are separate — the parser never reads the member it did not
last write, so the overlay is unobservable. -/
structure JNode where
  type : jsonType := .JSON_NULL
  name : Option Nat := none
  value : Nat := 0
  child : Option Nat := none
  lastChild : Option Nat := none
  sibling : Option Nat := none
deriving DecidableEq, Repr, Inhabited

/-- The parser state: the mutable buffer plus the static pool
(`jsonStaticPool_t`, line 35): `nodes` is the `mem` array (`qty` is its
length) and `nextFree` the allocation cursor. -/
structure St where
  buf : List Char
  nodes : List JNode
  nextFree : Nat
deriving DecidableEq, Repr, Inhabited

/-- Read a pool slot (`json_t*` dereference). -/
def getNode (st : St) (i : Nat) : JNode := st.nodes.getD i default

/-- Write a pool slot. -/
def setNode (st : St) (i : Nat) (n : JNode) : St :=
  { st with nodes := st.nodes.set i n }

/-- Allocator `poolAlloc` (line 407): fail once the cursor reaches `qty`, otherwise
hand out slot `nextFree` and advance the cursor. -/
def poolAlloc (st : St) : Option (St × Nat) :=
  if st.nextFree ≥ st.nodes.length then none
  else some ({ st with nextFree := st.nextFree + 1 }, st.nextFree)

/-- Name parser `propertyName` (line 162): record the name position (just past the
opening quote), unescape the name, skip blanks, require `':'`, skip blanks. -/
def propertyName (buf : List Char) (pos : Nat) (prop : JNode) :
    Option (List Char × Nat × JNode) :=
  let prop := { prop with name := some (pos + 1) }
  match parseString buf (pos + 1) with
  | none => none
  | some (buf1, q) =>
    match goBlank buf1 q with
    | none => none
    | some r =>
      if getC buf1 r ≠ ':' then none
      else
        match goBlank buf1 (r + 1) with
        | none => none
        | some s => some (buf1, s, prop)

/-- Text parser `textValue` (line 177): step `value` past the opening quote, unescape,
tag as `JSON_TEXT`. -/
def textValue (buf : List Char) (pos : Nat) (prop : JNode) :
    Option (List Char × Nat × JNode) :=
  let prop := { prop with value := prop.value + 1 }
  match parseString buf (pos + 1) with
  | none => none
  | some (buf1, q) => some (buf1, q, { prop with type := .JSON_TEXT })

/-- Literal parser `primitiveValue` (line 205): match the literal, require an
end-of-primitive delimiter, terminate the lexeme. -/
def primitiveValue (buf : List Char) (pos : Nat) (prop : JNode)
    (value : List Char) (ty : jsonType) : Option (List Char × Nat × JNode) :=
  match checkStr buf pos value with
  | none => none
  | some p =>
    if ¬ isEndOfPrimitive (getC buf p) then none
    else
      let r := setToNull buf p
      some (r.1, r.2, { prop with type := ty })

/-- Wrapper `trueValue` (line 219). -/
def trueValue (buf : List Char) (pos : Nat) (prop : JNode) :
    Option (List Char × Nat × JNode) :=
  primitiveValue buf pos prop ['t', 'r', 'u', 'e'] .JSON_BOOLEAN

/-- Wrapper `falseValue` (line 229). -/
def falseValue (buf : List Char) (pos : Nat) (prop : JNode) :
    Option (List Char × Nat × JNode) :=
  primitiveValue buf pos prop ['f', 'a', 'l', 's', 'e'] .JSON_BOOLEAN

/-- Wrapper `nullValue` (line 239). -/
def nullValue (buf : List Char) (pos : Nat) (prop : JNode) :
    Option (List Char × Nat × JNode) :=
  primitiveValue buf pos prop ['n', 'u', 'l', 'l'] .JSON_NULL

/-- Exponent scanner `expValue` (line 247): optional sign, at least one digit, digit run. -/
def expValue (buf : List Char) (pos : Nat) : Option Nat :=
  let p := if getC buf pos = '-' ∨ getC buf pos = '+' then pos + 1 else pos
  if ¬ isdigitC (getC buf p) then none
  else goNum buf (p + 1)

/-- Fraction scanner `fraqValue` (line 258): at least one digit, digit run. -/
def fraqValue (buf : List Char) (pos : Nat) : Option Nat :=
  if ¬ isdigitC (getC buf pos) then none
  else
    match goNum buf (pos + 1) with
    | none => none
    | some p => some p

/-- The C string comparison `strcmp` on NUL-free character lists. -/
def strcmpC : List Char → List Char → Int
  | [], [] => 0
  | [], _ :: _ => -1
  | _ :: _, [] => 1
  | a :: as, b :: bs =>
    if a = b then strcmpC as bs
    else if a.toNat < b.toNat then -1 else 1

/-- The bound literal `"-9223372036854775808"` (line 294). -/
def minI64 : List Char :=
  ['-', '9', '2', '2', '3', '3', '7', '2', '0', '3', '6', '8', '5', '4', '7', '7', '5', '8', '0', '8']

/-- The bound literal `"9223372036854775807"` (line 295). -/
def maxI64 : List Char :=
  ['9', '2', '2', '3', '3', '7', '2', '0', '3', '6', '8', '5', '4', '7', '7', '5', '8', '0', '7']

/-- The 64-bit range check of `numValue` (lines 291-312): `value` is the
start of the lexeme and `p3` the position just past it.  Strictly more
characters than the bound literal (`minI64` for a leading `'-'`, `maxI64`
otherwise) fail; equally many decide by `strcmp` against that bound (the C
code NUL-terminates the span temporarily for the comparison; here the span
is extracted directly). -/
def intOkC (buf : List Char) (value p3 : Nat) : Bool :=
  let negative := getC buf value = '-'
  let maxdigits := if negative then minI64.length else maxI64.length
  let len := p3 - value
  if len > maxdigits then false
  else if len = maxdigits then
    let valStr := (buf.drop value).take len
    let threshold := if negative then minI64 else maxI64
    decide (0 ≤ strcmpC threshold valStr)
  else true

/-- Number parser `numValue` (line 271): optional `'-'`, mantissa (lone `'0'` or a nonzero
digit followed by a digit run), optional fraction and exponent (each tagging
the literal `JSON_REAL`), end-of-primitive delimiter, and for
`JSON_INTEGER`-tagged literals the 64-bit range check: strictly more
characters than the bound literal fail, equally many decide by `strcmp`
against the bound (the C code NUL-terminates the span temporarily for that
comparison; here the span is extracted directly).  Finally the delimiter is
overwritten via `setToNull`. -/
def numValue (buf : List Char) (pos : Nat) (prop : JNode) :
    Option (List Char × Nat × JNode) :=
  let p0 := if getC buf pos = '-' then pos + 1 else pos
  if ¬ isdigitC (getC buf p0) then none
  else
    let mant : Option Nat :=
      if getC buf p0 ≠ '0' then goNum buf p0
      else if isdigitC (getC buf (p0 + 1)) then none
      else some (p0 + 1)
    match mant with
    | none => none
    | some p1 =>
      let frac : Option (Nat × jsonType) :=
        if getC buf p1 = '.' then
          match fraqValue buf (p1 + 1) with
          | none => none
          | some p2 => some (p2, .JSON_REAL)
        else some (p1, .JSON_INTEGER)
      match frac with
      | none => none
      | some (p2, ty2) =>
        let ex : Option (Nat × jsonType) :=
          if getC buf p2 = 'e' ∨ getC buf p2 = 'E' then
            match expValue buf (p2 + 1) with
            | none => none
            | some p3 => some (p3, .JSON_REAL)
          else some (p2, ty2)
        match ex with
        | none => none
        | some (p3, ty3) =>
          if ¬ isEndOfPrimitive (getC buf p3) then none
          else
            let ok : Bool := if ty3 = .JSON_INTEGER then intOkC buf prop.value p3 else true
            if ok then
              let r := setToNull buf p3
              some (r.1, r.2, { prop with type := ty3 })
            else none

/-- Link step `add` (line 320): clear the new node's sibling link and append it to the
container's child list in O(1) via `last_child`.  It operates on the node
pool alone (the C function never touches the text buffer).  (The branch
where `child` is set but `last_child` is not cannot arise: `add` always
sets both.) -/
def add (nodes : List JNode) (objIdx propIdx : Nat) : List JNode :=
  let prop := nodes.getD propIdx default
  let ns1 := nodes.set propIdx { prop with sibling := none }
  let obj := ns1.getD objIdx default
  match obj.child with
  | none =>
    ns1.set objIdx { obj with child := some propIdx, lastChild := some propIdx }
  | some _ =>
    match obj.lastChild with
    | none => ns1
    | some l =>
      let last := ns1.getD l default
      let ns2 := ns1.set l { last with sibling := some propIdx }
      ns2.set objIdx { ns2.getD objIdx default with lastChild := some propIdx }

/-- The scalar arms of the dispatch `switch( *ptr )` (lines 384-388): a
quoted text, one of the three keyword literals, or (default) a number. -/
def scalarValue (buf : List Char) (pos : Nat) (prop : JNode) :
    Option (List Char × Nat × JNode) :=
  if getC buf pos = '\"' then textValue buf pos prop
  else if getC buf pos = 't' then trueValue buf pos prop
  else if getC buf pos = 'f' then falseValue buf pos prop
  else if getC buf pos = 'n' then nullValue buf pos prop
  else numValue buf pos prop

/-- The result of one iteration of the `objValue` loop (line 342):
either fail the whole parse, return success past the root's close
character, or continue at a new position with a (possibly different)
current container. -/
inductive StepRes
  | fail
  | done (st : St) (pos : Nat)
  | cont (st : St) (pos : Nat) (objIdx : Nat)
deriving DecidableEq, Repr

/-- One iteration of the `for(;;)` loop of `objValue` (lines 342–391):
skip blanks; skip a comma; on the current container's close character,
terminate, pop to the parent via the `sibling` back-link (or finish at the
root); otherwise allocate a node, read its name if inside an object, append
it, and dispatch on the value's first character. -/
def objStep (st : St) (pos objIdx : Nat) : StepRes :=
  match goBlank st.buf pos with
  | none => .fail
  | some p =>
    if getC st.buf p = ',' then .cont st (p + 1) objIdx
    else
      let obj := getNode st objIdx
      let endchar : Char := if obj.type = .JSON_OBJ then '}' else ']'
      if getC st.buf p = endchar then
        let st1 : St := { st with buf := st.buf.set p '\x00' }
        match obj.sibling with
        | none => .done st1 (p + 1)
        | some parent =>
          .cont (setNode st1 objIdx { obj with sibling := none }) (p + 1) parent
      else
        match poolAlloc st with
        | none => .fail
        | some (st1, propIdx) =>
          let prop := getNode st1 propIdx
          let nameStep : Option (List Char × Nat × JNode) :=
            if obj.type ≠ .JSON_ARRAY then
              if getC st1.buf p ≠ '\"' then none
              else propertyName st1.buf p prop
            else some (st1.buf, p, { prop with name := none })
          match nameStep with
          | none => .fail
          | some (buf2, p2, prop2) =>
            let st2 : St := { st1 with buf := buf2 }
            let st3 : St := { st2 with nodes := add (st2.nodes.set propIdx prop2) objIdx propIdx }
            let prop3 : JNode := { getNode st3 propIdx with value := p2 }
            let st4 := setNode st3 propIdx prop3
            let c := getC st4.buf p2
            if c = '{' ∨ c = '[' then
              let ty : jsonType := if c = '{' then .JSON_OBJ else .JSON_ARRAY
              let st5 := setNode st4 propIdx
                { prop3 with type := ty, child := none, sibling := some objIdx }
              .cont st5 (p2 + 1) propIdx
            else
              match scalarValue st4.buf p2 prop3 with
              | none => .fail
              | some (buf5, p5, prop5) =>
                .cont (setNode { st4 with buf := buf5 } propIdx prop5) p5 objIdx

/-- The `objValue` loop, iterated on fuel. -/
def objLoopN : Nat → St → Nat → Nat → Option (St × Nat)
  | 0, _, _, _ => none
  | fuel + 1, st, pos, objIdx =>
    match objStep st pos objIdx with
    | .fail => none
    | .done st' p => some (st', p)
    | .cont st' p o => objLoopN fuel st' p o

/-- Tree builder `objValue` (line 337): tag the container from its opening character,
clear its links, step past the bracket and run the loop.  The fuel
`buf.length + 1` is sufficient: every continuing iteration strictly
advances the position and positions never exceed `buf.length`
(theorems below). -/
def objValue (st : St) (pos objIdx : Nat) : Option (St × Nat) :=
  let obj := getNode st objIdx
  let ty : jsonType := if getC st.buf pos = '{' then .JSON_OBJ else .JSON_ARRAY
  let st1 := setNode st objIdx { obj with type := ty, child := none, sibling := none }
  objLoopN (st1.buf.length + 1) st1 (pos + 1) objIdx

/-- Entry point `json_create` (line 87) composed with `json_createWithPool`
(line 74) over the static pool, part 1: initialize the pool (slot 0 is the
root, the cursor starts at 1, matching `poolInit`, line 397) and clear the
root's fields.  On success the root is slot 0 of the returned state. -/
def initSt (str : List Char) (qty : Nat) : St :=
  let st : St := { buf := str, nodes := List.replicate qty default, nextFree := 1 }
  let root := getNode st 0
  setNode st 0 { root with name := none, sibling := none, child := none }

/-- Entry point continued: run the tree builder on the initial state. -/
def json_create (str : List Char) (qty : Nat) : Option St :=
  match goBlank str 0 with
  | none => none
  | some p =>
    if getC str p ≠ '{' ∧ getC str p ≠ '[' then none
    else
      match objValue (initSt str qty) p 0 with
      | none => none
      | some (st2, _) => some st2

/-- The NUL-terminated string starting at `pos` (what a `char const*`
field of a node denotes). -/
def cstrAux (buf : List Char) : Nat → Nat → List Char
  | 0, _ => []
  | fuel + 1, pos =>
    if getC buf pos = '\x00' then []
    else getC buf pos :: cstrAux buf fuel (pos + 1)

/-- Read the NUL-terminated string at `pos`. -/
def cstr (buf : List Char) (pos : Nat) : List Char :=
  cstrAux buf (buf.length + 1 - pos) pos

/-- The search loop of `json_getProperty` (line 43): walk the sibling chain
and return the first child whose (non-null) name matches.  The fuel bounds
the chain length; any tree built by the parser has fewer nodes than
`nodes.length + 1`. -/
def getPropAux (st : St) (property : List Char) : Nat → Option Nat → Option Nat
  | _, none => none
  | 0, some _ => none
  | fuel + 1, some i =>
    let nd := getNode st i
    let hit : Bool :=
      match nd.name with
      | some np => cstr st.buf np = property
      | none => false
    if hit then some i
    else getPropAux st property fuel nd.sibling

/-- Lookup `json_getProperty` (line 43). -/
def json_getProperty (st : St) (objIdx : Nat) (property : List Char) : Option Nat :=
  getPropAux st property (st.nodes.length + 1) (getNode st objIdx).child

/-- Modelled from the spec: `json_getType` (an accessor in the missing
header) returns the node's type tag. -/
def json_getType (st : St) (i : Nat) : jsonType := (getNode st i).type

/-- Modelled from the spec: `json_getValue` (an accessor in the missing
header) returns the node's value string — a borrowed NUL-terminated slice
of the buffer. -/
def json_getValue (st : St) (i : Nat) : List Char := cstr st.buf (getNode st i).value

/-- Lookup `json_getPropertyValue` (line 56): look the property up, reject
container results (`JSON_ARRAY >= type`), otherwise return its value
string. -/
def json_getPropertyValue (st : St) (objIdx : Nat) (property : List Char) :
    Option (List Char) :=
  match json_getProperty st objIdx property with
  | none => none
  | some f =>
    if (json_getType st f).code ≤ jsonType.JSON_ARRAY.code then none
    else some (json_getValue st f)

/-- An abstract reading of the node tree: names and values resolved to the
strings they denote, children in order.  Two parses build "the same tree"
when their readbacks agree, independently of buffer positions. -/
inductive JTree
  | scalar (ty : jsonType) (name : Option (List Char)) (value : List Char)
  | node (ty : jsonType) (name : Option (List Char)) (children : List JTree)
deriving Repr

/-- Read back the forest hanging from an optional node link: the node, its
children (via `child`) and its right siblings (via `sibling`).  Fuel bounds
the total link-path length. -/
def readForest (st : St) : Nat → Option Nat → List JTree
  | 0, _ => []
  | _ + 1, none => []
  | fuel + 1, some i =>
    let nd := getNode st i
    let nm := nd.name.map fun np => cstr st.buf np
    let t : JTree :=
      if nd.type = .JSON_OBJ ∨ nd.type = .JSON_ARRAY then
        .node nd.type nm (readForest st fuel nd.child)
      else .scalar nd.type nm (cstr st.buf nd.value)
    t :: readForest st fuel nd.sibling

/-- Read back the whole tree from the root slot. -/
def readRoot (st : St) : List JTree :=
  readForest st (st.nodes.length + 1) (some 0)

/-! ## Spec-side definitions

The following definitions transcribe the *spec's words* (not the code):
the JSON number production of §4.2, the value denoted by an integer
literal, and the fits-in-64-bits condition as the spec describes the
check.  The claim theorems compare the code's behaviour against them. -/

/-- A nonempty run of decimal digits. -/
def digits1 (l : List Char) : Prop := l ≠ [] ∧ ∀ c ∈ l, isdigitC c

/-- Spec §4.2: the integer part — either a lone `0` or a nonzero digit
followed by more digits. -/
def SpecMantissa (m : List Char) : Prop :=
  m = ['0'] ∨ ∃ d ds, m = d :: ds ∧ isdigitC d ∧ d ≠ '0' ∧ ∀ c ∈ ds, isdigitC c

/-- Spec §4.2: an optional `.` fraction with at least one digit. -/
def SpecFrac (f : List Char) : Prop :=
  f = [] ∨ ∃ fd, f = '.' :: fd ∧ digits1 fd

/-- Spec §4.2: an optional `e`/`E` exponent with optional sign and at
least one digit. -/
def SpecExp (e : List Char) : Prop :=
  e = [] ∨ ∃ c sg ed, e = c :: (sg ++ ed) ∧ (c = 'e' ∨ c = 'E') ∧
    (sg = [] ∨ sg = ['+'] ∨ sg = ['-']) ∧ digits1 ed

/-- Spec §4.2: the whole JSON number production. -/
def SpecNumber (s : List Char) : Prop :=
  ∃ sgn m f e, s = sgn ++ m ++ f ++ e ∧ (sgn = [] ∨ sgn = ['-']) ∧
    SpecMantissa m ∧ SpecFrac f ∧ SpecExp e

/-- A literal tagged `JSON_INTEGER`: sign and mantissa only. -/
def IntLiteral (s : List Char) : Prop :=
  ∃ sgn m, s = sgn ++ m ∧ (sgn = [] ∨ sgn = ['-']) ∧ SpecMantissa m

/-- Whether a literal contains a fraction or exponent mark (for a string
matching the production this is exactly "a fraction or exponent was
present", hence the `JSON_REAL` tag). -/
def realMark (s : List Char) : Prop := '.' ∈ s ∨ 'e' ∈ s ∨ 'E' ∈ s

/-- The numeric value of a big-endian digit string. -/
def litDigitsVal : List Char → Nat
  | [] => 0
  | c :: cs => (c.toNat - 48) * 10 ^ cs.length + litDigitsVal cs

/-- The integer denoted by an integer literal (optional `'-'`, then
digits). -/
def litVal (s : List Char) : Int :=
  match s with
  | '-' :: m => -(litDigitsVal m : Int)
  | _ => litDigitsVal s

/-- The digit-count bound the check compares against: the character
length of the bound literal for the literal's sign. -/
def intMaxdigits (s : List Char) : Nat :=
  if getC s 0 = '-' then minI64.length else maxI64.length

/-- The bound literal the check compares against. -/
def intThreshold (s : List Char) : List Char :=
  if getC s 0 = '-' then minI64 else maxI64

/-- The 64-bit acceptance condition exactly as the spec describes the
check: strictly more characters than the bound literal fail, equally
many decide by string comparison against the bound. -/
def intFits (s : List Char) : Prop :=
  s.length < intMaxdigits s ∨
    (s.length = intMaxdigits s ∧ 0 ≤ strcmpC (intThreshold s) s)

/-- A run of `n` array elements `1,` (the document family for the pool
capacity claim). -/
def oneElems : Nat → List Char
  | 0 => []
  | n + 1 => '1' :: ',' :: oneElems n

/-- The same run after the parser has terminated each element in place. -/
def oneElemsDone : Nat → List Char
  | 0 => []
  | n + 1 => '1' :: '\x00' :: oneElemsDone n

/-- An array document with `n` integer elements; parsing it requires
exactly `n + 1` nodes (the root plus one per element). -/
def doc1s (n : Nat) : List Char := '[' :: (oneElems n ++ [']'])

/-- The trace of a successful `numValue` scan: `p1` ends the mantissa,
`p2` the fraction (equal to `p1` when `hasFrac` is false), `p3` the
exponent (equal to `p2` when `hasExp` is false); an end-of-primitive
delimiter follows, and Integer-tagged literals pass the range check.
`numValue` succeeds exactly when such a trace exists (theorems below). -/
def NumRun (buf : List Char) (pos : Nat) (prop : JNode)
    (p1 p2 p3 : Nat) (hasFrac hasExp : Bool) : Prop :=
  let p0 := if getC buf pos = '-' then pos + 1 else pos
  isdigitC (getC buf p0) = true ∧
  (if getC buf p0 = '0' then isdigitC (getC buf (p0 + 1)) = false ∧ p1 = p0 + 1
   else goNum buf p0 = some p1) ∧
  (if hasFrac then getC buf p1 = '.' ∧ fraqValue buf (p1 + 1) = some p2
   else getC buf p1 ≠ '.' ∧ p2 = p1) ∧
  (if hasExp then (getC buf p2 = 'e' ∨ getC buf p2 = 'E') ∧ expValue buf (p2 + 1) = some p3
   else ¬ (getC buf p2 = 'e' ∨ getC buf p2 = 'E') ∧ p3 = p2) ∧
  isEndOfPrimitive (getC buf p3) = true ∧
  (hasFrac = false ∧ hasExp = false → intOkC buf prop.value p3 = true)

/-- Invariant of the parse of `doc1s n` after `j` elements: the first `j`
elements are terminated in place, the allocation cursor is at `1 + j`, and
the root slot is an array whose last child is element `j` (the parser is at
position `1 + 2 * j`). -/
def ArrInv (n j qty : Nat) (st : St) : Prop :=
  st.buf = '[' :: (oneElemsDone j ++ (oneElems (n - j) ++ [']'])) ∧
  st.nextFree = 1 + j ∧
  st.nodes.length = qty ∧
  getNode st 0 = { type := .JSON_ARRAY
                   name := none
                   value := 0
                   child := if j = 0 then none else some 1
                   lastChild := if j = 0 then none else some j
                   sibling := none }

/-- The sibling chain starting at an optional node link, truncated by fuel
(the walk `json_getProperty` performs). -/
def sibChain (st : St) : Nat → Option Nat → List Nat
  | 0, _ => []
  | _ + 1, none => []
  | fuel + 1, some i => i :: sibChain st fuel (getNode st i).sibling

/-- Whether slot `i`'s name matches the property looked up (the comparison
`json_getProperty` performs on each chain node). -/
def nameHit (st : St) (property : List Char) (i : Nat) : Bool :=
  match (getNode st i).name with
  | some np => cstr st.buf np = property
  | none => false

/-! ## Buffer-read basics -/

theorem getC_eq_nul_of_ge {buf : List Char} {pos : Nat} (h : buf.length ≤ pos) :
    getC buf pos = '\x00' := by
  simp [getC, List.getD, List.getElem?_eq_none h]

theorem lt_length_of_getC_ne_nul {buf : List Char} {pos : Nat}
    (h : getC buf pos ≠ '\x00') : pos < buf.length := by
  by_contra hge
  exact h (getC_eq_nul_of_ge (Nat.le_of_not_lt hge))

theorem getC_cons_zero {c : Char} {l : List Char} : getC (c :: l) 0 = c := rfl

theorem getC_cons_succ {c : Char} {l : List Char} {n : Nat} :
    getC (c :: l) (n + 1) = getC l n := rfl

theorem getC_append_left {a b : List Char} {pos : Nat} (h : pos < a.length) :
    getC (a ++ b) pos = getC a pos := by
  simp [getC, List.getD, List.getElem?_append_left h]

theorem getC_append_right {a b : List Char} {k : Nat} :
    getC (a ++ b) (a.length + k) = getC b k := by
  simp [getC, List.getD, List.getElem?_append_right (Nat.le_add_right a.length k)]

theorem getC_set_self {buf : List Char} {pos : Nat} {c : Char}
    (h : pos < buf.length) : getC (buf.set pos c) pos = c := by
  simp [getC, List.getD, List.getElem?_set_self', h]

theorem getC_set_ne {buf : List Char} {i pos : Nat} {c : Char} (h : i ≠ pos) :
    getC (buf.set i c) pos = getC buf pos := by
  simp [getC, List.getD, List.getElem?_set_ne h]

theorem set_append_left {a b : List Char} {i : Nat} {c : Char} (h : i < a.length) :
    (a ++ b).set i c = a.set i c ++ b := by
  simp [List.set_append, h]

/-! ## Scanner bounds: every successful scan returns an in-buffer
position at or beyond its start -/

theorem goWhileAux_some {set buf : List Char} :
    ∀ {fuel pos p : Nat}, goWhileAux set buf fuel pos = some p →
      pos ≤ p ∧ p < buf.length ∧ getC buf p ≠ '\x00' ∧
        isOneOfThem (getC buf p) set = false
  | 0, _, _, h => by simp [goWhileAux] at h
  | fuel + 1, pos, p, h => by
    rw [goWhileAux] at h
    by_cases h0 : getC buf pos = '\x00'
    · simp [h0] at h
    · by_cases h1 : isOneOfThem (getC buf pos) set
      · rw [if_neg h0, if_pos h1] at h
        obtain ⟨h2, h3, h4, h5⟩ := goWhileAux_some h
        exact ⟨Nat.le_of_succ_le h2, h3, h4, h5⟩
      · rw [if_neg h0, if_neg h1] at h
        cases h
        exact ⟨Nat.le_refl _, lt_length_of_getC_ne_nul h0, h0, by simpa using h1⟩

theorem goWhile_some {buf set : List Char} {pos p : Nat}
    (h : goWhile buf set pos = some p) :
    pos ≤ p ∧ p < buf.length ∧ getC buf p ≠ '\x00' ∧
      isOneOfThem (getC buf p) set = false :=
  goWhileAux_some h

theorem goBlank_some {buf : List Char} {pos p : Nat}
    (h : goBlank buf pos = some p) :
    pos ≤ p ∧ p < buf.length ∧ getC buf p ≠ '\x00' ∧
      isOneOfThem (getC buf p) blank = false :=
  goWhile_some h

theorem goNumAux_some {buf : List Char} :
    ∀ {fuel pos p : Nat}, goNumAux buf fuel pos = some p →
      pos ≤ p ∧ p < buf.length ∧ getC buf p ≠ '\x00' ∧
        isdigitC (getC buf p) = false
  | 0, _, _, h => by simp [goNumAux] at h
  | fuel + 1, pos, p, h => by
    rw [goNumAux] at h
    by_cases h0 : getC buf pos = '\x00'
    · simp [h0] at h
    · by_cases h1 : isdigitC (getC buf pos)
      · rw [if_neg h0, if_pos h1] at h
        obtain ⟨h2, h3, h4, h5⟩ := goNumAux_some h
        exact ⟨Nat.le_of_succ_le h2, h3, h4, h5⟩
      · rw [if_neg h0, if_neg h1] at h
        cases h
        exact ⟨Nat.le_refl _, lt_length_of_getC_ne_nul h0, h0, by simpa using h1⟩

theorem goNum_some {buf : List Char} {pos p : Nat} (h : goNum buf pos = some p) :
    pos ≤ p ∧ p < buf.length ∧ getC buf p ≠ '\x00' ∧
      isdigitC (getC buf p) = false :=
  goNumAux_some h

/-- A digit at the start forces a successful digit run to advance. -/
theorem goNumAux_succ_of_digit {buf : List Char} {fuel pos p : Nat}
    (hd : isdigitC (getC buf pos)) (h : goNumAux buf fuel pos = some p) :
    pos + 1 ≤ p := by
  match fuel with
  | 0 => simp [goNumAux] at h
  | fuel + 1 =>
    have h0 : getC buf pos ≠ '\x00' := by
      intro hnul; rw [hnul] at hd; simp [isdigitC] at hd
    rw [goNumAux, if_neg h0, if_pos hd] at h
    exact (goNumAux_some h).1

theorem goNum_succ_of_digit {buf : List Char} {pos p : Nat}
    (hd : isdigitC (getC buf pos)) (h : goNum buf pos = some p) : pos + 1 ≤ p :=
  goNumAux_succ_of_digit hd h

theorem parseStringAux_some :
    ∀ {fuel : Nat} {buf : List Char} {head tail : Nat} {buf' : List Char} {p : Nat},
      parseStringAux fuel buf head tail = some (buf', p) →
      head + 1 ≤ p ∧ p ≤ buf.length ∧ buf'.length = buf.length
  | 0, _, _, _, _, _, h => by simp [parseStringAux] at h
  | fuel + 1, buf, head, tail, buf', p, h => by
    rw [parseStringAux] at h
    by_cases h0 : getC buf head = '\x00'
    · simp [h0] at h
    · have hlt : head < buf.length := lt_length_of_getC_ne_nul h0
      by_cases h1 : getC buf head = '\"'
      · rw [if_neg h0, if_pos h1] at h
        simp only [Option.some.injEq, Prod.mk.injEq] at h
        obtain ⟨hb, hp⟩ := h
        subst hb; subst hp
        exact ⟨Nat.le_refl _, hlt, by simp⟩
      · by_cases h2 : getC buf head = '\\'
        · rw [if_neg h0, if_neg h1, if_pos h2] at h
          by_cases h3 : getC buf (head + 1) = 'u'
          · rw [if_pos h3] at h
            by_cases h4 : getCharFromUnicode buf (head + 2) = '\x00'
            · simp [h4] at h
            · rw [if_neg h4] at h
              obtain ⟨h5, h6, h7⟩ := parseStringAux_some h
              simp only [List.length_set] at h6 h7
              exact ⟨by omega, h6, h7⟩
          · rw [if_neg h3] at h
            by_cases h4 : getEscape (getC buf (head + 1)) = '\x00'
            · simp [h4] at h
            · rw [if_neg h4] at h
              obtain ⟨h5, h6, h7⟩ := parseStringAux_some h
              simp only [List.length_set] at h6 h7
              exact ⟨by omega, h6, h7⟩
        · rw [if_neg h0, if_neg h1, if_neg h2] at h
          obtain ⟨h5, h6, h7⟩ := parseStringAux_some h
          simp only [List.length_set] at h6 h7
          exact ⟨by omega, h6, h7⟩

theorem parseString_some {buf : List Char} {pos : Nat} {buf' : List Char} {p : Nat}
    (h : parseString buf pos = some (buf', p)) :
    pos + 1 ≤ p ∧ p ≤ buf.length ∧ buf'.length = buf.length :=
  parseStringAux_some h

theorem checkStr_some {buf : List Char} :
    ∀ {str : List Char} {pos p : Nat}, checkStr buf pos str = some p →
      p = pos + str.length
  | [], pos, p, h => by
    rw [checkStr] at h
    cases h
    simp
  | c :: cs, pos, p, h => by
    rw [checkStr] at h
    by_cases h0 : getC buf pos = c
    · rw [if_pos h0] at h
      have := checkStr_some h
      simp only [List.length_cons]
      omega
    · simp [h0] at h

/-- A successful match against a NUL-free nonempty literal ends inside the
buffer. -/
theorem checkStr_le_length {buf : List Char} :
    ∀ {str : List Char} {pos p : Nat}, str ≠ [] → (∀ c ∈ str, c ≠ '\x00') →
      checkStr buf pos str = some p → p ≤ buf.length
  | [], _, _, hne, _, _ => absurd rfl hne
  | c :: cs, pos, p, _, hnul, h => by
    rw [checkStr] at h
    by_cases h0 : getC buf pos = c
    · rw [if_pos h0] at h
      match cs, h with
      | [], h =>
        rw [checkStr] at h
        cases h
        have : pos < buf.length := by
          apply lt_length_of_getC_ne_nul
          rw [h0]
          exact hnul c (by simp)
        omega
      | c' :: cs', h =>
        exact checkStr_le_length (by simp) (fun x hx => hnul x (by simp [hx])) h
    · simp [h0] at h

theorem setToNull_length {buf : List Char} {pos : Nat} :
    (setToNull buf pos).1.length = buf.length := by
  rw [setToNull]
  split <;> simp

theorem setToNull_pos {buf : List Char} {pos : Nat} :
    pos ≤ (setToNull buf pos).2 ∧ (setToNull buf pos).2 ≤ pos + 1 := by
  rw [setToNull]
  split <;> simp

theorem setToNull_le_length {buf : List Char} {pos : Nat} (h : pos < buf.length) :
    (setToNull buf pos).2 ≤ buf.length := by
  rw [setToNull]
  split <;> simp <;> omega

theorem isEndOfPrimitive_ne_nul {c : Char} (h : isEndOfPrimitive c = true) :
    c ≠ '\x00' := by
  intro hc
  subst hc
  simp [isEndOfPrimitive, isOneOfThem, blank, endofblock] at h

/-! ## Inversion lemmas for the value parsers -/

theorem fraqValue_some {buf : List Char} {pos p : Nat}
    (h : fraqValue buf pos = some p) :
    pos + 1 ≤ p ∧ p < buf.length ∧ isdigitC (getC buf p) = false := by
  rw [fraqValue] at h
  by_cases h0 : isdigitC (getC buf pos)
  · rw [if_neg (by simp [h0])] at h
    rcases h1 : goNum buf (pos + 1) with _ | q
    · rw [h1] at h; cases h
    · rw [h1] at h
      cases h
      obtain ⟨h2, h3, _, h5⟩ := goNum_some h1
      exact ⟨h2, h3, h5⟩
  · rw [if_pos (by simp [h0])] at h
    cases h

theorem expValue_some {buf : List Char} {pos p : Nat}
    (h : expValue buf pos = some p) :
    pos + 1 ≤ p ∧ p < buf.length ∧ isdigitC (getC buf p) = false := by
  rw [expValue] at h
  set p0 := if getC buf pos = '-' ∨ getC buf pos = '+' then pos + 1 else pos with hp0
  have hle : pos ≤ p0 := by rw [hp0]; split <;> omega
  by_cases h0 : isdigitC (getC buf p0)
  · rw [if_neg (by simp [h0])] at h
    obtain ⟨h2, h3, _, h5⟩ := goNum_some h
    exact ⟨by omega, h3, h5⟩
  · rw [if_pos (by simp [h0])] at h
    cases h

/-- Full inversion of a successful `numValue`: some end position `p3`
strictly beyond the start carries an end-of-primitive character in the
*unmodified* buffer, and the result is exactly `setToNull` applied there,
with the node tagged Integer or Real. -/
theorem numValue_inv {buf : List Char} {pos : Nat} {prop : JNode}
    {r : List Char × Nat × JNode} (h : numValue buf pos prop = some r) :
    ∃ p3 ty, pos < p3 ∧ isEndOfPrimitive (getC buf p3) = true ∧
      (ty = jsonType.JSON_INTEGER ∨ ty = jsonType.JSON_REAL) ∧
      r = ((setToNull buf p3).1, (setToNull buf p3).2, { prop with type := ty }) := by
  rw [numValue] at h
  set p0 := if getC buf pos = '-' then pos + 1 else pos with hp0
  have hle0 : pos ≤ p0 := by rw [hp0]; split <;> omega
  by_cases hd0 : isdigitC (getC buf p0)
  · rw [if_neg (by simp [hd0])] at h
    have hmant : ∀ {p1 : Nat},
        (if getC buf p0 ≠ '0' then goNum buf p0
         else if isdigitC (getC buf (p0 + 1)) then none else some (p0 + 1)) = some p1 →
        p0 + 1 ≤ p1 := by
      intro p1 hm
      by_cases hz : getC buf p0 = '0'
      · rw [if_neg (by simp [hz])] at hm
        by_cases hdd : isdigitC (getC buf (p0 + 1))
        · rw [if_pos hdd] at hm; cases hm
        · rw [if_neg hdd] at hm; cases hm; omega
      · rw [if_pos hz] at hm
        exact goNum_succ_of_digit hd0 hm
    rcases hm : (if getC buf p0 ≠ '0' then goNum buf p0
        else if isdigitC (getC buf (p0 + 1)) then none else some (p0 + 1)) with _ | p1
    · rw [hm] at h; simp at h
    · rw [hm] at h
      try simp only [] at h
      have hp1 : p0 + 1 ≤ p1 := hmant hm
      rcases hfr : (if getC buf p1 = '.' then
          match fraqValue buf (p1 + 1) with
          | none => none
          | some p2 => some (p2, jsonType.JSON_REAL)
        else some (p1, jsonType.JSON_INTEGER)) with _ | ⟨p2, ty2⟩
      · rw [hfr] at h; simp at h
      · rw [hfr] at h
        try simp only [] at h
        have hp2 : p1 ≤ p2 := by
          by_cases hdot : getC buf p1 = '.'
          · rw [if_pos hdot] at hfr
            rcases hfq : fraqValue buf (p1 + 1) with _ | q
            · rw [hfq] at hfr; cases hfr
            · rw [hfq] at hfr
              cases hfr
              have := (fraqValue_some hfq).1
              omega
          · rw [if_neg hdot] at hfr; cases hfr; omega
        rcases hex : (if getC buf p2 = 'e' ∨ getC buf p2 = 'E' then
            match expValue buf (p2 + 1) with
            | none => none
            | some p3 => some (p3, jsonType.JSON_REAL)
          else some (p2, ty2)) with _ | ⟨p3, ty3⟩
        · rw [hex] at h; simp at h
        · rw [hex] at h
          try simp only [] at h
          have hp3 : p2 ≤ p3 := by
            by_cases he : getC buf p2 = 'e' ∨ getC buf p2 = 'E'
            · rw [if_pos he] at hex
              rcases hev : expValue buf (p2 + 1) with _ | q
              · rw [hev] at hex; cases hex
              · rw [hev] at hex
                cases hex
                have := (expValue_some hev).1
                omega
            · rw [if_neg he] at hex; cases hex; omega
          have hty : ty3 = jsonType.JSON_INTEGER ∨ ty3 = jsonType.JSON_REAL := by
            by_cases he : getC buf p2 = 'e' ∨ getC buf p2 = 'E'
            · rw [if_pos he] at hex
              rcases hev : expValue buf (p2 + 1) with _ | q
              · rw [hev] at hex; cases hex
              · rw [hev] at hex; cases hex; right; rfl
            · rw [if_neg he] at hex
              cases hex
              by_cases hdot : getC buf p1 = '.'
              · rw [if_pos hdot] at hfr
                rcases hfq : fraqValue buf (p1 + 1) with _ | q
                · rw [hfq] at hfr; cases hfr
                · rw [hfq] at hfr; cases hfr; right; rfl
              · rw [if_neg hdot] at hfr; cases hfr; left; rfl
          by_cases heop : isEndOfPrimitive (getC buf p3)
          · rw [if_neg (by simp [heop])] at h
            rcases hok : (if ty3 = jsonType.JSON_INTEGER then intOkC buf prop.value p3
              else true) with _ | _
            · rw [hok] at h
              simp at h
            · rw [hok] at h
              rw [if_pos rfl] at h
              simp only [Option.some.injEq] at h
              exact ⟨p3, ty3, by omega, heop, hty, h.symm⟩
          · rw [if_pos (by simp [heop])] at h
            cases h
  · rw [if_pos (by simp [hd0])] at h
    cases h

/-- Bounds extracted from `numValue_inv`. -/
theorem numValue_bounds {buf : List Char} {pos : Nat} {prop : JNode}
    {buf' : List Char} {q : Nat} {prop' : JNode}
    (h : numValue buf pos prop = some (buf', q, prop')) :
    pos < q ∧ q ≤ buf.length ∧ buf'.length = buf.length := by
  obtain ⟨p3, ty, h1, h2, _, h4⟩ := numValue_inv h
  have hlt : p3 < buf.length := lt_length_of_getC_ne_nul (isEndOfPrimitive_ne_nul h2)
  simp only [Prod.mk.injEq] at h4
  obtain ⟨hb, hq, _⟩ := h4
  subst hb; subst hq
  have := @setToNull_pos buf p3
  have := setToNull_le_length hlt
  have := @setToNull_length buf p3
  exact ⟨by omega, by omega, by assumption⟩

/-- When the literal matches, `primitiveValue` succeeds exactly when the
following character is an end-of-primitive delimiter. -/
theorem primitiveValue_eq {buf : List Char} {pos : Nat} {prop : JNode}
    {value : List Char} {ty : jsonType} {p : Nat}
    (h : checkStr buf pos value = some p) :
    primitiveValue buf pos prop value ty =
      if isEndOfPrimitive (getC buf p) then
        some ((setToNull buf p).1, (setToNull buf p).2, { prop with type := ty })
      else none := by
  rw [primitiveValue, h]
  simp only []
  by_cases he : isEndOfPrimitive (getC buf p)
  · rw [if_neg (by simp [he]), if_pos he]
  · rw [if_pos (by simp [he]), if_neg he]

/-- Inversion of a successful `primitiveValue`. -/
theorem primitiveValue_inv {buf : List Char} {pos : Nat} {prop : JNode}
    {value : List Char} {ty : jsonType} {r : List Char × Nat × JNode}
    (h : primitiveValue buf pos prop value ty = some r) :
    ∃ p, checkStr buf pos value = some p ∧ isEndOfPrimitive (getC buf p) = true ∧
      r = ((setToNull buf p).1, (setToNull buf p).2, { prop with type := ty }) := by
  rw [primitiveValue] at h
  rcases hc : checkStr buf pos value with _ | p
  · rw [hc] at h; simp at h
  · rw [hc] at h
    try simp only [] at h
    by_cases he : isEndOfPrimitive (getC buf p)
    · rw [if_neg (by simp [he])] at h
      simp only [Option.some.injEq] at h
      exact ⟨p, rfl, he, h.symm⟩
    · rw [if_pos (by simp [he])] at h
      cases h

/-- Bounds for a successful `primitiveValue` on a nonempty literal. -/
theorem primitiveValue_bounds {buf : List Char} {pos : Nat} {prop : JNode}
    {value : List Char} {ty : jsonType} {buf' : List Char} {q : Nat} {prop' : JNode}
    (hne : value ≠ []) (h : primitiveValue buf pos prop value ty = some (buf', q, prop')) :
    pos < q ∧ q ≤ buf.length ∧ buf'.length = buf.length := by
  obtain ⟨p, h1, h2, h3⟩ := primitiveValue_inv h
  have hp := checkStr_some h1
  have hlt : p < buf.length := lt_length_of_getC_ne_nul (isEndOfPrimitive_ne_nul h2)
  simp only [Prod.mk.injEq] at h3
  obtain ⟨hb, hq, _⟩ := h3
  subst hb; subst hq
  have := @setToNull_pos buf p
  have := setToNull_le_length hlt
  have := @setToNull_length buf p
  have hlen : value.length ≠ 0 := by
    intro h0
    exact hne (List.eq_nil_of_length_eq_zero h0)
  refine ⟨by omega, by omega, by assumption⟩

/-- Bounds for a successful `textValue`. -/
theorem textValue_bounds {buf : List Char} {pos : Nat} {prop : JNode}
    {buf' : List Char} {q : Nat} {prop' : JNode}
    (h : textValue buf pos prop = some (buf', q, prop')) :
    pos < q ∧ q ≤ buf.length ∧ buf'.length = buf.length := by
  rw [textValue] at h
  rcases hp : parseString buf (pos + 1) with _ | ⟨buf1, q1⟩
  · rw [hp] at h; simp at h
  · rw [hp] at h
    simp only [Option.some.injEq, Prod.mk.injEq] at h
    obtain ⟨hb, hq, _⟩ := h
    subst hb; subst hq
    obtain ⟨h1, h2, h3⟩ := parseString_some hp
    exact ⟨by omega, h2, h3⟩

/-- Bounds for a successful `propertyName`. -/
theorem propertyName_bounds {buf : List Char} {pos : Nat} {prop : JNode}
    {buf' : List Char} {q : Nat} {prop' : JNode}
    (h : propertyName buf pos prop = some (buf', q, prop')) :
    pos < q ∧ q < buf.length ∧ buf'.length = buf.length := by
  rw [propertyName] at h
  rcases hp : parseString buf (pos + 1) with _ | ⟨buf1, q1⟩
  · rw [hp] at h; simp at h
  · rw [hp] at h
    try simp only [] at h
    rcases hg1 : goBlank buf1 q1 with _ | r
    · rw [hg1] at h; simp at h
    · rw [hg1] at h
      try simp only [] at h
      by_cases hcolon : getC buf1 r = ':'
      · rw [if_neg (by simp [hcolon])] at h
        rcases hg2 : goBlank buf1 (r + 1) with _ | s
        · rw [hg2] at h; simp at h
        · rw [hg2] at h
          simp only [Option.some.injEq, Prod.mk.injEq] at h
          obtain ⟨hb, hq, _⟩ := h
          subst hb; subst hq
          obtain ⟨h1, h2, h3⟩ := parseString_some hp
          obtain ⟨h4, h5, _, _⟩ := goBlank_some hg1
          obtain ⟨h6, h7, _, _⟩ := goBlank_some hg2
          rw [h3] at h5 h7
          exact ⟨by omega, h7, h3⟩
      · rw [if_pos (by simp [hcolon])] at h
        cases h

/-- Fields preserved by a successful allocation. -/
theorem poolAlloc_inv {st st' : St} {i : Nat} (h : poolAlloc st = some (st', i)) :
    st'.buf = st.buf ∧ st'.nodes = st.nodes ∧ i = st.nextFree ∧
      st'.nextFree = st.nextFree + 1 ∧ i < st.nodes.length := by
  rw [poolAlloc] at h
  by_cases hge : st.nextFree ≥ st.nodes.length
  · rw [if_pos hge] at h; cases h
  · rw [if_neg hge] at h
    simp only [Option.some.injEq, Prod.mk.injEq] at h
    obtain ⟨hst, hi⟩ := h
    subst hst; subst hi
    exact ⟨rfl, rfl, rfl, rfl, by omega⟩

theorem setNode_buf {st : St} {i : Nat} {n : JNode} : (setNode st i n).buf = st.buf := rfl

theorem setNode_nodes_length {st : St} {i : Nat} {n : JNode} :
    (setNode st i n).nodes.length = st.nodes.length := by
  simp [setNode]

theorem mkStNodes_buf {st : St} {n : List JNode} :
    (({ st with nodes := n } : St)).buf = st.buf := rfl

theorem add_length {nodes : List JNode} {o p : Nat} :
    (add nodes o p).length = nodes.length := by
  rw [add]
  split
  · simp
  · split <;> simp

/-! ## Progress: every continuing iteration of the tree-builder loop
strictly advances the scan position and stays inside the buffer -/

theorem mkSt_buf {b : List Char} {n : List JNode} {f : Nat} :
    (({ buf := b, nodes := n, nextFree := f } : St)).buf = b := rfl

/-- Bounds for a successful scalar dispatch. -/
theorem scalarValue_bounds {buf : List Char} {pos : Nat} {prop : JNode}
    {buf' : List Char} {q : Nat} {prop' : JNode}
    (h : scalarValue buf pos prop = some (buf', q, prop')) :
    pos < q ∧ q ≤ buf.length ∧ buf'.length = buf.length := by
  rw [scalarValue] at h
  by_cases c1 : getC buf pos = '\"'
  · rw [if_pos c1] at h
    exact textValue_bounds h
  · rw [if_neg c1] at h
    by_cases c2 : getC buf pos = 't'
    · rw [if_pos c2] at h
      exact primitiveValue_bounds (by simp) h
    · rw [if_neg c2] at h
      by_cases c3 : getC buf pos = 'f'
      · rw [if_pos c3] at h
        exact primitiveValue_bounds (by simp) h
      · rw [if_neg c3] at h
        by_cases c4 : getC buf pos = 'n'
        · rw [if_pos c4] at h
          exact primitiveValue_bounds (by simp) h
        · rw [if_neg c4] at h
          exact numValue_bounds h

theorem objStep_cont {st : St} {pos objIdx : Nat} {st' : St} {p' o' : Nat}
    (h : objStep st pos objIdx = .cont st' p' o') :
    pos < p' ∧ p' ≤ st'.buf.length ∧ st'.buf.length = st.buf.length := by
  rw [objStep] at h
  rcases hgb : goBlank st.buf pos with _ | p
  · rw [hgb] at h; cases h
  · rw [hgb] at h
    try simp only [] at h
    obtain ⟨hpp, hplt, hpn, _⟩ := goBlank_some hgb
    by_cases hcomma : getC st.buf p = ','
    · rw [if_pos hcomma] at h
      cases h
      exact ⟨by omega, by omega, rfl⟩
    · rw [if_neg hcomma] at h
      by_cases hec : getC st.buf p =
          (if (getNode st objIdx).type = jsonType.JSON_OBJ then '}' else ']')
      · rw [if_pos hec] at h
        try simp only [] at h
        rcases hs : (getNode st objIdx).sibling with _ | parent
        · rw [hs] at h; cases h
        · rw [hs] at h
          cases h
          refine ⟨by omega, ?_, ?_⟩ <;> simp [setNode] <;> omega
      · rw [if_neg hec] at h
        rcases halloc : poolAlloc st with _ | ⟨st1, propIdx⟩
        · rw [halloc] at h; cases h
        · rw [halloc] at h
          try simp only [] at h
          obtain ⟨hb1, hn1, _, _, _⟩ := poolAlloc_inv halloc
          rcases hns : (if (getNode st objIdx).type ≠ jsonType.JSON_ARRAY then
              if getC st1.buf p ≠ '\"' then none
              else propertyName st1.buf p (getNode st1 propIdx)
            else some (st1.buf, p, { getNode st1 propIdx with name := none })) with _ | ⟨buf2, p2, prop2⟩
          · rw [hns] at h; cases h
          · rw [hns] at h
            try simp only [] at h
            have hname : p ≤ p2 ∧ p2 < buf2.length ∧ buf2.length = st.buf.length := by
              by_cases harr : (getNode st objIdx).type ≠ jsonType.JSON_ARRAY
              · rw [if_pos harr] at hns
                by_cases hq : getC st1.buf p ≠ '\"'
                · rw [if_pos hq] at hns; cases hns
                · rw [if_neg hq] at hns
                  obtain ⟨h1, h2, h3⟩ := propertyName_bounds hns
                  rw [hb1] at h2 h3
                  refine ⟨by omega, by omega, h3⟩
              · rw [if_neg harr] at hns
                simp only [Option.some.injEq, Prod.mk.injEq] at hns
                obtain ⟨hb, hp, _⟩ := hns
                subst hb; subst hp
                rw [hb1]
                exact ⟨Nat.le_refl _, hplt, rfl⟩
            obtain ⟨hn1', hn2', hn3'⟩ := hname
            split at h
            · -- container push
              cases h
              refine ⟨by omega, ?_, ?_⟩ <;>
                simp only [setNode_buf, mkStNodes_buf, mkSt_buf] <;> omega
            · -- scalar value
              split at h
              · cases h
              · rename_i buf5 p5 prop5 hres
                cases h
                obtain ⟨hv1, hv2, hv3⟩ := scalarValue_bounds hres
                simp only [setNode_buf, mkStNodes_buf, mkSt_buf] at hv2 hv3
                refine ⟨by omega, ?_, ?_⟩ <;>
                  simp only [setNode_buf, mkStNodes_buf, mkSt_buf] <;> omega

theorem objStep_done {st : St} {pos objIdx : Nat} {st' : St} {p' : Nat}
    (h : objStep st pos objIdx = .done st' p') :
    pos < p' ∧ p' ≤ st'.buf.length ∧ st'.buf.length = st.buf.length := by
  rw [objStep] at h
  rcases hgb : goBlank st.buf pos with _ | p
  · rw [hgb] at h; cases h
  · rw [hgb] at h
    try simp only [] at h
    obtain ⟨hpp, hplt, hpn, _⟩ := goBlank_some hgb
    by_cases hcomma : getC st.buf p = ','
    · rw [if_pos hcomma] at h; cases h
    · rw [if_neg hcomma] at h
      by_cases hec : getC st.buf p =
          (if (getNode st objIdx).type = jsonType.JSON_OBJ then '}' else ']')
      · rw [if_pos hec] at h
        try simp only [] at h
        rcases hs : (getNode st objIdx).sibling with _ | parent
        · rw [hs] at h
          cases h
          refine ⟨by omega, ?_, ?_⟩ <;> simp <;> omega
        · rw [hs] at h; cases h
      · rw [if_neg hec] at h
        rcases halloc : poolAlloc st with _ | ⟨st1, propIdx⟩
        · rw [halloc] at h; cases h
        · rw [halloc] at h
          try simp only [] at h
          rcases hns : (if (getNode st objIdx).type ≠ jsonType.JSON_ARRAY then
              if getC st1.buf p ≠ '\"' then none
              else propertyName st1.buf p (getNode st1 propIdx)
            else some (st1.buf, p, { getNode st1 propIdx with name := none })) with _ | ⟨buf2, p2, prop2⟩
          · rw [hns] at h; cases h
          · rw [hns] at h
            try simp only [] at h
            split at h
            · cases h
            · split at h
              · cases h
              · cases h

/-! ## Fuel adequacy for the tree-builder loop -/

/-- Past the terminating NUL the loop can only fail (the blank skip runs
off the buffer). -/
theorem objStep_fail_of_past {st : St} {pos objIdx : Nat}
    (h : st.buf.length + 1 ≤ pos) : objStep st pos objIdx = .fail := by
  rw [objStep]
  have : goBlank st.buf pos = none := by
    rw [goBlank, goWhile]
    have : st.buf.length + 1 - pos = 0 := by omega
    rw [this, goWhileAux]
  rw [this]

/-- Fuel beyond `buf.length + 1 - pos` is irrelevant: the loop's answer is
already determined, i.e. the loop terminates within that many iterations. -/
theorem objLoopN_succ :
    ∀ (fuel : Nat) (st : St) (pos objIdx : Nat),
      st.buf.length + 1 - pos ≤ fuel →
      objLoopN (fuel + 1) st pos objIdx = objLoopN fuel st pos objIdx
  | 0, st, pos, objIdx, hle => by
    have hpast : st.buf.length + 1 ≤ pos := by omega
    rw [objLoopN, objLoopN, objStep_fail_of_past hpast]
  | fuel + 1, st, pos, objIdx, hle => by
    rw [objLoopN]
    conv_rhs => rw [objLoopN]
    cases hstep : objStep st pos objIdx with
    | fail => rfl
    | done st' p' => rfl
    | cont st' p' o' =>
      obtain ⟨h1, h2, h3⟩ := objStep_cont hstep
      exact objLoopN_succ fuel st' p' o' (by omega)

/-- Extra fuel cannot change an already-successful run. -/
theorem objLoopN_mono :
    ∀ (fuel fuel' : Nat) (st : St) (pos objIdx : Nat) (r : St × Nat),
      fuel ≤ fuel' → objLoopN fuel st pos objIdx = some r →
      objLoopN fuel' st pos objIdx = some r
  | 0, _, _, _, _, _, _, h => by rw [objLoopN] at h; cases h
  | fuel + 1, 0, _, _, _, _, hle, _ => by omega
  | fuel + 1, fuel' + 1, st, pos, objIdx, r, hle, h => by
    rw [objLoopN] at h
    rw [objLoopN]
    cases hstep : objStep st pos objIdx with
    | fail => rw [hstep] at h; cases h
    | done st' p' => rw [hstep] at h; exact h
    | cont st' p' o' =>
      rw [hstep] at h
      exact objLoopN_mono fuel fuel' st' p' o' r (by omega) h

/-! ## Frame property: a successful scan only depends on (and only
mutates) the buffer prefix it visits, so appending trailing bytes
changes nothing -/

theorem isdigitC_ne_nul {c : Char} (h : isdigitC c = true) : c ≠ '\x00' := by
  intro hc
  subst hc
  exact absurd h (by decide)

theorem isxdigitC_ne_nul {c : Char} (h : isxdigitC c = true) : c ≠ '\x00' := by
  intro hc
  subst hc
  exact absurd h (by decide)

theorem getEscape_arg_ne_nul {c : Char} (h : getEscape c ≠ '\x00') : c ≠ '\x00' := by
  intro hc
  subst hc
  exact h (by decide)

theorem getC_append_stable {buf ext : List Char} {pos : Nat}
    (h : getC buf pos ≠ '\x00') : getC (buf ++ ext) pos = getC buf pos :=
  getC_append_left (lt_length_of_getC_ne_nul h)

theorem getCharFromUnicode_append {buf ext : List Char} {pos : Nat}
    (h : getCharFromUnicode buf pos ≠ '\x00') :
    getCharFromUnicode (buf ++ ext) pos = getCharFromUnicode buf pos := by
  rw [getCharFromUnicode] at h
  by_cases hc : (isxdigitC (getC buf pos) && isxdigitC (getC buf (pos + 1)) &&
      isxdigitC (getC buf (pos + 2)) && isxdigitC (getC buf (pos + 3))) = true
  · simp only [Bool.and_eq_true] at hc
    obtain ⟨⟨⟨h0, h1⟩, h2⟩, h3⟩ := hc
    rw [getCharFromUnicode, getCharFromUnicode,
      getC_append_stable (isxdigitC_ne_nul h0),
      getC_append_stable (isxdigitC_ne_nul h1),
      getC_append_stable (isxdigitC_ne_nul h2),
      getC_append_stable (isxdigitC_ne_nul h3)]
  · rw [if_neg hc] at h
    exact absurd rfl h

theorem goWhileAux_mono {set buf : List Char} :
    ∀ {fuel fuel' pos p : Nat}, fuel ≤ fuel' →
      goWhileAux set buf fuel pos = some p → goWhileAux set buf fuel' pos = some p
  | 0, _, _, _, _, h => by rw [goWhileAux] at h; cases h
  | fuel + 1, fuel' + 1, pos, p, hle, h => by
    rw [goWhileAux] at h
    rw [goWhileAux]
    by_cases h0 : getC buf pos = '\x00'
    · rw [if_pos h0] at h; cases h
    · rw [if_neg h0] at h
      rw [if_neg h0]
      by_cases h1 : isOneOfThem (getC buf pos) set
      · rw [if_pos h1] at h
        rw [if_pos h1]
        exact goWhileAux_mono (by omega) h
      · rw [if_neg h1] at h
        rw [if_neg h1]
        exact h

theorem goWhileAux_append {set buf ext : List Char} :
    ∀ {fuel pos p : Nat}, goWhileAux set buf fuel pos = some p →
      goWhileAux set (buf ++ ext) fuel pos = some p
  | 0, _, _, h => by rw [goWhileAux] at h; cases h
  | fuel + 1, pos, p, h => by
    rw [goWhileAux] at h
    rw [goWhileAux]
    by_cases h0 : getC buf pos = '\x00'
    · rw [if_pos h0] at h; cases h
    · rw [if_neg h0] at h
      rw [getC_append_stable h0, if_neg h0]
      by_cases h1 : isOneOfThem (getC buf pos) set
      · rw [if_pos h1] at h
        rw [if_pos h1]
        exact goWhileAux_append h
      · rw [if_neg h1] at h
        rw [if_neg h1]
        exact h

theorem goWhile_append {buf set ext : List Char} {pos p : Nat}
    (h : goWhile buf set pos = some p) : goWhile (buf ++ ext) set pos = some p := by
  rw [goWhile] at h
  rw [goWhile]
  refine goWhileAux_mono ?_ (goWhileAux_append h)
  simp only [List.length_append]
  omega

theorem goBlank_append {buf ext : List Char} {pos p : Nat}
    (h : goBlank buf pos = some p) : goBlank (buf ++ ext) pos = some p :=
  goWhile_append h

theorem goNumAux_mono {buf : List Char} :
    ∀ {fuel fuel' pos p : Nat}, fuel ≤ fuel' →
      goNumAux buf fuel pos = some p → goNumAux buf fuel' pos = some p
  | 0, _, _, _, _, h => by rw [goNumAux] at h; cases h
  | fuel + 1, fuel' + 1, pos, p, hle, h => by
    rw [goNumAux] at h
    rw [goNumAux]
    by_cases h0 : getC buf pos = '\x00'
    · rw [if_pos h0] at h; cases h
    · rw [if_neg h0] at h
      rw [if_neg h0]
      by_cases h1 : isdigitC (getC buf pos)
      · rw [if_pos h1] at h
        rw [if_pos h1]
        exact goNumAux_mono (by omega) h
      · rw [if_neg h1] at h
        rw [if_neg h1]
        exact h

theorem goNumAux_append {buf ext : List Char} :
    ∀ {fuel pos p : Nat}, goNumAux buf fuel pos = some p →
      goNumAux (buf ++ ext) fuel pos = some p
  | 0, _, _, h => by rw [goNumAux] at h; cases h
  | fuel + 1, pos, p, h => by
    rw [goNumAux] at h
    rw [goNumAux]
    by_cases h0 : getC buf pos = '\x00'
    · rw [if_pos h0] at h; cases h
    · rw [if_neg h0] at h
      rw [getC_append_stable h0, if_neg h0]
      by_cases h1 : isdigitC (getC buf pos)
      · rw [if_pos h1] at h
        rw [if_pos h1]
        exact goNumAux_append h
      · rw [if_neg h1] at h
        rw [if_neg h1]
        exact h

theorem goNum_append {buf ext : List Char} {pos p : Nat}
    (h : goNum buf pos = some p) : goNum (buf ++ ext) pos = some p := by
  rw [goNum] at h
  rw [goNum]
  refine goNumAux_mono ?_ (goNumAux_append h)
  simp only [List.length_append]
  omega

theorem checkStr_append {buf ext : List Char} :
    ∀ {str : List Char} {pos p : Nat}, (∀ c ∈ str, c ≠ '\x00') →
      checkStr buf pos str = some p → checkStr (buf ++ ext) pos str = some p
  | [], pos, p, _, h => h
  | c :: cs, pos, p, hnul, h => by
    rw [checkStr] at h
    rw [checkStr]
    by_cases h0 : getC buf pos = c
    · rw [if_pos h0] at h
      have hc : getC buf pos ≠ '\x00' := by
        rw [h0]
        exact hnul c (by simp)
      rw [getC_append_stable hc, if_pos h0]
      exact checkStr_append (fun x hx => hnul x (by simp [hx])) h
    · rw [if_neg h0] at h; cases h

theorem setToNull_append {buf ext : List Char} {pos : Nat} (h : pos < buf.length) :
    setToNull (buf ++ ext) pos =
      ((setToNull buf pos).1 ++ ext, (setToNull buf pos).2) := by
  rw [setToNull, setToNull, getC_append_left h]
  by_cases hc : isOneOfThem (getC buf pos) endofblock
  · rw [if_pos hc, if_pos hc]
  · rw [if_neg hc, if_neg hc, set_append_left h]

theorem parseStringAux_append {ext : List Char} :
    ∀ {fuel : Nat} {buf : List Char} {head tail : Nat} {buf' : List Char} {p : Nat},
      tail ≤ head →
      parseStringAux fuel buf head tail = some (buf', p) →
      parseStringAux fuel (buf ++ ext) head tail = some (buf' ++ ext, p)
  | 0, _, _, _, _, _, _, h => by rw [parseStringAux] at h; cases h
  | fuel + 1, buf, head, tail, buf', p, hth, h => by
    rw [parseStringAux] at h
    rw [parseStringAux]
    by_cases h0 : getC buf head = '\x00'
    · rw [if_pos h0] at h; cases h
    · have hlt : head < buf.length := lt_length_of_getC_ne_nul h0
      rw [if_neg h0] at h
      rw [getC_append_stable h0, if_neg h0]
      by_cases h1 : getC buf head = '\"'
      · rw [if_pos h1] at h
        rw [if_pos h1]
        simp only [Option.some.injEq, Prod.mk.injEq] at h
        obtain ⟨hb, hp⟩ := h
        subst hb; subst hp
        rw [set_append_left (by omega)]
      · rw [if_neg h1] at h
        rw [if_neg h1]
        by_cases h2 : getC buf head = '\\'
        · rw [if_pos h2] at h
          rw [if_pos h2]
          by_cases h3 : getC buf (head + 1) = 'u'
          · have hn1 : getC buf (head + 1) ≠ '\x00' := by
              rw [h3]; decide
            rw [if_pos h3] at h
            rw [getC_append_stable hn1, if_pos h3]
            by_cases h4 : getCharFromUnicode buf (head + 2) = '\x00'
            · rw [if_pos h4] at h; cases h
            · rw [if_neg h4] at h
              rw [getCharFromUnicode_append h4, if_neg h4]
              rw [set_append_left (by omega : tail < buf.length)]
              exact parseStringAux_append (by omega) h
          · rw [if_neg h3] at h
            by_cases h4 : getEscape (getC buf (head + 1)) = '\x00'
            · rw [if_pos h4] at h; cases h
            · have hn1 : getC buf (head + 1) ≠ '\x00' := getEscape_arg_ne_nul h4
              rw [getC_append_stable hn1, if_neg h3, if_neg h4]
              rw [if_neg h4] at h
              rw [set_append_left (by omega : tail < buf.length)]
              exact parseStringAux_append (by omega) h
        · rw [if_neg h2] at h
          rw [if_neg h2]
          rw [set_append_left (by omega : tail < buf.length)]
          exact parseStringAux_append (by omega) h

theorem parseString_append {buf ext : List Char} {pos : Nat} {buf' : List Char} {p : Nat}
    (h : parseString buf pos = some (buf', p)) :
    parseString (buf ++ ext) pos = some (buf' ++ ext, p) := by
  rw [parseString] at h
  rw [parseString]
  have hm : ∀ {fuel fuel' : Nat} {b : List Char} {hd tl : Nat} {r : List Char × Nat},
      fuel ≤ fuel' → parseStringAux fuel b hd tl = some r →
      parseStringAux fuel' b hd tl = some r := by
    intro fuel
    induction fuel with
    | zero => intro fuel' b hd tl r _ h; rw [parseStringAux] at h; cases h
    | succ n ih =>
      intro fuel' b hd tl r hle h
      match fuel', hle with
      | m + 1, hle =>
        rw [parseStringAux] at h
        rw [parseStringAux]
        by_cases h0 : getC b hd = '\x00'
        · rw [if_pos h0] at h; cases h
        · rw [if_neg h0] at h
          rw [if_neg h0]
          by_cases h1 : getC b hd = '\"'
          · rw [if_pos h1] at h
            rw [if_pos h1]
            exact h
          · rw [if_neg h1] at h
            rw [if_neg h1]
            by_cases h2 : getC b hd = '\\'
            · rw [if_pos h2] at h
              rw [if_pos h2]
              by_cases h3 : getC b (hd + 1) = 'u'
              · rw [if_pos h3] at h
                rw [if_pos h3]
                by_cases h4 : getCharFromUnicode b (hd + 2) = '\x00'
                · rw [if_pos h4] at h; cases h
                · rw [if_neg h4] at h
                  rw [if_neg h4]
                  exact ih (by omega) h
              · rw [if_neg h3] at h
                rw [if_neg h3]
                by_cases h4 : getEscape (getC b (hd + 1)) = '\x00'
                · rw [if_pos h4] at h; cases h
                · rw [if_neg h4] at h
                  rw [if_neg h4]
                  exact ih (by omega) h
            · rw [if_neg h2] at h
              rw [if_neg h2]
              exact ih (by omega) h
  refine hm ?_ (parseStringAux_append (Nat.le_refl _) h)
  simp only [List.length_append]
  omega

/-! ## The `numValue` trace: success is equivalent to a `NumRun` -/

/-- Position facts of a trace: the scan strictly advances and ends on an
in-buffer delimiter. -/
theorem NumRun_bounds {buf : List Char} {pos : Nat} {prop : JNode}
    {p1 p2 p3 : Nat} {hF hE : Bool} (h : NumRun buf pos prop p1 p2 p3 hF hE) :
    pos < buf.length ∧ pos < p1 ∧ p1 ≤ p2 ∧ p2 ≤ p3 ∧ p3 < buf.length := by
  rw [NumRun] at h
  try simp only [] at h
  set p0 := if getC buf pos = '-' then pos + 1 else pos with hp0
  obtain ⟨hd0, hm, hf, he, heop, _⟩ := h
  have hple : pos ≤ p0 := by rw [hp0]; split <;> omega
  have hposlt : pos < buf.length := by
    rw [hp0] at hd0
    by_cases hms : getC buf pos = '-'
    · exact lt_length_of_getC_ne_nul (by rw [hms]; decide)
    · rw [if_neg hms] at hd0
      exact lt_length_of_getC_ne_nul (isdigitC_ne_nul hd0)
  have hp01 : p0 < p1 := by
    by_cases hz : getC buf p0 = '0'
    · rw [if_pos hz] at hm
      omega
    · rw [if_neg hz] at hm
      exact goNum_succ_of_digit hd0 hm
  have hp12 : p1 ≤ p2 := by
    cases hF with
    | false => rw [if_neg (by simp)] at hf; omega
    | true =>
      rw [if_pos rfl] at hf
      have := (fraqValue_some hf.2).1
      omega
  have hp23 : p2 ≤ p3 := by
    cases hE with
    | false => rw [if_neg (by simp)] at he; omega
    | true =>
      rw [if_pos rfl] at he
      have := (expValue_some he.2).1
      omega
  have hp3lt : p3 < buf.length := lt_length_of_getC_ne_nul (isEndOfPrimitive_ne_nul heop)
  exact ⟨hposlt, by omega, hp12, hp23, hp3lt⟩

/-- Construction: a trace makes `numValue` succeed with exactly the
`setToNull`-terminated result and the Integer/Real tag of the trace. -/
theorem numValue_some_of_run {buf : List Char} {pos : Nat} {prop : JNode}
    {p1 p2 p3 : Nat} {hF hE : Bool} (h : NumRun buf pos prop p1 p2 p3 hF hE) :
    numValue buf pos prop =
      some ((setToNull buf p3).1, (setToNull buf p3).2,
        { prop with type := if hF || hE then .JSON_REAL else .JSON_INTEGER }) := by
  rw [NumRun] at h
  try simp only [] at h
  rw [numValue]
  try simp only []
  set p0 := if getC buf pos = '-' then pos + 1 else pos with hp0
  obtain ⟨hd0, hm, hf, he, heop, hok⟩ := h
  rw [if_neg (by simp [hd0])]
  have hmant : (if getC buf p0 ≠ '0' then goNum buf p0
      else if isdigitC (getC buf (p0 + 1)) = true then none else some (p0 + 1)) = some p1 := by
    by_cases hz : getC buf p0 = '0'
    · rw [if_pos hz] at hm
      rw [if_neg (by simp [hz]), if_neg (by simp [hm.1])]
      rw [hm.2]
    · rw [if_neg hz] at hm
      rw [if_pos hz, hm]
  rw [hmant]
  simp only []
  cases hF with
  | true =>
    rw [if_pos rfl] at hf
    rw [if_pos hf.1, hf.2]
    simp only []
    cases hE with
    | true =>
      rw [if_pos rfl] at he
      rw [if_pos he.1, he.2]
      simp only []
      rw [if_neg (by simp [heop])]
      rw [if_neg (by simp : ¬ (jsonType.JSON_REAL = jsonType.JSON_INTEGER))]
      rw [if_pos rfl]
      simp
    | false =>
      rw [if_neg (by simp)] at he
      obtain ⟨hne, hpe⟩ := he
      subst hpe
      rw [if_neg hne]
      simp only []
      rw [if_neg (by simp [heop])]
      rw [if_neg (by simp : ¬ (jsonType.JSON_REAL = jsonType.JSON_INTEGER))]
      rw [if_pos rfl]
      simp
  | false =>
    rw [if_neg (by simp)] at hf
    obtain ⟨hnd, hp2e⟩ := hf
    subst hp2e
    rw [if_neg hnd]
    simp only []
    cases hE with
    | true =>
      rw [if_pos rfl] at he
      rw [if_pos he.1, he.2]
      simp only []
      rw [if_neg (by simp [heop])]
      rw [if_neg (by simp : ¬ (jsonType.JSON_REAL = jsonType.JSON_INTEGER))]
      rw [if_pos rfl]
      simp
    | false =>
      rw [if_neg (by simp)] at he
      obtain ⟨hne, hpe⟩ := he
      subst hpe
      rw [if_neg hne]
      simp only []
      rw [if_neg (by simp [heop])]
      simp [hok ⟨rfl, rfl⟩]

/-- Destruction: a successful `numValue` yields a trace. -/
theorem numValue_run_of_some {buf : List Char} {pos : Nat} {prop : JNode}
    {r : List Char × Nat × JNode} (h : numValue buf pos prop = some r) :
    ∃ p1 p2 p3 hF hE, NumRun buf pos prop p1 p2 p3 hF hE ∧
      r = ((setToNull buf p3).1, (setToNull buf p3).2,
        { prop with type := if hF || hE then .JSON_REAL else .JSON_INTEGER }) := by
  rw [numValue] at h
  try simp only [] at h
  set p0 := if getC buf pos = '-' then pos + 1 else pos with hp0
  by_cases hd0 : isdigitC (getC buf p0)
  · rw [if_neg (by simp [hd0])] at h
    rcases hm : (if getC buf p0 ≠ '0' then goNum buf p0
        else if isdigitC (getC buf (p0 + 1)) = true then none else some (p0 + 1)) with _ | p1
    · rw [hm] at h; simp at h
    · rw [hm] at h
      try simp only [] at h
      have hmant : if getC buf p0 = '0' then
          isdigitC (getC buf (p0 + 1)) = false ∧ p1 = p0 + 1
          else goNum buf p0 = some p1 := by
        by_cases hz : getC buf p0 = '0'
        · rw [if_pos hz]
          rw [if_neg (by simp [hz])] at hm
          by_cases hdd : isdigitC (getC buf (p0 + 1))
          · rw [if_pos hdd] at hm; cases hm
          · rw [if_neg hdd] at hm
            cases hm
            exact ⟨by simp [hdd], rfl⟩
        · rw [if_neg hz]
          rw [if_pos hz] at hm
          exact hm
      rcases hfr : (if getC buf p1 = '.' then
          match fraqValue buf (p1 + 1) with
          | none => none
          | some p2 => some (p2, jsonType.JSON_REAL)
        else some (p1, jsonType.JSON_INTEGER)) with _ | ⟨p2, ty2⟩
      · rw [hfr] at h; simp at h
      · rw [hfr] at h
        try simp only [] at h
        have hfrac : ∃ hF : Bool,
            (if hF then getC buf p1 = '.' ∧ fraqValue buf (p1 + 1) = some p2
             else getC buf p1 ≠ '.' ∧ p2 = p1) ∧
            ty2 = (if hF then jsonType.JSON_REAL else jsonType.JSON_INTEGER) := by
          by_cases hdot : getC buf p1 = '.'
          · rw [if_pos hdot] at hfr
            rcases hfq : fraqValue buf (p1 + 1) with _ | q
            · rw [hfq] at hfr; cases hfr
            · rw [hfq] at hfr
              try simp only [] at hfr
              simp only [Option.some.injEq, Prod.mk.injEq] at hfr
              obtain ⟨hq, hty⟩ := hfr
              subst hq
              refine ⟨true, ?_, ?_⟩
              · rw [if_pos rfl]
                exact ⟨hdot, rfl⟩
              · rw [if_pos rfl]
                exact hty.symm
          · rw [if_neg hdot] at hfr
            try simp only [] at hfr
            simp only [Option.some.injEq, Prod.mk.injEq] at hfr
            obtain ⟨hq, hty⟩ := hfr
            refine ⟨false, ?_, ?_⟩
            · rw [if_neg (by simp)]
              exact ⟨hdot, hq.symm⟩
            · rw [if_neg (by simp)]
              exact hty.symm
        obtain ⟨hF, hfC, hty2⟩ := hfrac
        rcases hex : (if getC buf p2 = 'e' ∨ getC buf p2 = 'E' then
            match expValue buf (p2 + 1) with
            | none => none
            | some p3 => some (p3, jsonType.JSON_REAL)
          else some (p2, ty2)) with _ | ⟨p3, ty3⟩
        · rw [hex] at h; simp at h
        · rw [hex] at h
          try simp only [] at h
          have hexp : ∃ hE : Bool,
              (if hE then (getC buf p2 = 'e' ∨ getC buf p2 = 'E') ∧ expValue buf (p2 + 1) = some p3
               else ¬ (getC buf p2 = 'e' ∨ getC buf p2 = 'E') ∧ p3 = p2) ∧
              ty3 = (if hE then jsonType.JSON_REAL else ty2) := by
            by_cases hee : getC buf p2 = 'e' ∨ getC buf p2 = 'E'
            · rw [if_pos hee] at hex
              rcases hev : expValue buf (p2 + 1) with _ | q
              · rw [hev] at hex; cases hex
              · rw [hev] at hex
                try simp only [] at hex
                simp only [Option.some.injEq, Prod.mk.injEq] at hex
                obtain ⟨hq, hty⟩ := hex
                subst hq
                refine ⟨true, ?_, ?_⟩
                · rw [if_pos rfl]
                  exact ⟨hee, rfl⟩
                · rw [if_pos rfl]
                  exact hty.symm
            · rw [if_neg hee] at hex
              try simp only [] at hex
              simp only [Option.some.injEq, Prod.mk.injEq] at hex
              obtain ⟨hq, hty⟩ := hex
              refine ⟨false, ?_, ?_⟩
              · rw [if_neg (by simp)]
                exact ⟨hee, hq.symm⟩
              · rw [if_neg (by simp)]
                exact hty.symm
          obtain ⟨hE, heC, hty3⟩ := hexp
          by_cases heop : isEndOfPrimitive (getC buf p3)
          · rw [if_neg (by simp [heop])] at h
            have htyif : ty3 = (if hF || hE then jsonType.JSON_REAL else jsonType.JSON_INTEGER) := by
              cases hF <;> cases hE <;> simp_all
            rcases hok : (if ty3 = jsonType.JSON_INTEGER then intOkC buf prop.value p3
              else true) with _ | _
            · rw [hok] at h
              simp at h
            · rw [hok] at h
              rw [if_pos rfl] at h
              try simp only [] at h
              simp only [Option.some.injEq] at h
              have hokC : hF = false ∧ hE = false → intOkC buf prop.value p3 = true := by
                intro hfe
                obtain ⟨hfq, heq⟩ := hfe
                subst hfq; subst heq
                simp only [Bool.or_self] at htyif
                rw [if_neg (by simp)] at htyif
                rw [if_pos htyif] at hok
                exact hok
              refine ⟨p1, p2, p3, hF, hE, ?_, ?_⟩
              · rw [NumRun]
                try simp only []
                rw [← hp0]
                exact ⟨hd0, hmant, hfC, heC, heop, hokC⟩
              · rw [← h, htyif]
          · rw [if_pos (by simp [heop])] at h
            cases h
  · rw [if_pos (by simp [hd0])] at h
    cases h

/-! ## Append stability for the value parsers -/

theorem drop_take_append {buf ext : List Char} {v len : Nat}
    (h : v + len ≤ buf.length) :
    ((buf ++ ext).drop v).take len = (buf.drop v).take len := by
  rw [List.drop_append_of_le_length (by omega), List.take_append_of_le_length]
  rw [List.length_drop]
  omega

theorem intOkC_append {buf ext : List Char} {value p3 : Nat}
    (hv : value < buf.length) (h3 : p3 ≤ buf.length) :
    intOkC (buf ++ ext) value p3 = intOkC buf value p3 := by
  rw [intOkC, intOkC, getC_append_left hv,
    drop_take_append (by omega : value + (p3 - value) ≤ buf.length)]

theorem fraqValue_append {buf ext : List Char} {pos p : Nat}
    (h : fraqValue buf pos = some p) : fraqValue (buf ++ ext) pos = some p := by
  rw [fraqValue] at h
  rw [fraqValue]
  by_cases h0 : isdigitC (getC buf pos)
  · rw [getC_append_stable (isdigitC_ne_nul h0)]
    rw [if_neg (by simp [h0])] at h
    rw [if_neg (by simp [h0])]
    rcases hg : goNum buf (pos + 1) with _ | q
    · rw [hg] at h; simp at h
    · rw [hg] at h
      rw [goNum_append hg]
      exact h
  · rw [if_pos (by simp [h0])] at h
    cases h

theorem expValue_append {buf ext : List Char} {pos p : Nat}
    (h : expValue buf pos = some p) : expValue (buf ++ ext) pos = some p := by
  rw [expValue] at h
  rw [expValue]
  by_cases hs : getC buf pos = '-' ∨ getC buf pos = '+'
  · have hlt : pos < buf.length := by
      apply lt_length_of_getC_ne_nul
      rcases hs with h1 | h1 <;> rw [h1] <;> decide
    rw [getC_append_left hlt]
    rw [if_pos hs] at h
    rw [if_pos hs]
    by_cases hd : isdigitC (getC buf (pos + 1))
    · rw [getC_append_stable (isdigitC_ne_nul hd)]
      rw [if_neg (by simp [hd])] at h
      rw [if_neg (by simp [hd])]
      exact goNum_append h
    · rw [if_pos (by simp [hd])] at h
      cases h
  · rw [if_neg hs] at h
    by_cases hd : isdigitC (getC buf pos)
    · have hlt := lt_length_of_getC_ne_nul (isdigitC_ne_nul hd)
      rw [getC_append_left hlt]
      rw [if_neg hs]
      rw [getC_append_left hlt]
      rw [if_neg (by simp [hd])]
      rw [if_neg (by simp [hd])] at h
      exact goNum_append h
    · rw [if_pos (by simp [hd])] at h
      cases h

/-- A trace survives appending arbitrary bytes after the buffer. -/
theorem NumRun_append {buf ext : List Char} {pos : Nat} {prop : JNode}
    {p1 p2 p3 : Nat} {hF hE : Bool} (hv : prop.value ≤ pos)
    (h : NumRun buf pos prop p1 p2 p3 hF hE) :
    NumRun (buf ++ ext) pos prop p1 p2 p3 hF hE := by
  obtain ⟨hposlt, hpp1, hp12, hp23, hp3lt⟩ := NumRun_bounds h
  rw [NumRun] at h
  try simp only [] at h
  rw [NumRun]
  try simp only []
  rw [getC_append_left hposlt]
  set p0 := if getC buf pos = '-' then pos + 1 else pos with hp0
  obtain ⟨hd0, hm, hf, he, heop, hok⟩ := h
  have hp0lt : p0 < buf.length := lt_length_of_getC_ne_nul (isdigitC_ne_nul hd0)
  have hp1lt : p1 ≤ buf.length := by omega
  refine ⟨by rw [getC_append_left hp0lt]; exact hd0, ?_, ?_, ?_, ?_, ?_⟩
  · rw [getC_append_left hp0lt]
    by_cases hz : getC buf p0 = '0'
    · rw [if_pos hz] at hm
      rw [if_pos hz]
      have : p0 + 1 < buf.length := by omega
      rw [getC_append_left this]
      exact hm
    · rw [if_neg hz] at hm
      rw [if_neg hz]
      exact goNum_append hm
  · cases hF with
    | true =>
      rw [if_pos rfl] at hf
      rw [if_pos rfl, getC_append_left (by omega : p1 < buf.length)]
      exact ⟨hf.1, fraqValue_append hf.2⟩
    | false =>
      rw [if_neg (by simp)] at hf
      rw [if_neg (by simp), getC_append_left (by omega : p1 < buf.length)]
      exact hf
  · cases hE with
    | true =>
      rw [if_pos rfl] at he
      rw [if_pos rfl, getC_append_left (by omega : p2 < buf.length)]
      exact ⟨he.1, expValue_append he.2⟩
    | false =>
      rw [if_neg (by simp)] at he
      rw [if_neg (by simp), getC_append_left (by omega : p2 < buf.length)]
      exact he
  · rw [getC_append_left hp3lt]
    exact heop
  · intro hfe
    rw [intOkC_append (by omega) (by omega)]
    exact hok hfe

theorem numValue_append {buf ext : List Char} {pos : Nat} {prop : JNode}
    {buf' : List Char} {q : Nat} {prop' : JNode} (hv : prop.value ≤ pos)
    (h : numValue buf pos prop = some (buf', q, prop')) :
    numValue (buf ++ ext) pos prop = some (buf' ++ ext, q, prop') := by
  obtain ⟨p1, p2, p3, hF, hE, hrun, hr⟩ := numValue_run_of_some h
  obtain ⟨_, _, _, _, hp3lt⟩ := NumRun_bounds hrun
  rw [numValue_some_of_run (NumRun_append hv hrun), setToNull_append hp3lt]
  simp only [Prod.mk.injEq] at hr
  obtain ⟨h1, h2, h3⟩ := hr
  rw [h1, h2, h3]

theorem textValue_append {buf ext : List Char} {pos : Nat} {prop : JNode}
    {buf' : List Char} {q : Nat} {prop' : JNode}
    (h : textValue buf pos prop = some (buf', q, prop')) :
    textValue (buf ++ ext) pos prop = some (buf' ++ ext, q, prop') := by
  rw [textValue] at h
  rw [textValue]
  rcases hp : parseString buf (pos + 1) with _ | ⟨b1, q1⟩
  · rw [hp] at h; simp at h
  · rw [hp] at h
    try simp only [] at h
    rw [parseString_append hp]
    try simp only []
    simp only [Option.some.injEq, Prod.mk.injEq] at h ⊢
    obtain ⟨h1, h2, h3⟩ := h
    exact ⟨by rw [h1], h2, h3⟩

theorem propertyName_append {buf ext : List Char} {pos : Nat} {prop : JNode}
    {buf' : List Char} {q : Nat} {prop' : JNode}
    (h : propertyName buf pos prop = some (buf', q, prop')) :
    propertyName (buf ++ ext) pos prop = some (buf' ++ ext, q, prop') := by
  rw [propertyName] at h
  rw [propertyName]
  rcases hp : parseString buf (pos + 1) with _ | ⟨b1, q1⟩
  · rw [hp] at h; simp at h
  · rw [hp] at h
    try simp only [] at h
    rw [parseString_append hp]
    try simp only []
    rcases hg1 : goBlank b1 q1 with _ | r
    · rw [hg1] at h; simp at h
    · rw [hg1] at h
      try simp only [] at h
      rw [goBlank_append hg1]
      try simp only []
      obtain ⟨_, hrlt, hrn, _⟩ := goBlank_some hg1
      rw [getC_append_left hrlt]
      by_cases hcolon : getC b1 r = ':'
      · rw [if_neg (by simp [hcolon])] at h
        rw [if_neg (by simp [hcolon])]
        rcases hg2 : goBlank b1 (r + 1) with _ | sq
        · rw [hg2] at h; simp at h
        · rw [hg2] at h
          try simp only [] at h
          rw [goBlank_append hg2]
          try simp only []
          simp only [Option.some.injEq, Prod.mk.injEq] at h ⊢
          obtain ⟨h1, h2, h3⟩ := h
          exact ⟨by rw [h1], h2, h3⟩
      · rw [if_pos (by simp [hcolon])] at h
        cases h

theorem primitiveValue_append {buf ext : List Char} {pos : Nat} {prop : JNode}
    {value : List Char} {ty : jsonType} {buf' : List Char} {q : Nat} {prop' : JNode}
    (hnul : ∀ c ∈ value, c ≠ '\x00')
    (h : primitiveValue buf pos prop value ty = some (buf', q, prop')) :
    primitiveValue (buf ++ ext) pos prop value ty = some (buf' ++ ext, q, prop') := by
  obtain ⟨p, hcs, heop, hr⟩ := primitiveValue_inv h
  have hplt : p < buf.length := lt_length_of_getC_ne_nul (isEndOfPrimitive_ne_nul heop)
  rw [primitiveValue, checkStr_append hnul hcs]
  try simp only []
  rw [getC_append_left hplt, if_neg (by simp [heop]), setToNull_append hplt]
  simp only [Prod.mk.injEq] at hr
  obtain ⟨h1, h2, h3⟩ := hr
  rw [h1, h2, h3]

theorem scalarValue_append {buf ext : List Char} {pos : Nat} {prop : JNode}
    {buf' : List Char} {q : Nat} {prop' : JNode} (hv : prop.value ≤ pos)
    (h : scalarValue buf pos prop = some (buf', q, prop')) :
    scalarValue (buf ++ ext) pos prop = some (buf' ++ ext, q, prop') := by
  rw [scalarValue] at h
  rw [scalarValue]
  by_cases c1 : getC buf pos = '\"'
  · rw [getC_append_stable (by rw [c1]; decide), if_pos c1]
    rw [if_pos c1] at h
    exact textValue_append h
  · rw [if_neg c1] at h
    by_cases c2 : getC buf pos = 't'
    · rw [getC_append_stable (by rw [c2]; decide), if_neg c1, if_pos c2]
      rw [if_pos c2] at h
      exact primitiveValue_append (by decide) h
    · rw [if_neg c2] at h
      by_cases c3 : getC buf pos = 'f'
      · rw [getC_append_stable (by rw [c3]; decide), if_neg c1, if_neg c2, if_pos c3]
        rw [if_pos c3] at h
        exact primitiveValue_append (by decide) h
      · rw [if_neg c3] at h
        by_cases c4 : getC buf pos = 'n'
        · rw [getC_append_stable (by rw [c4]; decide), if_neg c1, if_neg c2, if_neg c3,
            if_pos c4]
          rw [if_pos c4] at h
          exact primitiveValue_append (by decide) h
        · rw [if_neg c4] at h
          obtain ⟨_, _, _, _, _, hrun, _⟩ := numValue_run_of_some h
          have hposlt : pos < buf.length := (NumRun_bounds hrun).1
          rw [getC_append_left hposlt, if_neg c1, if_neg c2, if_neg c3, if_neg c4]
          exact numValue_append hv h

/-! ## Append stability for the tree-builder -/

theorem mkSt_nodes {b : List Char} {n : List JNode} {f : Nat} :
    (({ buf := b, nodes := n, nextFree := f } : St)).nodes = n := rfl

theorem mkSt_nextFree {b : List Char} {n : List JNode} {f : Nat} :
    (({ buf := b, nodes := n, nextFree := f } : St)).nextFree = f := rfl

theorem getNode_buf_irrel {st : St} {b : List Char} {i : Nat} :
    getNode { st with buf := b } i = getNode st i := rfl

theorem poolAlloc_eq {st : St} {r : St × Nat} (h : poolAlloc st = some r) :
    st.nextFree < st.nodes.length ∧
      r = ({ st with nextFree := st.nextFree + 1 }, st.nextFree) := by
  rw [poolAlloc] at h
  by_cases hge : st.nextFree ≥ st.nodes.length
  · rw [if_pos hge] at h; cases h
  · rw [if_neg hge] at h
    cases h
    exact ⟨by omega, rfl⟩

theorem getNode_mk {b : List Char} {n : List JNode} {f : Nat} {i : Nat} :
    getNode ({ buf := b, nodes := n, nextFree := f } : St) i = n.getD i default := rfl

theorem objStep_append_done {st : St} {pos objIdx : Nat} {ext : List Char}
    {st' : St} {p' : Nat} (h : objStep st pos objIdx = .done st' p') :
    objStep { st with buf := st.buf ++ ext } pos objIdx =
      .done { st' with buf := st'.buf ++ ext } p' := by
  rw [objStep] at h
  rw [objStep]
  simp only [mkSt_buf, getNode_buf_irrel]
  rcases hgb : goBlank st.buf pos with _ | p
  · rw [hgb] at h; cases h
  · rw [hgb] at h
    try simp only [] at h
    rw [goBlank_append hgb]
    try simp only []
    obtain ⟨hpp, hplt, hpn, _⟩ := goBlank_some hgb
    rw [getC_append_left hplt]
    by_cases hcomma : getC st.buf p = ','
    · rw [if_pos hcomma] at h; cases h
    · rw [if_neg hcomma] at h
      rw [if_neg hcomma]
      by_cases hec : getC st.buf p =
          (if (getNode st objIdx).type = jsonType.JSON_OBJ then '}' else ']')
      · rw [if_pos hec] at h
        rw [if_pos hec]
        try simp only [] at h
        try simp only []
        rw [set_append_left hplt]
        rcases hs : (getNode st objIdx).sibling with _ | parent
        · try rw [hs] at h
          try rw [hs]
          try simp only [] at h
          try simp only []
          cases h
          rfl
        · try rw [hs] at h
          try rw [hs]
          try simp only [] at h
          try simp only []
          cases h
      · rw [if_neg hec] at h
        rw [if_neg hec]
        rcases halloc : poolAlloc st with _ | ⟨st1, propIdx⟩
        · rw [halloc] at h; cases h
        · rw [halloc] at h
          try simp only [] at h
          obtain ⟨hltq, hre⟩ := poolAlloc_eq halloc
          simp only [Prod.mk.injEq] at hre
          obtain ⟨hst1, hpi⟩ := hre
          subst hst1; subst hpi
          have halloc2 : poolAlloc { st with buf := st.buf ++ ext } =
              some ({ st with buf := st.buf ++ ext, nextFree := st.nextFree + 1 },
                st.nextFree) := by
            rw [poolAlloc]
            simp only [mkSt_nodes, mkSt_nextFree]
            rw [if_neg (by omega)]
          rw [halloc2]
          try simp only [] at h ⊢
          simp only [mkSt_buf, mkSt_nodes, mkSt_nextFree, getNode_mk, setNode_buf] at h ⊢
          rcases hns : (if (getNode st objIdx).type ≠ jsonType.JSON_ARRAY then
              if getC st.buf p ≠ '\"' then none
              else propertyName st.buf p (st.nodes.getD st.nextFree default)
            else some (st.buf, p, { st.nodes.getD st.nextFree default with
                name := none })) with _ | ⟨buf2, p2, prop2⟩
          · rw [hns] at h; cases h
          · rw [hns] at h
            try simp only [] at h
            split at h
            · cases h
            · split at h
              · cases h
              · cases h

theorem objStep_append_cont {st : St} {pos objIdx : Nat} {ext : List Char}
    {st' : St} {p' o' : Nat} (h : objStep st pos objIdx = .cont st' p' o') :
    objStep { st with buf := st.buf ++ ext } pos objIdx =
      .cont { st' with buf := st'.buf ++ ext } p' o' := by
  rw [objStep] at h
  rw [objStep]
  simp only [mkSt_buf, getNode_buf_irrel]
  rcases hgb : goBlank st.buf pos with _ | p
  · rw [hgb] at h; cases h
  · rw [hgb] at h
    try simp only [] at h
    rw [goBlank_append hgb]
    try simp only []
    obtain ⟨hpp, hplt, hpn, _⟩ := goBlank_some hgb
    rw [getC_append_left hplt]
    by_cases hcomma : getC st.buf p = ','
    · rw [if_pos hcomma] at h
      rw [if_pos hcomma]
      cases h
      rfl
    · rw [if_neg hcomma] at h
      rw [if_neg hcomma]
      by_cases hec : getC st.buf p =
          (if (getNode st objIdx).type = jsonType.JSON_OBJ then '}' else ']')
      · rw [if_pos hec] at h
        rw [if_pos hec]
        try simp only [] at h
        try simp only []
        rw [set_append_left hplt]
        rcases hs : (getNode st objIdx).sibling with _ | parent
        · try rw [hs] at h
          try rw [hs]
          try simp only [] at h
          try simp only []
          cases h
        · try rw [hs] at h
          try rw [hs]
          try simp only [] at h
          try simp only []
          cases h
          rfl
      · rw [if_neg hec] at h
        rw [if_neg hec]
        rcases halloc : poolAlloc st with _ | ⟨st1, propIdx⟩
        · rw [halloc] at h; cases h
        · rw [halloc] at h
          try simp only [] at h
          obtain ⟨hltq, hre⟩ := poolAlloc_eq halloc
          simp only [Prod.mk.injEq] at hre
          obtain ⟨hst1, hpi⟩ := hre
          subst hst1; subst hpi
          have halloc2 : poolAlloc { st with buf := st.buf ++ ext } =
              some ({ st with buf := st.buf ++ ext, nextFree := st.nextFree + 1 },
                st.nextFree) := by
            rw [poolAlloc]
            simp only [mkSt_nodes, mkSt_nextFree]
            rw [if_neg (by omega)]
          rw [halloc2]
          try simp only [] at h ⊢
          simp only [mkSt_buf, mkSt_nodes, mkSt_nextFree, getNode_mk, setNode_buf] at h ⊢
          rcases hns : (if (getNode st objIdx).type ≠ jsonType.JSON_ARRAY then
              if getC st.buf p ≠ '\"' then none
              else propertyName st.buf p (st.nodes.getD st.nextFree default)
            else some (st.buf, p, { st.nodes.getD st.nextFree default with
                name := none })) with _ | ⟨buf2, p2, prop2⟩
          · rw [hns] at h; cases h
          · rw [hns] at h
            try simp only [] at h
            have hname : p ≤ p2 ∧ p2 < buf2.length := by
              by_cases harr : (getNode st objIdx).type ≠ jsonType.JSON_ARRAY
              · rw [if_pos harr] at hns
                by_cases hq : getC st.buf p ≠ '\"'
                · rw [if_pos hq] at hns; cases hns
                · rw [if_neg hq] at hns
                  obtain ⟨h1, h2, h3⟩ := propertyName_bounds hns
                  exact ⟨by omega, by omega⟩
              · rw [if_neg harr] at hns
                simp only [Option.some.injEq, Prod.mk.injEq] at hns
                obtain ⟨hb, hp2, _⟩ := hns
                subst hb; subst hp2
                exact ⟨Nat.le_refl _, hplt⟩
            obtain ⟨hn1', hn2'⟩ := hname
            have hns2 : (if (getNode st objIdx).type ≠ jsonType.JSON_ARRAY then
                if getC (st.buf ++ ext) p ≠ '\"' then none
                else propertyName (st.buf ++ ext) p (st.nodes.getD st.nextFree default)
              else some (st.buf ++ ext, p, { st.nodes.getD st.nextFree default with
                  name := none })) = some (buf2 ++ ext, p2, prop2) := by
              rw [getC_append_left hplt]
              by_cases harr : (getNode st objIdx).type ≠ jsonType.JSON_ARRAY
              · rw [if_pos harr] at hns
                rw [if_pos harr]
                by_cases hq : getC st.buf p ≠ '\"'
                · rw [if_pos hq] at hns; cases hns
                · rw [if_neg hq] at hns
                  rw [if_neg hq]
                  exact propertyName_append hns
              · rw [if_neg harr] at hns
                rw [if_neg harr]
                simp only [Option.some.injEq, Prod.mk.injEq] at hns ⊢
                obtain ⟨h1, h2, h3⟩ := hns
                exact ⟨by rw [← h1], h2, h3⟩
            rw [hns2]
            try simp only []
            simp only [getC_append_left hn2']
            split at h
            · rename_i hbr
              rw [if_pos (by simpa using hbr)]
              cases h
              rfl
            · rename_i hbr
              rw [if_neg (by simpa using hbr)]
              split at h
              · cases h
              · rename_i buf5 p5 prop5 hres
                cases h
                rw [scalarValue_append (by exact Nat.le_refl p2) hres]
                try simp only []
                rfl

theorem objLoopN_append {ext : List Char} :
    ∀ {fuel : Nat} {st : St} {pos objIdx : Nat} {st' : St} {p' : Nat},
      objLoopN fuel st pos objIdx = some (st', p') →
      objLoopN fuel { st with buf := st.buf ++ ext } pos objIdx =
        some ({ st' with buf := st'.buf ++ ext }, p')
  | 0, _, _, _, _, _, h => by rw [objLoopN] at h; cases h
  | fuel + 1, st, pos, objIdx, st', p', h => by
    rw [objLoopN] at h
    rw [objLoopN]
    cases hstep : objStep st pos objIdx with
    | fail => rw [hstep] at h; cases h
    | done st1 p1 =>
      rw [hstep] at h
      rw [objStep_append_done hstep]
      try simp only [] at h
      try simp only []
      cases h
      rfl
    | cont st1 p1 o1 =>
      rw [hstep] at h
      rw [objStep_append_cont hstep]
      try simp only [] at h
      try simp only []
      exact objLoopN_append h

theorem objValue_append {st : St} {pos objIdx : Nat} {ext : List Char}
    {st' : St} {p' : Nat} (h0 : pos < st.buf.length)
    (h : objValue st pos objIdx = some (st', p')) :
    objValue { st with buf := st.buf ++ ext } pos objIdx =
      some ({ st' with buf := st'.buf ++ ext }, p') := by
  rw [objValue] at h
  rw [objValue]
  try simp only [] at h
  try simp only []
  simp only [mkSt_buf, getNode_buf_irrel, setNode_buf, List.length_append]
  rw [getC_append_left h0]
  have happ := @objLoopN_append ext _ _ _ _ _ _ h
  have hmono := objLoopN_mono (st.buf.length + 1) (st.buf.length + ext.length + 1)
    _ _ _ _ (by omega) happ
  exact hmono

theorem initSt_append {str ext : List Char} {qty : Nat} :
    initSt (str ++ ext) qty =
      { initSt str qty with buf := (initSt str qty).buf ++ ext } := rfl

theorem json_create_append {str ext : List Char} {qty : Nat} {st : St}
    (h : json_create str qty = some st) :
    json_create (str ++ ext) qty = some { st with buf := st.buf ++ ext } := by
  rw [json_create] at h
  rw [json_create]
  rcases hgb : goBlank str 0 with _ | p
  · rw [hgb] at h; cases h
  · rw [hgb] at h
    try simp only [] at h
    rw [goBlank_append hgb]
    try simp only []
    obtain ⟨_, hplt, hpn, _⟩ := goBlank_some hgb
    rw [getC_append_left hplt]
    by_cases hbr : getC str p ≠ '{' ∧ getC str p ≠ '['
    · rw [if_pos hbr] at h; cases h
    · rw [if_neg hbr] at h
      rw [if_neg hbr]
      rcases hov : objValue (initSt str qty) p 0 with _ | r2
      · rw [hov] at h; cases h
      · rw [hov] at h
        try simp only [] at h
        have hplt2 : p < (initSt str qty).buf.length := hplt
        have hov2 := @objValue_append _ _ _ ext _ _ hplt2 hov
        rw [initSt_append, hov2]
        try simp only []
        cases h
        rfl

/-! ## The pool-capacity document family `doc1s` -/

theorem oneElems_length {n : Nat} : (oneElems n).length = 2 * n := by
  induction n with
  | zero => rfl
  | succ k ih => simp [oneElems, ih]; omega

theorem oneElemsDone_length {n : Nat} : (oneElemsDone n).length = 2 * n := by
  induction n with
  | zero => rfl
  | succ k ih => simp [oneElemsDone, ih]; omega

theorem oneElemsDone_succ_right {j : Nat} :
    oneElemsDone (j + 1) = oneElemsDone j ++ ['1', '\x00'] := by
  induction j with
  | zero => rfl
  | succ k ih =>
    show '1' :: '\x00' :: oneElemsDone (k + 1) = ('1' :: '\x00' :: oneElemsDone k) ++ _
    rw [ih]
    rfl

/-- A non-blank, non-NUL character stops the blank skip immediately. -/
theorem goBlank_here {buf : List Char} {pos : Nat} (h0 : getC buf pos ≠ '\x00')
    (h1 : isOneOfThem (getC buf pos) blank = false) : goBlank buf pos = some pos := by
  have hlt : pos < buf.length := lt_length_of_getC_ne_nul h0
  rw [goBlank, goWhile]
  have hf : buf.length + 1 - pos = (buf.length - pos - 1) + 2 := by omega
  rw [hf, goWhileAux, if_neg h0, if_neg (by simp [h1])]

/-- A single digit followed by a non-digit, non-NUL character. -/
theorem goNum_single {buf : List Char} {pos : Nat} (h0 : isdigitC (getC buf pos) = true)
    (h1 : isdigitC (getC buf (pos + 1)) = false) (h2 : getC buf (pos + 1) ≠ '\x00') :
    goNum buf pos = some (pos + 1) := by
  have hlt : pos + 1 < buf.length := lt_length_of_getC_ne_nul h2
  rw [goNum]
  have hf : buf.length + 1 - pos = (buf.length - pos - 2) + 3 := by omega
  rw [hf, goNumAux, if_neg (isdigitC_ne_nul h0), if_pos h0, goNumAux,
    if_neg h2, if_neg (by simp [h1])]

theorem setToNull_write {buf : List Char} {pos : Nat}
    (h : isOneOfThem (getC buf pos) endofblock = false) :
    setToNull buf pos = (buf.set pos '\x00', pos + 1) := by
  rw [setToNull, if_neg (by simp [h])]

theorem setToNull_close {buf : List Char} {pos : Nat}
    (h : isOneOfThem (getC buf pos) endofblock = true) :
    setToNull buf pos = (buf, pos) := by
  rw [setToNull, if_pos h]

/-- Short integer lexemes always pass the range check. -/
theorem intOkC_small {buf : List Char} {value p3 : Nat}
    (h : p3 - value < maxI64.length) : intOkC buf value p3 = true := by
  rw [intOkC]
  have hmin : maxI64.length ≤ (if getC buf value = '-' then minI64.length else maxI64.length) := by
    split <;> simp [minI64, maxI64]
  rw [if_neg (by omega), if_neg (by omega)]

theorem getD_set_same {ns : List JNode} {i : Nat} {v : JNode} (h : i < ns.length) :
    (ns.set i v).getD i default = v := by
  simp [List.getD, List.getElem?_set_self', h]

theorem getD_set_ne {ns : List JNode} {i j : Nat} {v : JNode} (h : i ≠ j) :
    (ns.set i v).getD j default = ns.getD j default := by
  simp [List.getD, List.getElem?_set_ne h]

/-- Scanning a single element `1` followed by `,` : the comma is consumed
as the lexeme's terminator.  The node is stated via an explicit constructor
so the lemma applies to the literal produced inside the loop body. -/
theorem scalar_one {buf : List Char} {pos : Nat} {t : jsonType} {n : Option Nat}
    {c l s : Option Nat}
    (h1 : getC buf pos = '1') (h2 : getC buf (pos + 1) = ',') :
    scalarValue buf pos ⟨t, n, pos, c, l, s⟩ =
      some (buf.set (pos + 1) '\x00', pos + 2, ⟨.JSON_INTEGER, n, pos, c, l, s⟩) := by
  rw [scalarValue, if_neg (by rw [h1]; decide), if_neg (by rw [h1]; decide),
    if_neg (by rw [h1]; decide), if_neg (by rw [h1]; decide)]
  have hrun : NumRun buf pos ⟨t, n, pos, c, l, s⟩ (pos + 1) (pos + 1)
      (pos + 1) false false := by
    rw [NumRun]
    try simp only []
    have hp0e : (if getC buf pos = '-' then pos + 1 else pos) = pos := by
      rw [h1]
      simp
    rw [hp0e]
    refine ⟨by rw [h1]; decide, ?_, ?_, ?_, by rw [h2]; decide, ?_⟩
    · rw [h1]
      rw [if_neg (by decide)]
      exact goNum_single (by rw [h1]; decide) (by rw [h2]; decide) (by rw [h2]; decide)
    · rw [if_neg (by simp)]
      exact ⟨by rw [h2]; decide, by trivial⟩
    · rw [if_neg (by simp)]
      exact ⟨by rw [h2]; decide, by trivial⟩
    · intro _
      refine intOkC_small ?_
      show pos + 1 - pos < maxI64.length
      have hm : maxI64.length = 19 := rfl
      omega
  rw [numValue_some_of_run hrun,
    setToNull_write (by rw [h2]; decide)]
  simp

/-- Effect of `add` on the root slot when the root is an array with the
given child links: the new node becomes the last child. -/
theorem add_getD_obj {ns0 : List JNode} {v : JNode} {p : Nat} {c : Option Nat} {k : Nat}
    (hp : 1 ≤ p) (hlen : p < ns0.length) (hk : 1 ≤ k)
    (hobj : ns0.getD 0 default = { type := .JSON_ARRAY
                                   name := none
                                   value := 0
                                   child := c
                                   lastChild := if c = none then none else some k
                                   sibling := none }) :
    (add (ns0.set p v) 0 p).getD 0 default =
      { type := .JSON_ARRAY
        name := none
        value := 0
        child := if c = none then some p else c
        lastChild := some p
        sibling := none } := by
  have h0 : ((ns0.set p v).set p
      { (ns0.set p v).getD p default with sibling := none }).getD 0 default =
      ns0.getD 0 default := by
    rw [getD_set_ne (by omega), getD_set_ne (by omega)]
  cases c with
  | none =>
    rw [if_pos rfl] at hobj
    rw [add]
    try simp only []
    rw [h0, hobj]
    try simp only []
    rw [getD_set_same (by simp only [List.length_set]; omega)]
    simp
  | some c0 =>
    rw [if_neg (by simp)] at hobj
    rw [add]
    try simp only []
    rw [h0, hobj]
    try simp only []
    rw [getD_set_same (by simp only [List.length_set]; omega)]
    rw [getD_set_ne (by omega), h0, hobj]
    simp

/-- One loop iteration over an element `1,` inside the root array:
allocate, append, scan, terminate. -/
theorem objStep_elem {st : St} {pos k : Nat} {c : Option Nat}
    (h1 : getC st.buf pos = '1') (h2 : getC st.buf (pos + 1) = ',')
    (hroot : getNode st 0 = { type := .JSON_ARRAY
                              name := none
                              value := 0
                              child := c
                              lastChild := if c = none then none else some k
                              sibling := none })
    (hk : 1 ≤ k) (halloc : st.nextFree < st.nodes.length) (hnf : 1 ≤ st.nextFree) :
    ∃ st' : St,
      objStep st pos 0 = .cont st' (pos + 2) 0 ∧
      st'.buf = st.buf.set (pos + 1) '\x00' ∧
      st'.nextFree = st.nextFree + 1 ∧
      st'.nodes.length = st.nodes.length ∧
      getNode st' 0 = { type := .JSON_ARRAY
                        name := none
                        value := 0
                        child := if c = none then some st.nextFree else c
                        lastChild := some st.nextFree
                        sibling := none } := by
  rw [objStep]
  rw [goBlank_here (by rw [h1]; decide) (by rw [h1]; decide)]
  try simp only []
  rw [if_neg (by rw [h1]; decide)]
  have hend : (if (getNode st 0).type = jsonType.JSON_OBJ then '}' else ']') = ']' := by
    rw [hroot]
    simp
  rw [hend]
  rw [if_neg (by rw [h1]; decide)]
  rw [show poolAlloc st = some ({ st with nextFree := st.nextFree + 1 }, st.nextFree) from
    by rw [poolAlloc, if_neg (by omega)]]
  try simp only []
  rw [if_neg (by rw [hroot]; simp)]
  try simp only []
  simp only [setNode_buf, mkStNodes_buf, mkSt_buf]
  rw [if_neg (by rw [h1]; decide)]
  rw [scalar_one h1 h2]
  try simp only []
  refine ⟨_, rfl, rfl, rfl, ?_, ?_⟩
  · simp [setNode, add_length]
  · simp only [getNode, setNode]
    rw [getD_set_ne (by omega), getD_set_ne (by omega)]
    exact add_getD_obj hnf halloc hk hroot

/-- Closing bracket at the root container: the bracket is overwritten with a
terminator in place and the loop returns the position just past it. -/
theorem objStep_close {st : St} {pos : Nat}
    (h1 : getC st.buf pos = ']')
    (htype : (getNode st 0).type ≠ .JSON_OBJ)
    (hsib : (getNode st 0).sibling = none) :
    objStep st pos 0 = .done { st with buf := st.buf.set pos '\x00' } (pos + 1) := by
  rw [objStep]
  rw [goBlank_here (by rw [h1]; decide) (by rw [h1]; decide)]
  try simp only []
  rw [if_neg (by rw [h1]; decide)]
  rw [if_neg htype]
  rw [if_pos h1]
  try simp only []
  rw [hsib]

/-- Pool exhaustion: with the allocation cursor at the end of the pool, a
further element makes the allocator fail and the loop returns failure. -/
theorem objStep_elem_fail {st : St} {pos : Nat}
    (h1 : getC st.buf pos = '1')
    (hfull : st.nodes.length ≤ st.nextFree) :
    objStep st pos 0 = .fail := by
  rw [objStep]
  rw [goBlank_here (by rw [h1]; decide) (by rw [h1]; decide)]
  try simp only []
  rw [if_neg (by rw [h1]; decide)]
  rw [if_neg (by rw [h1]; split <;> decide)]
  rw [show poolAlloc st = none from by rw [poolAlloc, if_pos (by omega)]]

theorem set_append_right' {a b : List Char} {k : Nat} {c : Char} :
    (a ++ b).set (a.length + k) c = a ++ b.set k c := by
  rw [List.set_append]
  rw [if_neg (by omega)]
  simp

theorem getD_replicate_default {q i : Nat} :
    (List.replicate q (default : JNode)).getD i default = default := by
  simp [List.getD, List.getElem?_replicate]
  split <;> rfl

/-- The characters at the parser's position after `j` elements of `doc1s n`:
the element digit and its comma. -/
theorem arrInv_char1 {n j qty : Nat} {st : St} (hj : j < n) (hinv : ArrInv n j qty st) :
    getC st.buf (2 * j + 1) = '1' ∧ getC st.buf (2 * j + 2) = ',' := by
  obtain ⟨hbuf, _, _, _⟩ := hinv
  obtain ⟨m, hm⟩ : ∃ m, n - j = m + 1 := ⟨n - j - 1, by omega⟩
  rw [hm] at hbuf
  constructor
  · rw [hbuf, getC_cons_succ]
    rw [show (2 * j : Nat) = (oneElemsDone j).length + 0 from by rw [oneElemsDone_length]; omega]
    rw [getC_append_right]
    rfl
  · rw [hbuf, getC_cons_succ]
    rw [show (2 * j + 1 : Nat) = (oneElemsDone j).length + 1 from by rw [oneElemsDone_length]]
    rw [getC_append_right]
    rfl

/-- The character at the parser's position after all `n` elements: the
closing bracket. -/
theorem arrInv_charClose {n qty : Nat} {st : St} (hinv : ArrInv n n qty st) :
    getC st.buf (2 * n + 1) = ']' := by
  obtain ⟨hbuf, _, _, _⟩ := hinv
  rw [show n - n = 0 from by omega] at hbuf
  rw [hbuf, getC_cons_succ]
  rw [show (2 * n : Nat) = (oneElemsDone n).length + 0 from by rw [oneElemsDone_length]; omega]
  rw [getC_append_right]
  rfl

/-- One full element step preserves the invariant of the `doc1s` parse. -/
theorem arr_step {n j qty : Nat} {st : St} (hj : j < n) (hq : 1 + j < qty)
    (hinv : ArrInv n j qty st) :
    ∃ st', objStep st (2 * j + 1) 0 = .cont st' (2 * j + 3) 0 ∧
      ArrInv n (j + 1) qty st' := by
  obtain ⟨h1, h2⟩ := arrInv_char1 hj hinv
  obtain ⟨hbuf, hnf, hlen, hroot⟩ := hinv
  have hroot' : getNode st 0 = { type := .JSON_ARRAY
                                 name := none
                                 value := 0
                                 child := (if j = 0 then none else some 1 : Option Nat)
                                 lastChild :=
                                   if (if j = 0 then (none : Option Nat) else some 1) = none
                                   then none else some (if j = 0 then 1 else j)
                                 sibling := none } := by
    rw [hroot]
    by_cases hj0 : j = 0 <;> simp [hj0]
  obtain ⟨st', hstep, hbuf', hnf', hlen', hroot''⟩ :=
    objStep_elem h1 h2 hroot' (by split <;> omega) (by omega) (by omega)
  refine ⟨st', hstep, ?_, ?_, ?_, ?_⟩
  · obtain ⟨m, hm⟩ : ∃ m, n - j = m + 1 := ⟨n - j - 1, by omega⟩
    rw [hm] at hbuf
    rw [hbuf', hbuf]
    rw [oneElemsDone_succ_right, show n - (j + 1) = m from by omega, List.append_assoc]
    show '[' :: ((oneElemsDone j ++ (oneElems (m + 1) ++ [']'])).set (2 * j + 1) '\x00') = _
    rw [show (2 * j + 1 : Nat) = (oneElemsDone j).length + 1 from by rw [oneElemsDone_length]]
    rw [set_append_right']
    rfl
  · omega
  · omega
  · rw [hroot'', hnf]
    by_cases hj0 : j = 0
    · subst hj0
      simp
    · simp [hj0, Nat.add_comm]

/-- With enough fuel the loop finishes the remaining `n - j` elements of
`doc1s n` and terminates at the closing bracket. -/
theorem arr_loop : ∀ (d : Nat) {n j : Nat} {st : St} (fuel : Nat),
    n - j = d → j ≤ n → ArrInv n j (n + 1) st → 2 * d + 2 ≤ fuel →
    ∃ st', objLoopN fuel st (2 * j + 1) 0 = some (st', 2 * n + 2)
  | 0, n, j, st, fuel, hd, hj, hinv, hfuel => by
    have hjn : j = n := by omega
    subst hjn
    obtain ⟨f, rfl⟩ : ∃ f, fuel = f + 1 := ⟨fuel - 1, by omega⟩
    have h1 := arrInv_charClose hinv
    obtain ⟨hbuf, hnf, hlen, hroot⟩ := hinv
    rw [objLoopN]
    rw [objStep_close h1
      (by rw [hroot]; exact (by decide : jsonType.JSON_ARRAY ≠ jsonType.JSON_OBJ))
      (by rw [hroot])]
    try simp only []
    exact ⟨_, rfl⟩
  | d + 1, n, j, st, fuel, hd, hj, hinv, hfuel => by
    obtain ⟨st', hstep, hinv'⟩ := arr_step (by omega) (by omega) hinv
    obtain ⟨f, rfl⟩ : ∃ f, fuel = f + 1 := ⟨fuel - 1, by omega⟩
    rw [objLoopN, hstep]
    try simp only []
    have hres := arr_loop d f (by omega) (by omega) hinv' (by omega)
    rw [show 2 * (j + 1) + 1 = 2 * j + 3 from by omega] at hres
    exact hres

/-- When the pool is one slot short of the element count, the loop fails
at the element that exhausts it — for every fuel. -/
theorem arr_loop_fail : ∀ (d : Nat) {N j qty : Nat} {st : St} (fuel : Nat),
    qty = j + 1 + d → j + d + 1 ≤ N → ArrInv N j qty st →
    objLoopN fuel st (2 * j + 1) 0 = none
  | 0, N, j, qty, st, fuel, hq, hN, hinv => by
    cases fuel with
    | zero => rfl
    | succ f =>
      obtain ⟨h1, _⟩ := arrInv_char1 (show j < N by omega) hinv
      obtain ⟨hbuf, hnf, hlen, hroot⟩ := hinv
      rw [objLoopN, objStep_elem_fail h1 (by omega)]
  | d + 1, N, j, qty, st, fuel, hq, hN, hinv => by
    cases fuel with
    | zero => rfl
    | succ f =>
      obtain ⟨st', hstep, hinv'⟩ := arr_step (show j < N by omega) (by omega) hinv
      rw [objLoopN, hstep]
      try simp only []
      have hres := arr_loop_fail d f (by omega) (by omega) hinv'
      rw [show 2 * (j + 1) + 1 = 2 * j + 3 from by omega] at hres
      exact hres

/-- The invariant holds for the state `objValue` builds before entering the
loop on a `doc1s` document: root tagged as array, links cleared, cursor 1. -/
theorem arrInv_init {N qty : Nat} (hq : 1  <= qty) :
    ArrInv N 0 qty (setNode (initSt (doc1s N) qty) 0
      { getNode (initSt (doc1s N) qty) 0 with
          type := if getC (initSt (doc1s N) qty).buf 0 = '{' then jsonType.JSON_OBJ
                  else jsonType.JSON_ARRAY
          child := none
          sibling := none }) := by
  refine ⟨rfl, rfl, ?_, ?_⟩
  · simp [initSt, setNode]
  · simp only [initSt, setNode, getNode, doc1s]
    rw [getD_set_same (by simp; omega)]
    rw [getD_set_same (by simp; omega)]
    rw [getD_replicate_default]
    simp [getC_cons_zero]
    exact ⟨rfl, rfl⟩

/-- Parsing `doc1s n` with a pool of `n + 1` slots succeeds, ending just
past the closing bracket. -/
theorem objValue_doc1s_some {n : Nat} :
    ∃ st', objValue (initSt (doc1s n) (n + 1)) 0 0 = some (st', 2 * n + 2) := by
  obtain ⟨st', hloop⟩ :=
    arr_loop n ((doc1s n).length + 1) (by omega) (Nat.zero_le n) (arrInv_init (by omega))
      (by have h : (oneElems n).length = 2 * n := oneElems_length
          simp only [doc1s, List.length_cons, List.length_append, List.length_singleton]
          omega)
  exact ⟨st', hloop⟩

/-- Parsing `doc1s (n + 1)` with a pool of only `n + 1` slots fails. -/
theorem objValue_doc1s_fail {n : Nat} :
    objValue (initSt (doc1s (n + 1)) (n + 1)) 0 0 = none :=
  arr_loop_fail n ((doc1s (n + 1)).length + 1) (by omega) (by omega)
    (arrInv_init (by omega))

/-- End-to-end: a document needing exactly `n + 1` nodes parses with a pool
of `n + 1`. -/
theorem json_create_doc1s_some {n : Nat} : (json_create (doc1s n) (n + 1)).isSome := by
  have h0 : getC (doc1s n) 0 = '[' := rfl
  rw [json_create]
  rw [goBlank_here (by rw [h0]; decide) (by rw [h0]; decide)]
  try simp only []
  rw [if_neg (by rw [h0]; simp)]
  obtain ⟨st', hov⟩ := @objValue_doc1s_some n
  rw [hov]
  rfl

/-- End-to-end: a document needing `n + 2` nodes fails cleanly with a pool
of `n + 1`. -/
theorem json_create_doc1s_fail {n : Nat} : json_create (doc1s (n + 1)) (n + 1) = none := by
  have h0 : getC (doc1s (n + 1)) 0 = '[' := rfl
  rw [json_create]
  rw [goBlank_here (by rw [h0]; decide) (by rw [h0]; decide)]
  try simp only []
  rw [if_neg (by rw [h0]; simp)]
  rw [objValue_doc1s_fail]

/-! ## Digit runs and digit-string arithmetic (for the integer-range claim) -/

theorem char_toNat_inj {a b : Char} (h : a.toNat = b.toNat) : a = b :=
  Char.eq_of_val_eq (UInt32.ext h)

theorem isdigit_toNat {c : Char} (h : isdigitC c = true) :
    48 ≤ c.toNat ∧ c.toNat ≤ 57 := by
  simp [isdigitC] at h
  obtain ⟨h1, h2⟩ := h
  exact ⟨h1, h2⟩

theorem getC_mem_of_lt {l : List Char} {i : Nat} (h : i < l.length) : getC l i ∈ l := by
  rw [getC, List.getD_eq_getElem _ _ h]
  exact List.getElem_mem h

/-- A digit run from `pos` up to a non-digit, non-NUL stop character is
exactly what `goNum` scans. -/
theorem goNumAux_run : ∀ (d : Nat) {buf : List Char} {fuel pos q : Nat},
    q - pos = d → pos ≤ q →
    (∀ i, pos ≤ i → i < q → isdigitC (getC buf i) = true) →
    isdigitC (getC buf q) = false → getC buf q ≠ '\x00' →
    q - pos + 1 ≤ fuel → goNumAux buf fuel pos = some q
  | 0, buf, fuel, pos, q, hd, hle, hdig, hstop, hnn, hfuel => by
    have hq : pos = q := by omega
    subst hq
    obtain ⟨f, rfl⟩ : ∃ f, fuel = f + 1 := ⟨fuel - 1, by omega⟩
    rw [goNumAux, if_neg hnn, if_neg (by simp [hstop])]
  | d + 1, buf, fuel, pos, q, hd, hle, hdig, hstop, hnn, hfuel => by
    have h1 : isdigitC (getC buf pos) = true := hdig pos (Nat.le_refl _) (by omega)
    obtain ⟨f, rfl⟩ : ∃ f, fuel = f + 1 := ⟨fuel - 1, by omega⟩
    rw [goNumAux, if_neg (isdigitC_ne_nul h1), if_pos h1]
    exact goNumAux_run d (by omega) (by omega)
      (fun i hi1 hi2 => hdig i (by omega) hi2) hstop hnn (by omega)

theorem goNum_run {buf : List Char} {pos q : Nat} (hle : pos ≤ q)
    (hdig : ∀ i, pos ≤ i → i < q → isdigitC (getC buf i) = true)
    (hstop : isdigitC (getC buf q) = false) (hnn : getC buf q ≠ '\x00') :
    goNum buf pos = some q := by
  have hql : q < buf.length := lt_length_of_getC_ne_nul hnn
  exact goNumAux_run (q - pos) rfl hle hdig hstop hnn (by omega)

/-- Conversely, everything `goNum` scanned over is a digit. -/
theorem goNumAux_digits : ∀ {buf : List Char} {fuel pos q : Nat},
    goNumAux buf fuel pos = some q →
    ∀ i, pos ≤ i → i < q → isdigitC (getC buf i) = true
  | buf, 0, pos, q, h => by simp [goNumAux] at h
  | buf, fuel + 1, pos, q, h => by
    rw [goNumAux] at h
    by_cases h0 : getC buf pos = '\x00'
    · simp [h0] at h
    · rw [if_neg h0] at h
      by_cases h1 : isdigitC (getC buf pos)
      · rw [if_pos h1] at h
        intro i hi1 hi2
        rcases Nat.eq_or_lt_of_le hi1 with he | hlt
        · subst he
          exact h1
        · exact goNumAux_digits h i hlt hi2
      · rw [if_neg h1] at h
        cases h
        intro i hi1 hi2
        exact absurd hi2 (by omega)

theorem goNum_digits {buf : List Char} {pos q : Nat} (h : goNum buf pos = some q) :
    ∀ i, pos ≤ i → i < q → isdigitC (getC buf i) = true := goNumAux_digits h

/-- A digit string of length `L` denotes a value below `10 ^ L`. -/
theorem litDigitsVal_lt {l : List Char} (h : ∀ c ∈ l, isdigitC c = true) :
    litDigitsVal l < 10 ^ l.length := by
  induction l with
  | nil => simp [litDigitsVal]
  | cons c cs ih =>
    have hc := isdigit_toNat (h c (by simp))
    have htail : litDigitsVal cs < 10 ^ cs.length := ih (fun x hx => h x (by simp [hx]))
    rw [litDigitsVal, List.length_cons, pow_succ]
    have h9 : c.toNat - 48 ≤ 9 := by omega
    have hA : (c.toNat - 48) * 10 ^ cs.length ≤ 9 * 10 ^ cs.length :=
      Nat.mul_le_mul_right _ h9
    omega

/-- A digit string with a nonzero leading digit denotes at least
`10 ^ (L - 1)`. -/
theorem litDigitsVal_ge {c : Char} {cs : List Char} (hc : isdigitC c = true)
    (hne : c ≠ '0') : 10 ^ cs.length ≤ litDigitsVal (c :: cs) := by
  have h1 := isdigit_toNat hc
  have hne' : c.toNat ≠ 48 := fun h => hne (char_toNat_inj h)
  rw [litDigitsVal]
  have h2 : 1 ≤ c.toNat - 48 := by omega
  have hA : 1 * 10 ^ cs.length ≤ (c.toNat - 48) * 10 ^ cs.length :=
    Nat.mul_le_mul_right _ h2
  omega

/-- On equal-length digit strings `strcmp` decides exactly the numeric
order. -/
theorem strcmpC_digits : ∀ {a b : List Char}, a.length = b.length →
    (∀ c ∈ a, isdigitC c = true) → (∀ c ∈ b, isdigitC c = true) →
    (0 ≤ strcmpC a b ↔ litDigitsVal b ≤ litDigitsVal a)
  | [], [], _, _, _ => by simp [strcmpC, litDigitsVal]
  | [], c :: cs, h, _, _ => by simp at h
  | a :: as, [], h, _, _ => by simp at h
  | a :: as, b :: bs, h, ha, hb => by
    have hlen : as.length = bs.length := by simpa using h
    have hda := isdigit_toNat (ha a (by simp))
    have hdb := isdigit_toNat (hb b (by simp))
    have hlta : litDigitsVal as < 10 ^ as.length :=
      litDigitsVal_lt (fun x hx => ha x (by simp [hx]))
    have hltb : litDigitsVal bs < 10 ^ bs.length :=
      litDigitsVal_lt (fun x hx => hb x (by simp [hx]))
    rw [strcmpC, litDigitsVal, litDigitsVal, hlen]
    rw [hlen] at hlta
    by_cases hab : a = b
    · rw [if_pos hab]
      subst hab
      rw [strcmpC_digits hlen (fun x hx => ha x (by simp [hx]))
        (fun x hx => hb x (by simp [hx]))]
      omega
    · rw [if_neg hab]
      have htn : a.toNat ≠ b.toNat := fun h' => hab (char_toNat_inj h')
      by_cases hlt : a.toNat < b.toNat
      · rw [if_pos hlt]
        refine iff_of_false (by decide) ?_
        have h2 : (a.toNat - 48) + 1 ≤ b.toNat - 48 := by omega
        have hA : ((a.toNat - 48) + 1) * 10 ^ bs.length ≤ (b.toNat - 48) * 10 ^ bs.length :=
          Nat.mul_le_mul_right _ h2
        rw [Nat.add_mul] at hA
        omega
      · rw [if_neg hlt]
        refine iff_of_true (by decide) ?_
        have h2 : (b.toNat - 48) + 1 ≤ a.toNat - 48 := by omega
        have hA : ((b.toNat - 48) + 1) * 10 ^ bs.length ≤ (a.toNat - 48) * 10 ^ bs.length :=
          Nat.mul_le_mul_right _ h2
        rw [Nat.add_mul] at hA
        omega

/-- The code's range check agrees with the spec's description of it on the
scanned span. -/
theorem intOkC_iff_fits {buf : List Char} {value p3 : Nat} {s : List Char}
    (h : value < p3) (hlen : p3 ≤ buf.length)
    (hs : s = (buf.drop value).take (p3 - value)) :
    (intOkC buf value p3 = true ↔ intFits s) := by
  have hslen : s.length = p3 - value := by
    rw [hs]
    simp [List.length_take, List.length_drop]
    omega
  have hhead0 : s[0]? = buf[value]? := by
    rw [hs, List.getElem?_take, if_pos (by omega), List.getElem?_drop, Nat.add_zero]
  have hhead : getC s 0 = getC buf value := by
    simp [getC, List.getD, hhead0]
  rw [intOkC]
  try simp only []
  rw [intFits, intMaxdigits, intThreshold, hhead, ← hs]
  by_cases hneg : getC buf value = '-'
  · simp only [if_pos hneg]
    by_cases hgt : p3 - value > minI64.length
    · rw [if_pos hgt]
      refine iff_of_false (by decide) ?_
      rintro (hc | ⟨hc, -⟩) <;> omega
    · rw [if_neg hgt]
      by_cases heq : p3 - value = minI64.length
      · rw [if_pos heq]
        rw [decide_eq_true_eq]
        constructor
        · intro hcmp
          exact Or.inr ⟨by omega, hcmp⟩
        · rintro (hc | ⟨-, hc⟩)
          · omega
          · exact hc
      · rw [if_neg heq]
        exact iff_of_true rfl (Or.inl (by omega))
  · simp only [if_neg hneg]
    by_cases hgt : p3 - value > maxI64.length
    · rw [if_pos hgt]
      refine iff_of_false (by decide) ?_
      rintro (hc | ⟨hc, -⟩) <;> omega
    · rw [if_neg hgt]
      by_cases heq : p3 - value = maxI64.length
      · rw [if_pos heq]
        rw [decide_eq_true_eq]
        constructor
        · intro hcmp
          exact Or.inr ⟨by omega, hcmp⟩
        · rintro (hc | ⟨-, hc⟩)
          · omega
          · exact hc
      · rw [if_neg heq]
        exact iff_of_true rfl (Or.inl (by omega))

theorem litVal_not_neg {c : Char} {cs : List Char} (h : c ≠ '-') :
    litVal (c :: cs) = litDigitsVal (c :: cs) := by
  unfold litVal
  split
  · rename_i m heq
    injection heq with h1 h2
    exact absurd h1 h
  · rfl

theorem litVal_neg {m : List Char} : litVal ('-' :: m) = -(litDigitsVal m : Int) := rfl

/-- An integer literal in the 64-bit range passes the spec-side length /
string-comparison acceptance condition. -/
theorem intFits_of_range {s : List Char} (hlit : IntLiteral s)
    (hlo : -(2 ^ 63 : Int) ≤ litVal s) (hhi : litVal s < 2 ^ 63) : intFits s := by
  obtain ⟨sgn, m, rfl, hsgn, hm⟩ := hlit
  have hmdig : ∀ c ∈ m, isdigitC c = true := by
    rcases hm with h0 | ⟨d, ds, rfl, hd, hne, hds⟩
    · subst h0
      intro c hc
      simp at hc
      subst hc
      decide
    · intro c hc
      rcases List.mem_cons.mp hc with rfl | hc
      · exact hd
      · exact hds c hc
  rcases hsgn with rfl | rfl
  · simp only [List.nil_append] at hhi hmdig ⊢
    rcases hm with h0 | ⟨d, ds, hmd, hd, hne, hds⟩
    · subst h0
      rw [intFits]
      exact Or.inl (by decide)
    · subst hmd
      have hdm : d ≠ '-' := by
        intro hdd
        rw [hdd] at hd
        exact absurd hd (by decide)
      rw [litVal_not_neg hdm] at hhi
      have hhiN : litDigitsVal (d :: ds) < 2 ^ 63 := by exact_mod_cast hhi
      have hlow : 10 ^ ds.length ≤ litDigitsVal (d :: ds) := litDigitsVal_ge hd hne
      have hlen18 : ds.length ≤ 18 := by
        by_contra hgt
        push_neg at hgt
        have h1 : (10 : Nat) ^ 19 ≤ 10 ^ ds.length :=
          Nat.pow_le_pow_right (by norm_num) (by omega)
        have h2 : (2 : Nat) ^ 63 < 10 ^ 19 := by norm_num
        omega
      rw [intFits, intMaxdigits, intThreshold]
      rw [show getC (d :: ds) 0 = d from rfl, if_neg hdm, if_neg hdm]
      rcases Nat.lt_or_ge (d :: ds).length 19 with hlt | hge
      · exact Or.inl (by rw [show maxI64.length = 19 from rfl]; omega)
      · have hlen : (d :: ds).length = 19 := by
          simp only [List.length_cons] at hge ⊢
          omega
        refine Or.inr ⟨by rw [hlen]; rfl, ?_⟩
        rw [strcmpC_digits (by rw [hlen]; rfl) (by decide) hmdig]
        have hmax : litDigitsVal maxI64 = 2 ^ 63 - 1 := by decide
        omega
  · have hv : litVal (['-'] ++ m) = -(litDigitsVal m : Int) := rfl
    rw [hv] at hlo
    have hloN : litDigitsVal m ≤ 2 ^ 63 := by
      have h1 : (litDigitsVal m : Int) ≤ 2 ^ 63 := by linarith
      exact_mod_cast h1
    rw [intFits, intMaxdigits, intThreshold]
    rw [show getC (['-'] ++ m) 0 = '-' from rfl, if_pos rfl, if_pos rfl]
    rcases hm with h0 | ⟨d, ds, hmd, hd, hne, hds⟩
    · subst h0
      exact Or.inl (by decide)
    · subst hmd
      have hlow : 10 ^ ds.length ≤ litDigitsVal (d :: ds) := litDigitsVal_ge hd hne
      have hlen18 : ds.length ≤ 18 := by
        by_contra hgt
        push_neg at hgt
        have h1 : (10 : Nat) ^ 19 ≤ 10 ^ ds.length :=
          Nat.pow_le_pow_right (by norm_num) (by omega)
        have h2 : (2 : Nat) ^ 63 < 10 ^ 19 := by norm_num
        omega
      rcases Nat.lt_or_ge (d :: ds).length 19 with hlt | hge
      · refine Or.inl ?_
        rw [show minI64.length = 20 from rfl]
        simp only [List.length_append, List.length_cons, List.length_nil] at hlt ⊢
        omega
      · have hlen : (d :: ds).length = 19 := by
          simp only [List.length_cons] at hge ⊢
          omega
        refine Or.inr ⟨?_, ?_⟩
        · rw [show minI64.length = 20 from rfl]
          simp only [List.length_append, List.length_cons, List.length_nil] at hlen ⊢
          omega
        · show 0 ≤ strcmpC
            ('-' :: ['9', '2', '2', '3', '3', '7', '2', '0', '3', '6', '8', '5', '4', '7', '7', '5', '8', '0', '8'])
            ('-' :: d :: ds)
          rw [strcmpC, if_pos rfl]
          rw [strcmpC_digits (by rw [hlen]; rfl) (by decide) hmdig]
          have hM : litDigitsVal
              ['9', '2', '2', '3', '3', '7', '2', '0', '3', '6', '8', '5', '4', '7', '7', '5', '8', '0', '8'] =
              2 ^ 63 := by decide
          omega

theorem specMantissa_digits {m : List Char} (hm : SpecMantissa m) :
    ∀ c ∈ m, isdigitC c = true := by
  rcases hm with h0 | ⟨d, ds, rfl, hd, hne, hds⟩
  · subst h0
    intro c hc
    simp at hc
    subst hc
    decide
  · intro c hc
    rcases List.mem_cons.mp hc with rfl | hc
    · exact hd
    · exact hds c hc

/-- An in-range integer literal followed by a comma scans successfully: the
digits are consumed, the comma is overwritten with the terminator, and the
node is tagged Integer. -/
theorem numValue_intLiteral {s : List Char} (hlit : IntLiteral s) (hfits : intFits s) :
    numValue (s ++ [',']) 0 default =
      some (s ++ ['\x00'], s.length + 1,
        { (default : JNode) with type := .JSON_INTEGER }) := by
  obtain ⟨sgn, m, rfl, hsgn, hm⟩ := hlit
  have hmdig : ∀ c ∈ m, isdigitC c = true := specMantissa_digits hm
  have hcomma : getC ((sgn ++ m) ++ [',']) (sgn ++ m).length = ',' := by
    rw [show ((sgn ++ m).length : Nat) = (sgn ++ m).length + 0 from rfl, getC_append_right]
    rfl
  have hmne : m ≠ [] := by
    rcases hm with h0 | ⟨d, ds, h1, -, -, -⟩
    · subst h0
      simp
    · subst h1
      simp
  have hlenpos : 0 < (sgn ++ m).length := by
    have : 0 < m.length := List.length_pos.mpr hmne
    simp only [List.length_append]
    omega
  have hs0 : sgn ++ m = (((sgn ++ m) ++ [',']).drop 0).take ((sgn ++ m).length - 0) := by
    rw [List.drop_zero, Nat.sub_zero, List.take_left]
  have hok : intOkC ((sgn ++ m) ++ [',']) 0 (sgn ++ m).length = true := by
    rw [intOkC_iff_fits hlenpos (by simp) hs0]
    exact hfits
  rcases hsgn with rfl | rfl
  · simp only [List.nil_append] at hmdig hcomma hlenpos hok ⊢
    rcases hm with h0 | ⟨d, ds, h1, hd, hne, hds⟩
    · subst h0
      decide
    · subst h1
      have hg0 : getC ((d :: ds) ++ [',']) 0 = d := rfl
      have hdm : d ≠ '-' := by
        intro hdd
        rw [hdd] at hd
        exact absurd hd (by decide)
      have hrun : NumRun ((d :: ds) ++ [',']) 0 default
          (d :: ds).length (d :: ds).length (d :: ds).length false false := by
        rw [NumRun]
        try simp only []
        rw [hg0, if_neg hdm]
        refine ⟨?_, ?_, ?_, ?_, by rw [hcomma]; decide, ?_⟩
        · exact hd
        · rw [hg0, if_neg hne]
          refine goNum_run (Nat.zero_le _)
            (fun i hi0 hij => by
              rw [getC_append_left hij]
              exact hmdig _ (getC_mem_of_lt hij))
            (by rw [hcomma]; decide) (by rw [hcomma]; decide)
        · rw [if_neg (by simp)]
          exact ⟨by rw [hcomma]; decide, by trivial⟩
        · rw [if_neg (by simp)]
          exact ⟨by rw [hcomma]; decide, by trivial⟩
        · intro h
          exact hok
      rw [numValue_some_of_run hrun, setToNull_write (by rw [hcomma]; decide)]
      have hset : ((d :: ds) ++ [',']).set (d :: ds).length '\x00' = (d :: ds) ++ ['\x00'] := by
        rw [show ((d :: ds).length : Nat) = (d :: ds).length + 0 from rfl, set_append_right']
        rfl
      rw [hset]
      rfl
  · rcases hm with h0 | ⟨d, ds, h1, hd, hne, hds⟩
    · subst h0
      decide
    · subst h1
      have hg0 : getC ((['-'] ++ (d :: ds)) ++ [',']) 0 = '-' := rfl
      have hrun : NumRun ((['-'] ++ (d :: ds)) ++ [',']) 0 default
          (['-'] ++ (d :: ds)).length (['-'] ++ (d :: ds)).length
          (['-'] ++ (d :: ds)).length false false := by
        rw [NumRun]
        try simp only []
        rw [hg0, if_pos rfl]
        refine ⟨?_, ?_, ?_, ?_, by rw [hcomma]; decide, ?_⟩
        · exact hd
        · rw [show getC ((['-'] ++ (d :: ds)) ++ [',']) (0 + 1) = d from rfl, if_neg hne]
          refine goNum_run
            (by simp only [List.length_append, List.length_cons, List.length_nil]; omega)
            (fun i hi0 hij => by
              obtain ⟨k, rfl⟩ : ∃ k, i = k + 1 := ⟨i - 1, by omega⟩
              show isdigitC (getC ('-' :: ((d :: ds) ++ [','])) (k + 1)) = true
              rw [getC_cons_succ]
              have hk : k < (d :: ds).length := by
                simp only [List.length_append, List.length_cons, List.length_nil] at hij
                simp only [List.length_cons]
                omega
              rw [getC_append_left hk]
              exact hmdig _ (getC_mem_of_lt hk))
            (by rw [hcomma]; decide) (by rw [hcomma]; decide)
        · rw [if_neg (by simp)]
          exact ⟨by rw [hcomma]; decide, by trivial⟩
        · rw [if_neg (by simp)]
          exact ⟨by rw [hcomma]; decide, by trivial⟩
        · intro h
          exact hok
      rw [numValue_some_of_run hrun, setToNull_write (by rw [hcomma]; decide)]
      have hset : ((['-'] ++ (d :: ds)) ++ [',']).set (['-'] ++ (d :: ds)).length '\x00' =
          (['-'] ++ (d :: ds)) ++ ['\x00'] := by
        rw [show ((['-'] ++ (d :: ds)).length : Nat) = (['-'] ++ (d :: ds)).length + 0 from rfl,
          set_append_right']
        rfl
      rw [hset]
      rfl

/-- Reading a NUL-terminated string back: the characters before the
terminator. -/
theorem cstrAux_run : ∀ (d : Nat) {s rest : List Char} {fuel pos : Nat},
    s.length - pos = d → pos ≤ s.length → (∀ c ∈ s, c ≠ '\x00') →
    s.length - pos + 1 ≤ fuel →
    cstrAux (s ++ '\x00' :: rest) fuel pos = s.drop pos
  | 0, s, rest, fuel, pos, hd, hle, hnn, hfuel => by
    have hp : pos = s.length := by omega
    subst hp
    obtain ⟨f, rfl⟩ : ∃ f, fuel = f + 1 := ⟨fuel - 1, by omega⟩
    rw [cstrAux]
    rw [if_pos (by
      rw [show (s.length : Nat) = s.length + 0 from rfl, getC_append_right]
      rfl)]
    rw [List.drop_length]
  | d + 1, s, rest, fuel, pos, hd, hle, hnn, hfuel => by
    have hlt : pos < s.length := by omega
    obtain ⟨f, rfl⟩ : ∃ f, fuel = f + 1 := ⟨fuel - 1, by omega⟩
    rw [cstrAux]
    rw [if_neg (by
      rw [getC_append_left hlt]
      exact hnn _ (getC_mem_of_lt hlt))]
    rw [cstrAux_run d (by omega) (by omega) hnn (by omega)]
    rw [getC_append_left hlt]
    rw [List.drop_eq_getElem_cons hlt]
    rw [getC, List.getD_eq_getElem _ _ hlt]

theorem cstr_append_nul {s rest : List Char} (h : ∀ c ∈ s, c ≠ '\x00') :
    cstr (s ++ '\x00' :: rest) 0 = s := by
  rw [cstr]
  rw [cstrAux_run s.length rfl (Nat.zero_le _) h
    (by simp only [List.length_append, List.length_cons, Nat.sub_zero]; omega)]
  exact List.drop_zero s

/-! ## End-of-primitive characters, buffer slices, fraction/exponent runs
(for the number-grammar claim) -/

theorem isEndOfPrimitive_iff_mem (c : Char) :
    isEndOfPrimitive c = true ↔
      c ∈ ([',', ' ', '\n', '\r', '\t', '\x0C', '}', ']'] : List Char) := by
  rw [isEndOfPrimitive]
  simp [isOneOfThem, blank, endofblock]
  tauto

theorem eop_false_of_digit {c : Char} (h : isdigitC c = true) :
    isEndOfPrimitive c = false := by
  cases hv : isEndOfPrimitive c
  · rfl
  · exfalso
    have hm := (isEndOfPrimitive_iff_mem c).mp hv
    simp only [List.mem_cons, List.not_mem_nil, or_false] at hm
    rcases hm with rfl | rfl | rfl | rfl | rfl | rfl | rfl | rfl <;>
      exact absurd h (by decide)

theorem digit_false_of_eop {c : Char} (h : isEndOfPrimitive c = true) :
    isdigitC c = false := by
  cases hv : isdigitC c
  · rfl
  · rw [eop_false_of_digit hv] at h
    cases h

theorem eop_ne_nul {c : Char} (h : isEndOfPrimitive c = true) : c ≠ '\x00' := by
  have hm := (isEndOfPrimitive_iff_mem c).mp h
  simp only [List.mem_cons, List.not_mem_nil, or_false] at hm
  rcases hm with rfl | rfl | rfl | rfl | rfl | rfl | rfl | rfl <;> decide

theorem getC_eq_some {l : List Char} {i : Nat} (h : i < l.length) :
    l[i]? = some (getC l i) := by
  rw [List.getElem?_eq_getElem h, getC, List.getD_eq_getElem _ _ h]

theorem mem_slice {l : List Char} {a b : Nat} {c : Char}
    (hc : c ∈ (l.take b).drop a) :
    ∃ i, a ≤ i ∧ i < b ∧ i < l.length ∧ getC l i = c := by
  obtain ⟨j, hj⟩ := List.mem_iff_getElem?.mp hc
  rw [List.getElem?_drop, List.getElem?_take] at hj
  by_cases hb : a + j < b
  · rw [if_pos hb] at hj
    have hlen : a + j < l.length := by
      by_contra hge
      rw [List.getElem?_eq_none (by omega)] at hj
      cases hj
    refine ⟨a + j, by omega, hb, hlen, ?_⟩
    rw [getC_eq_some hlen] at hj
    exact Option.some.inj hj
  · rw [if_neg hb] at hj
    cases hj

theorem slice_cons {l : List Char} {a b : Nat} (hab : a < b) (hl : a < l.length) :
    (l.take b).drop a = getC l a :: (l.take b).drop (a + 1) := by
  have hlt : a < (l.take b).length := by
    simp [List.length_take]
    omega
  rw [List.drop_eq_getElem_cons hlt]
  congr 1
  rw [List.getElem_take, getC, List.getD_eq_getElem _ _ hl]

theorem slice_nil {l : List Char} {a : Nat} : (l.take a).drop a = [] := by
  rw [List.drop_take]
  simp

theorem slice_one {l : List Char} {a : Nat} (h : a < l.length) :
    (l.take (a + 1)).drop a = [getC l a] := by
  rw [slice_cons (by omega) h, slice_nil]

theorem slice_decomp {l : List Char} {a b : Nat} (hab : a ≤ b) (hb : b ≤ l.length) :
    l.drop a = (l.take b).drop a ++ l.drop b := by
  conv_lhs => rw [← List.take_append_drop b l]
  rw [List.drop_append_of_le_length (by simp [List.length_take]; omega)]

theorem fraqValue_run {buf : List Char} {pos q : Nat}
    (h0 : isdigitC (getC buf pos) = true) (hle : pos + 1 ≤ q)
    (hdig : ∀ i, pos + 1 ≤ i → i < q → isdigitC (getC buf i) = true)
    (hstop : isdigitC (getC buf q) = false) (hnn : getC buf q ≠ '\x00') :
    fraqValue buf pos = some q := by
  rw [fraqValue, if_neg (by simp [h0]), goNum_run hle hdig hstop hnn]

theorem fraqValue_inv {buf : List Char} {pos q : Nat} (h : fraqValue buf pos = some q) :
    isdigitC (getC buf pos) = true ∧ pos + 1 ≤ q ∧
      (∀ i, pos + 1 ≤ i → i < q → isdigitC (getC buf i) = true) ∧
      isdigitC (getC buf q) = false ∧ getC buf q ≠ '\x00' := by
  rw [fraqValue] at h
  by_cases h0 : isdigitC (getC buf pos)
  · rw [if_neg (by simp [h0])] at h
    rcases hg : goNum buf (pos + 1) with _ | p
    · rw [hg] at h
      simp at h
    · rw [hg] at h
      try simp only [] at h
      cases h
      obtain ⟨hle, hlt, hnn, hstop⟩ := goNum_some hg
      exact ⟨h0, hle, goNum_digits hg, hstop, hnn⟩
  · rw [if_pos (by simp [h0])] at h
    cases h

theorem expValue_run {buf : List Char} {pos psign q : Nat}
    (hp : psign = if getC buf pos = '-' ∨ getC buf pos = '+' then pos + 1 else pos)
    (h0 : isdigitC (getC buf psign) = true) (hle : psign + 1 ≤ q)
    (hdig : ∀ i, psign + 1 ≤ i → i < q → isdigitC (getC buf i) = true)
    (hstop : isdigitC (getC buf q) = false) (hnn : getC buf q ≠ '\x00') :
    expValue buf pos = some q := by
  rw [expValue]
  try simp only []
  rw [← hp, if_neg (by simp [h0]), goNum_run hle hdig hstop hnn]

theorem expValue_inv {buf : List Char} {pos q : Nat} (h : expValue buf pos = some q) :
    ∃ psign, psign = (if getC buf pos = '-' ∨ getC buf pos = '+' then pos + 1 else pos) ∧
      isdigitC (getC buf psign) = true ∧ psign + 1 ≤ q ∧
      (∀ i, psign + 1 ≤ i → i < q → isdigitC (getC buf i) = true) ∧
      isdigitC (getC buf q) = false ∧ getC buf q ≠ '\x00' := by
  rw [expValue] at h
  try simp only [] at h
  set ps := if getC buf pos = '-' ∨ getC buf pos = '+' then pos + 1 else pos with hps
  by_cases h0 : isdigitC (getC buf ps)
  · rw [if_neg (by simp [h0])] at h
    obtain ⟨hle, hlt, hnn, hstop⟩ := goNum_some h
    exact ⟨ps, hps, h0, hle, goNum_digits h, hstop, hnn⟩
  · rw [if_pos (by simp [h0])] at h
    cases h

/-- Every position the number scan consumed holds a non-delimiter
character: sign, digit, dot, exponent mark or exponent sign. -/
theorem NumRun_covers {buf : List Char} {pos : Nat} {prop : JNode}
    {p1 p2 p3 : Nat} {hF hE : Bool} (h : NumRun buf pos prop p1 p2 p3 hF hE) :
    ∀ i, pos ≤ i → i < p3 → isEndOfPrimitive (getC buf i) = false := by
  have hb := NumRun_bounds h
  rw [NumRun] at h
  try simp only [] at h
  set p0 := if getC buf pos = '-' then pos + 1 else pos with hp0
  obtain ⟨hd0, hm, hf, he, heop, -⟩ := h
  intro i hi hip3
  by_cases hc0 : i < p0
  · by_cases hneg : getC buf pos = '-'
    · have hieq : i = pos := by
        rw [hp0, if_pos hneg] at hc0
        omega
      subst hieq
      rw [hneg]
      decide
    · exfalso
      rw [hp0, if_neg hneg] at hc0
      omega
  · push_neg at hc0
    have hple : pos ≤ p0 := by
      rw [hp0]
      split <;> omega
    by_cases hc1 : i < p1
    · by_cases hz : getC buf p0 = '0'
      · rw [if_pos hz] at hm
        obtain ⟨-, hp1⟩ := hm
        have hieq : i = p0 := by omega
        subst hieq
        rw [hz]
        decide
      · rw [if_neg hz] at hm
        exact eop_false_of_digit (goNum_digits hm i hc0 hc1)
    · push_neg at hc1
      by_cases hc2 : i < p2
      · cases hF with
        | false =>
          rw [if_neg (by simp)] at hf
          obtain ⟨-, hp2⟩ := hf
          omega
        | true =>
          rw [if_pos (by simp)] at hf
          obtain ⟨hdot, hfv⟩ := hf
          obtain ⟨h0, hle, hdigs, -, -⟩ := fraqValue_inv hfv
          rcases Nat.eq_or_lt_of_le hc1 with hie | hgt
          · rw [← hie, hdot]
            decide
          · rcases Nat.eq_or_lt_of_le (show p1 + 1 ≤ i by omega) with hie2 | hgt2
            · rw [← hie2]
              exact eop_false_of_digit h0
            · exact eop_false_of_digit (hdigs i (by omega) hc2)
      · push_neg at hc2
        cases hE with
        | false =>
          rw [if_neg (by simp)] at he
          obtain ⟨-, hp3⟩ := he
          omega
        | true =>
          rw [if_pos (by simp)] at he
          obtain ⟨hech, hev⟩ := he
          obtain ⟨ps, hps, h0, hle, hdigs, -, -⟩ := expValue_inv hev
          rcases Nat.eq_or_lt_of_le hc2 with hie | hgt
          · rw [← hie]
            rcases hech with hch | hch <;> rw [hch] <;> decide
          · by_cases hsign : getC buf (p2 + 1) = '-' ∨ getC buf (p2 + 1) = '+'
            · rw [if_pos hsign] at hps
              rcases Nat.eq_or_lt_of_le (show p2 + 1 ≤ i by omega) with hie2 | hgt2
              · rw [← hie2]
                rcases hsign with hch | hch <;> rw [hch] <;> decide
              · rcases Nat.eq_or_lt_of_le (show ps ≤ i by omega) with hie3 | hgt3
                · rw [← hie3]
                  exact eop_false_of_digit h0
                · exact eop_false_of_digit (hdigs i (by omega) hip3)
            · rw [if_neg hsign] at hps
              rcases Nat.eq_or_lt_of_le (show ps ≤ i by omega) with hie3 | hgt3
              · rw [← hie3]
                exact eop_false_of_digit h0
              · exact eop_false_of_digit (hdigs i (by omega) hip3)

theorem drop_cons_getC {l : List Char} {a : Nat} (h : a < l.length) :
    l.drop a = getC l a :: l.drop (a + 1) := by
  rw [List.drop_eq_getElem_cons h]
  congr 1
  rw [getC, List.getD_eq_getElem _ _ h]

/-- A successful scan over `s` (delimited by an end-of-primitive character)
ends exactly at `s`'s end, exhibits the spec's number production, and has a
fraction or exponent exactly when `s` carries a real marker. -/
theorem spec_of_run {s : List Char} {d : Char} {rest : List Char} {prop : JNode}
    {p1 p2 p3 : Nat} {hF hE : Bool}
    (hse : ∀ c ∈ s, isEndOfPrimitive c = false)
    (hd : isEndOfPrimitive d = true)
    (h : NumRun (s ++ d :: rest) 0 prop p1 p2 p3 hF hE) :
    p3 = s.length ∧ SpecNumber s ∧ ((hF || hE) = true ↔ realMark s) := by
  have hb := NumRun_bounds h
  have hcov := NumRun_covers h
  have hd3 : getC (s ++ d :: rest) s.length = d := by
    rw [show (s.length : Nat) = s.length + 0 from rfl, getC_append_right]
    rfl
  have hp3le : p3 ≤ s.length := by
    by_contra hgt
    push_neg at hgt
    have hc := hcov s.length (Nat.zero_le _) hgt
    rw [hd3, hd] at hc
    cases hc
  rw [NumRun] at h
  try simp only [] at h
  set p0 := if getC (s ++ d :: rest) 0 = '-' then 0 + 1 else 0 with hp0
  obtain ⟨hd0, hm, hf, he, heop, hint⟩ := h
  have hp3ge : s.length ≤ p3 := by
    by_contra hlt
    push_neg at hlt
    have hmem : getC (s ++ d :: rest) p3 ∈ s := by
      rw [getC_append_left hlt]
      exact getC_mem_of_lt hlt
    rw [hse _ hmem] at heop
    cases heop
  have hp3 : p3 = s.length := by omega
  have hp0le : p0 ≤ 1 := by
    rw [hp0]
    split <;> omega
  have hp01 : p0 < p1 := by
    rcases Nat.lt_or_ge p0 p1 with hlt | hge
    · exact hlt
    · exfalso
      by_cases hz : getC (s ++ d :: rest) p0 = '0'
      · rw [if_pos hz] at hm
        omega
      · rw [if_neg hz] at hm
        obtain ⟨hle2, -, -, hstop⟩ := goNum_some hm
        have hpe : p1 = p0 := by omega
        rw [hpe, hd0] at hstop
        cases hstop
  have hb2 : p1 ≤ p2 := hb.2.2.1
  have hb3 : p2 ≤ p3 := hb.2.2.2.1
  have htr : ∀ i, i < s.length → getC (s ++ d :: rest) i = getC s i :=
    fun i hi => getC_append_left hi
  have hsgn : s.take p0 = [] ∨ s.take p0 = ['-'] := by
    by_cases hneg : getC (s ++ d :: rest) 0 = '-'
    · right
      rw [hp0, if_pos hneg] at hp01 ⊢
      have h0lt : 0 < s.length := by omega
      have ht1 : s.take (0 + 1) = [getC s 0] := by
        rw [← List.drop_zero (s.take (0 + 1)), slice_one h0lt]
      rw [ht1, ← htr 0 h0lt, hneg]
    · left
      rw [hp0, if_neg hneg]
      exact List.take_zero s
  have hman : SpecMantissa ((s.take p1).drop p0) := by
    have hp0lt : p0 < s.length := by omega
    by_cases hz : getC (s ++ d :: rest) p0 = '0'
    · rw [if_pos hz] at hm
      obtain ⟨-, hp1e⟩ := hm
      left
      rw [hp1e, slice_one hp0lt, ← htr p0 hp0lt, hz]
    · rw [if_neg hz] at hm
      right
      refine ⟨getC s p0, (s.take p1).drop (p0 + 1), slice_cons hp01 hp0lt, ?_, ?_, ?_⟩
      · rw [← htr p0 hp0lt]
        exact goNum_digits hm p0 (Nat.le_refl _) hp01
      · rw [← htr p0 hp0lt]
        exact hz
      · intro c hc
        obtain ⟨i, hi1, hi2, hi3, hieq⟩ := mem_slice hc
        rw [← hieq, ← htr i hi3]
        exact goNum_digits hm i (by omega) hi2
  have hfr : SpecFrac ((s.take p2).drop p1) := by
    cases hF with
    | false =>
      rw [if_neg (by simp)] at hf
      obtain ⟨-, hp2e⟩ := hf
      left
      rw [hp2e, slice_nil]
    | true =>
      rw [if_pos (by simp)] at hf
      obtain ⟨hdot, hfv⟩ := hf
      obtain ⟨h0, hle, hdigs, -, -⟩ := fraqValue_inv hfv
      have hp1lt : p1 < s.length := by omega
      have hp12 : p1 < p2 := by omega
      right
      refine ⟨(s.take p2).drop (p1 + 1), ?_, ?_, ?_⟩
      · rw [slice_cons hp12 hp1lt, ← htr p1 hp1lt, hdot]
      · have hpos : 0 < ((s.take p2).drop (p1 + 1)).length := by
          simp [List.length_drop, List.length_take]
          omega
        exact List.length_pos.mp hpos
      · intro c hc
        obtain ⟨i, hi1, hi2, hi3, hieq⟩ := mem_slice hc
        rw [← hieq, ← htr i hi3]
        rcases Nat.eq_or_lt_of_le hi1 with hie | hgt
        · rw [← hie]
          exact h0
        · exact hdigs i (by omega) hi2
  have hex : SpecExp (s.drop p2) := by
    cases hE with
    | false =>
      rw [if_neg (by simp)] at he
      obtain ⟨-, hp3e⟩ := he
      left
      rw [← hp3e, hp3, List.drop_length]
    | true =>
      rw [if_pos (by simp)] at he
      obtain ⟨hech, hev⟩ := he
      obtain ⟨ps, hps, h0, hle, hdigs, -, -⟩ := expValue_inv hev
      have hp2lt : p2 < s.length := by
        by_cases hsg : getC (s ++ d :: rest) (p2 + 1) = '-' ∨
            getC (s ++ d :: rest) (p2 + 1) = '+'
        · rw [if_pos hsg] at hps
          omega
        · rw [if_neg hsg] at hps
          omega
      right
      have heds : ∀ a, ps ≤ a → ∀ c ∈ s.drop a, isdigitC c = true := by
        intro a ha c hc
        have hta : s.drop a = (s.take s.length).drop a := by rw [List.take_length]
        rw [hta] at hc
        obtain ⟨i, hi1, hi2, hi3, hieq⟩ := mem_slice hc
        rw [← hieq, ← htr i hi3]
        rcases Nat.eq_or_lt_of_le (show ps ≤ i by omega) with hie | hgt
        · rw [← hie]
          exact h0
        · exact hdigs i (by omega) (by omega)
      have hedne : ∀ a, a < s.length → s.drop a ≠ [] := by
        intro a ha
        have hpos : 0 < (s.drop a).length := by
          simp [List.length_drop]
          omega
        exact List.length_pos.mp hpos
      by_cases hsg : getC (s ++ d :: rest) (p2 + 1) = '-' ∨
          getC (s ++ d :: rest) (p2 + 1) = '+'
      · rw [if_pos hsg] at hps
        have hp21lt : p2 + 1 < s.length := by omega
        refine ⟨getC s p2, [getC s (p2 + 1)], s.drop (p2 + 2), ?_, ?_, ?_, ?_⟩
        · rw [drop_cons_getC hp2lt, drop_cons_getC hp21lt]
          rfl
        · rw [← htr p2 hp2lt]
          exact hech
        · rw [← htr (p2 + 1) hp21lt]
          rcases hsg with hch | hch
          · right; right
            rw [hch]
          · right; left
            rw [hch]
        · exact ⟨hedne (p2 + 2) (by omega), heds (p2 + 2) (by omega)⟩
      · rw [if_neg hsg] at hps
        refine ⟨getC s p2, [], s.drop (p2 + 1), ?_, ?_, Or.inl rfl, ?_⟩
        · rw [drop_cons_getC hp2lt]
          rfl
        · rw [← htr p2 hp2lt]
          exact hech
        · exact ⟨hedne (p2 + 1) (by omega), heds (p2 + 1) (by omega)⟩
  have hdecomp : s = s.take p0 ++ ((s.take p1).drop p0 ++ ((s.take p2).drop p1 ++ s.drop p2)) := by
    have hD1 : s.drop p0 = (s.take p1).drop p0 ++ s.drop p1 :=
      slice_decomp (by omega) (by omega)
    have hD2 : s.drop p1 = (s.take p2).drop p1 ++ s.drop p2 :=
      slice_decomp (by omega) (by omega)
    conv_lhs => rw [← List.take_append_drop p0 s, hD1, hD2]
  have hdecomp2 : s = s.take p0 ++ (s.take p1).drop p0 ++ (s.take p2).drop p1 ++ s.drop p2 := by
    conv_lhs => rw [hdecomp]
    simp [List.append_assoc]
  refine ⟨hp3, ⟨s.take p0, (s.take p1).drop p0, (s.take p2).drop p1, s.drop p2,
    hdecomp2, hsgn, hman, hfr, hex⟩, ⟨?_, ?_⟩⟩
  · intro hore
    rcases Bool.or_eq_true_iff.mp hore with hFt | hEt
    · subst hFt
      rw [if_pos (by simp)] at hf
      obtain ⟨hdot, hfv⟩ := hf
      obtain ⟨-, hle2, -, -, -⟩ := fraqValue_inv hfv
      have hp1lt : p1 < s.length := by omega
      left
      rw [htr p1 hp1lt] at hdot
      rw [← hdot]
      exact getC_mem_of_lt hp1lt
    · subst hEt
      rw [if_pos (by simp)] at he
      obtain ⟨hech, hev⟩ := he
      obtain ⟨ps, hps, h0, hle, -, -, -⟩ := expValue_inv hev
      have hp2lt : p2 < s.length := by
        by_cases hsg : getC (s ++ d :: rest) (p2 + 1) = '-' ∨
            getC (s ++ d :: rest) (p2 + 1) = '+'
        · rw [if_pos hsg] at hps
          omega
        · rw [if_neg hsg] at hps
          omega
      rcases hech with hch | hch
      · right; left
        rw [htr p2 hp2lt] at hch
        rw [← hch]
        exact getC_mem_of_lt hp2lt
      · right; right
        rw [htr p2 hp2lt] at hch
        rw [← hch]
        exact getC_mem_of_lt hp2lt
  · intro hrm
    by_contra hne
    have hFE : hF = false ∧ hE = false := by
      cases hF <;> cases hE <;> simp at hne ⊢
    obtain ⟨hFf, hEf⟩ := hFE
    subst hFf
    subst hEf
    rw [if_neg (by simp)] at hf
    rw [if_neg (by simp)] at he
    obtain ⟨-, hp2e⟩ := hf
    obtain ⟨-, hp3e⟩ := he
    have hmark : ∃ c ∈ s, c = '.' ∨ c = 'e' ∨ c = 'E' := by
      rcases hrm with hc | hc | hc
      · exact ⟨'.', hc, Or.inl rfl⟩
      · exact ⟨'e', hc, Or.inr (Or.inl rfl)⟩
      · exact ⟨'E', hc, Or.inr (Or.inr rfl)⟩
    obtain ⟨c, hcs, hcm⟩ := hmark
    rw [hdecomp] at hcs
    rcases List.mem_append.mp hcs with hc1 | hc23
    · rcases hsgn with hemp | hneg1
      · rw [hemp] at hc1
        cases hc1
      · rw [hneg1] at hc1
        simp at hc1
        subst hc1
        rcases hcm with hx | hx | hx <;> exact absurd hx (by decide)
    · rcases List.mem_append.mp hc23 with hc2 | hc34
      · have hdig := specMantissa_digits hman c hc2
        rcases hcm with hx | hx | hx <;> rw [hx] at hdig <;> exact absurd hdig (by decide)
      · rcases List.mem_append.mp hc34 with hc3 | hc4
        · rw [hp2e, slice_nil] at hc3
          cases hc3
        · rw [show p2 = s.length from by omega, List.drop_length] at hc4
          cases hc4

theorem digit_ne_chars {c : Char} (h : isdigitC c = true) :
    c ≠ '-' ∧ c ≠ '+' ∧ c ≠ '.' ∧ c ≠ 'e' ∧ c ≠ 'E' := by
  refine ⟨?_, ?_, ?_, ?_, ?_⟩ <;> intro hx <;> rw [hx] at h <;> exact absurd h (by decide)

theorem eop_char_props {c : Char} (h : isEndOfPrimitive c = true) :
    isdigitC c = false ∧ c ≠ '\x00' ∧ c ≠ '.' ∧ c ≠ 'e' ∧ c ≠ 'E' := by
  have hm := (isEndOfPrimitive_iff_mem c).mp h
  simp only [List.mem_cons, List.not_mem_nil, or_false] at hm
  rcases hm with rfl | rfl | rfl | rfl | rfl | rfl | rfl | rfl <;>
    exact ⟨by decide, by decide, by decide, by decide, by decide⟩

theorem specMantissa_head {m : List Char} (hm : SpecMantissa m) :
    m ≠ [] ∧ isdigitC (getC m 0) = true := by
  rcases hm with h0 | ⟨d, ds, rfl, hd, -, -⟩
  · subst h0
    exact ⟨by simp, by decide⟩
  · exact ⟨by simp, hd⟩

/-- The mantissa arm of the scan on a spec-conforming integer part. -/
theorem mantissa_clause {buf : List Char} {a0 : Nat} {m : List Char}
    (hm : SpecMantissa m)
    (hch : ∀ j, j < m.length → getC buf (a0 + j) = getC m j)
    (hstop : isdigitC (getC buf (a0 + m.length)) = false)
    (hnn : getC buf (a0 + m.length) ≠ '\x00') :
    if getC buf a0 = '0' then
      isdigitC (getC buf (a0 + 1)) = false ∧ a0 + m.length = a0 + 1
    else goNum buf a0 = some (a0 + m.length) := by
  rcases hm with h0 | ⟨d, ds, hmd, hd, hne, hds⟩
  · subst h0
    rw [if_pos (show getC buf a0 = '0' from hch 0 (by decide))]
    exact ⟨hstop, rfl⟩
  · subst hmd
    have hda : getC buf (a0 + 0) = d := by
      rw [hch 0 (by simp)]
      rfl
    rw [if_neg (show ¬ getC buf a0 = '0' from fun hx => hne (hda.symm.trans hx))]
    refine goNum_run (by omega) ?_ hstop hnn
    intro i hi1 hi2
    rw [show i = a0 + (i - a0) from by omega, hch (i - a0) (by omega)]
    exact specMantissa_digits (Or.inr ⟨d, ds, rfl, hd, hne, hds⟩) _
      (getC_mem_of_lt (by omega))

/-- The fraction arm of the scan on a spec-conforming fraction part. -/
theorem frac_clause {buf : List Char} {P1 : Nat} {fd : List Char}
    (hch : ∀ j, j < ('.' :: fd).length → getC buf (P1 + j) = getC ('.' :: fd) j)
    (hfdne : fd ≠ []) (hfddig : ∀ x ∈ fd, isdigitC x = true)
    (hstop : isdigitC (getC buf (P1 + ('.' :: fd).length)) = false)
    (hnn : getC buf (P1 + ('.' :: fd).length) ≠ '\x00') :
    getC buf P1 = '.' ∧ fraqValue buf (P1 + 1) = some (P1 + ('.' :: fd).length) := by
  have hfdpos : 0 < fd.length := List.length_pos.mpr hfdne
  constructor
  · exact hch 0 (by simp)
  · have hfd0 : isdigitC (getC fd 0) = true := hfddig _ (getC_mem_of_lt hfdpos)
    refine fraqValue_run ?_ ?_ ?_ hstop hnn
    · rw [hch 1 (by simp only [List.length_cons]; omega)]
      exact hfd0
    · simp only [List.length_cons]
      omega
    · intro i h1 h2
      have hj : i - P1 < ('.' :: fd).length := by
        simp only [List.length_cons] at h2 ⊢
        omega
      rw [show i = P1 + (i - P1) from by omega, hch (i - P1) hj]
      obtain ⟨k, hk⟩ : ∃ k, i - P1 = k + 1 := ⟨i - P1 - 1, by omega⟩
      rw [hk, getC_cons_succ]
      refine hfddig _ (getC_mem_of_lt ?_)
      rw [hk] at hj
      simp only [List.length_cons] at hj
      omega

/-- The exponent arm of the scan on a spec-conforming exponent part. -/
theorem exp_clause {buf : List Char} {P2 : Nat} {c : Char} {sg ed : List Char}
    (hch : ∀ j, j < (c :: (sg ++ ed)).length →
      getC buf (P2 + j) = getC (c :: (sg ++ ed)) j)
    (hsg : sg = [] ∨ sg = ['+'] ∨ sg = ['-'])
    (hedne : ed ≠ []) (heddig : ∀ x ∈ ed, isdigitC x = true)
    (hstop : isdigitC (getC buf (P2 + (c :: (sg ++ ed)).length)) = false)
    (hnn : getC buf (P2 + (c :: (sg ++ ed)).length) ≠ '\x00') :
    expValue buf (P2 + 1) = some (P2 + (c :: (sg ++ ed)).length) := by
  have hedpos : 0 < ed.length := List.length_pos.mpr hedne
  have hed0 : isdigitC (getC ed 0) = true := heddig _ (getC_mem_of_lt hedpos)
  rcases hsg with rfl | rfl | rfl
  · have hch1 : getC buf (P2 + 1) = getC ed 0 := by
      rw [hch 1 (by simp only [List.length_cons, List.length_append, List.length_nil]; omega)]
      rfl
    refine @expValue_run buf (P2 + 1) (P2 + 1) _ ?_ ?_ ?_ ?_ hstop hnn
    · rw [hch1, if_neg ?_]
      rintro (hx | hx)
      · exact (digit_ne_chars hed0).1 hx
      · exact (digit_ne_chars hed0).2.1 hx
    · rw [hch1]
      exact hed0
    · simp only [List.length_cons, List.length_append, List.length_nil]
      omega
    · intro i h1 h2
      have hj : i - P2 < (c :: (List.nil ++ ed)).length := by
        simp only [List.length_cons, List.length_append, List.length_nil] at h2 ⊢
        omega
      rw [show i = P2 + (i - P2) from by omega, hch (i - P2) hj]
      obtain ⟨k, hk⟩ : ∃ k, i - P2 = k + 1 := ⟨i - P2 - 1, by omega⟩
      rw [hk, getC_cons_succ, List.nil_append]
      refine heddig _ (getC_mem_of_lt ?_)
      rw [hk] at hj
      simp only [List.length_cons, List.length_append, List.length_nil] at hj
      omega
  · have hch1 : getC buf (P2 + 1) = '+' := by
      rw [hch 1 (by simp only [List.length_cons, List.length_append]; omega)]
      rfl
    refine @expValue_run buf (P2 + 1) (P2 + 1 + 1) _ ?_ ?_ ?_ ?_ hstop hnn
    · rw [if_pos (Or.inr hch1)]
    · rw [show P2 + 1 + 1 = P2 + 2 from rfl, hch 2
        (by simp only [List.length_cons, List.length_append]; omega)]
      exact hed0
    · simp only [List.length_cons, List.length_append]
      omega
    · intro i h1 h2
      have hj : i - P2 < (c :: (['+'] ++ ed)).length := by
        simp only [List.length_cons, List.length_append] at h2 ⊢
        omega
      rw [show i = P2 + (i - P2) from by omega, hch (i - P2) hj]
      obtain ⟨k, hk⟩ : ∃ k, i - P2 = k + 2 := ⟨i - P2 - 2, by omega⟩
      rw [hk]
      show isdigitC (getC ed k) = true
      refine heddig _ (getC_mem_of_lt ?_)
      rw [hk] at hj
      simp only [List.length_cons, List.length_append, List.length_nil] at hj
      omega
  · have hch1 : getC buf (P2 + 1) = '-' := by
      rw [hch 1 (by simp only [List.length_cons, List.length_append]; omega)]
      rfl
    refine @expValue_run buf (P2 + 1) (P2 + 1 + 1) _ ?_ ?_ ?_ ?_ hstop hnn
    · rw [if_pos (Or.inl hch1)]
    · rw [show P2 + 1 + 1 = P2 + 2 from rfl, hch 2
        (by simp only [List.length_cons, List.length_append]; omega)]
      exact hed0
    · simp only [List.length_cons, List.length_append]
      omega
    · intro i h1 h2
      have hj : i - P2 < (c :: (['-'] ++ ed)).length := by
        simp only [List.length_cons, List.length_append] at h2 ⊢
        omega
      rw [show i = P2 + (i - P2) from by omega, hch (i - P2) hj]
      obtain ⟨k, hk⟩ : ∃ k, i - P2 = k + 2 := ⟨i - P2 - 2, by omega⟩
      rw [hk]
      show isdigitC (getC ed k) = true
      refine heddig _ (getC_mem_of_lt ?_)
      rw [hk] at hj
      simp only [List.length_cons, List.length_append, List.length_nil] at hj
      omega

/-- A spec-conforming number (with the range side-condition for pure
integers) is accepted by the scanner: a full trace exists. -/
theorem run_of_spec {sgn m f e : List Char} {d : Char} {rest : List Char} {prop : JNode}
    (hv : prop.value = 0)
    (hsgn : sgn = [] ∨ sgn = ['-']) (hm : SpecMantissa m) (hf : SpecFrac f)
    (he : SpecExp e) (hd : isEndOfPrimitive d = true)
    (hfit : ¬ realMark (sgn ++ m ++ f ++ e) → intFits (sgn ++ m ++ f ++ e)) :
    ∃ p1 p2 p3 hF hE,
      NumRun ((sgn ++ m ++ f ++ e) ++ d :: rest) 0 prop p1 p2 p3 hF hE := by
  have hbufe : (sgn ++ m ++ f ++ e) ++ d :: rest =
      sgn ++ (m ++ (f ++ (e ++ d :: rest))) := by
    simp [List.append_assoc]
  have hch_m : ∀ i j, j < m.length → i = sgn.length + j →
      getC ((sgn ++ m ++ f ++ e) ++ d :: rest) i = getC m j := by
    intro i j hj hi
    rw [hi, hbufe, getC_append_right, getC_append_left hj]
  have hch_f : ∀ i j, j < f.length → i = sgn.length + m.length + j →
      getC ((sgn ++ m ++ f ++ e) ++ d :: rest) i = getC f j := by
    intro i j hj hi
    rw [show i = sgn.length + (m.length + j) from by omega, hbufe,
      getC_append_right, getC_append_right, getC_append_left hj]
  have hch_e : ∀ i j, j < e.length → i = sgn.length + m.length + f.length + j →
      getC ((sgn ++ m ++ f ++ e) ++ d :: rest) i = getC e j := by
    intro i j hj hi
    rw [show i = sgn.length + (m.length + (f.length + j)) from by omega, hbufe,
      getC_append_right, getC_append_right, getC_append_right, getC_append_left hj]
  have hch_d : ∀ i, i = sgn.length + m.length + f.length + e.length →
      getC ((sgn ++ m ++ f ++ e) ++ d :: rest) i = d := by
    intro i hi
    rw [show i = sgn.length + (m.length + (f.length + (e.length + 0))) from by omega, hbufe,
      getC_append_right, getC_append_right, getC_append_right, getC_append_right]
    rfl
  have hmh := specMantissa_head hm
  have hmpos : 0 < m.length := List.length_pos.mpr hmh.1
  have hp0e : (if getC ((sgn ++ m ++ f ++ e) ++ d :: rest) 0 = '-' then 0 + 1 else 0) =
      sgn.length := by
    by_cases hneg : getC ((sgn ++ m ++ f ++ e) ++ d :: rest) 0 = '-'
    · rw [if_pos hneg]
      rcases hsgn with rfl | rfl
      · exfalso
        rw [hch_m 0 0 hmpos (by simp)] at hneg
        exact (digit_ne_chars hmh.2).1 hneg
      · rfl
    · rw [if_neg hneg]
      rcases hsgn with rfl | rfl
      · rfl
      · exact absurd rfl hneg
  rcases hf with rfl | ⟨fd, rfl, hfd1⟩
  · rcases he with rfl | ⟨c, sg, ed, rfl, hce, hsge, hed1⟩
    · -- no fraction, no exponent
      have hnomark : ¬ realMark (sgn ++ m ++ [] ++ []) := by
        intro hrm
        have hmm : ∃ c, c ∈ sgn ++ m ++ ([] : List Char) ++ ([] : List Char) ∧
            (c = '.' ∨ c = 'e' ∨ c = 'E') := by
          rcases hrm with hc | hc | hc
          exacts [⟨'.', hc, Or.inl rfl⟩, ⟨'e', hc, Or.inr (Or.inl rfl)⟩,
            ⟨'E', hc, Or.inr (Or.inr rfl)⟩]
        obtain ⟨c, hcs, hcm⟩ := hmm
        rw [List.append_nil, List.append_nil] at hcs
        rcases List.mem_append.mp hcs with h1 | h2
        · rcases hsgn with rfl | rfl
          · cases h1
          · simp at h1
            subst h1
            rcases hcm with hx | hx | hx <;> exact absurd hx (by decide)
        · have hdg := specMantissa_digits hm c h2
          rcases hcm with hx | hx | hx <;> rw [hx] at hdg <;> exact absurd hdg (by decide)
      have hstA : isdigitC (getC ((sgn ++ m ++ [] ++ []) ++ d :: rest)
          (sgn.length + m.length)) = false := by
        rw [hch_d _ (by simp)]
        exact (eop_char_props hd).1
      have hnnA : getC ((sgn ++ m ++ [] ++ []) ++ d :: rest)
          (sgn.length + m.length) ≠ '\x00' := by
        rw [hch_d _ (by simp)]
        exact (eop_char_props hd).2.1
      refine ⟨sgn.length + m.length, sgn.length + m.length, sgn.length + m.length,
        false, false, ?_⟩
      rw [NumRun]
      try simp only []
      rw [hp0e]
      refine ⟨?_, ?_, ?_, ?_, ?_, ?_⟩
      · rw [hch_m _ 0 hmpos (by omega)]
        exact hmh.2
      · exact mantissa_clause hm (fun j hj => hch_m _ j hj rfl) hstA hnnA
      · rw [if_neg (by simp)]
        refine ⟨?_, by trivial⟩
        rw [hch_d _ (by simp)]
        exact (eop_char_props hd).2.2.1
      · rw [if_neg (by simp)]
        refine ⟨?_, by trivial⟩
        rw [hch_d _ (by simp)]
        rintro (hx | hx)
        · exact (eop_char_props hd).2.2.2.1 hx
        · exact (eop_char_props hd).2.2.2.2 hx
      · rw [hch_d _ (by simp)]
        exact hd
      · intro hx
        rw [hv]
        rw [intOkC_iff_fits (by omega) (by simp only [List.length_append,
          List.length_cons, List.length_nil]; omega) (by
            rw [List.drop_zero, Nat.sub_zero,
              show sgn.length + m.length =
                (sgn ++ m ++ ([] : List Char) ++ ([] : List Char)).length from by simp,
              List.take_left])]
        exact hfit hnomark
    · -- no fraction, exponent present
      obtain ⟨hedne, heddig⟩ := hed1
      have hstB : isdigitC (getC ((sgn ++ m ++ [] ++ (c :: (sg ++ ed))) ++ d :: rest)
          (sgn.length + m.length)) = false := by
        rw [hch_e _ 0 (by simp) (by simp), getC_cons_zero]
        rcases hce with rfl | rfl <;> decide
      have hnnB : getC ((sgn ++ m ++ [] ++ (c :: (sg ++ ed))) ++ d :: rest)
          (sgn.length + m.length) ≠ '\x00' := by
        rw [hch_e _ 0 (by simp) (by simp), getC_cons_zero]
        rcases hce with rfl | rfl <;> decide
      have hstB3 : isdigitC (getC ((sgn ++ m ++ [] ++ (c :: (sg ++ ed))) ++ d :: rest)
          (sgn.length + m.length + (c :: (sg ++ ed)).length)) = false := by
        rw [hch_d _ (by simp only [List.length_append, List.length_nil]; omega)]
        exact (eop_char_props hd).1
      have hnnB3 : getC ((sgn ++ m ++ [] ++ (c :: (sg ++ ed))) ++ d :: rest)
          (sgn.length + m.length + (c :: (sg ++ ed)).length) ≠ '\x00' := by
        rw [hch_d _ (by simp only [List.length_append, List.length_nil]; omega)]
        exact (eop_char_props hd).2.1
      refine ⟨sgn.length + m.length, sgn.length + m.length,
        sgn.length + m.length + (c :: (sg ++ ed)).length, false, true, ?_⟩
      rw [NumRun]
      try simp only []
      rw [hp0e]
      refine ⟨?_, ?_, ?_, ?_, ?_, ?_⟩
      · rw [hch_m _ 0 hmpos (by omega)]
        exact hmh.2
      · exact mantissa_clause hm (fun j hj => hch_m _ j hj rfl) hstB hnnB
      · rw [if_neg (by simp)]
        refine ⟨?_, by trivial⟩
        rw [hch_e _ 0 (by simp) (by simp), getC_cons_zero]
        rcases hce with rfl | rfl <;> decide
      · rw [if_pos (by simp)]
        refine ⟨?_, ?_⟩
        · rw [hch_e _ 0 (by simp) (by simp), getC_cons_zero]
          exact hce
        · have hadB : ∀ j, j < (c :: (sg ++ ed)).length →
              getC ((sgn ++ m ++ [] ++ (c :: (sg ++ ed))) ++ d :: rest)
                (sgn.length + m.length + j) = getC (c :: (sg ++ ed)) j := by
            intro j hj
            refine hch_e _ j hj ?_
            simp only [List.length_append, List.length_nil]
            omega
          exact exp_clause hadB hsge hedne heddig hstB3 hnnB3
      · rw [hch_d _ (by simp only [List.length_append, List.length_nil]; omega)]
        exact hd
      · intro hx
        exact absurd hx.2 (by decide)
  · obtain ⟨hfdne, hfddig⟩ := hfd1
    rcases he with rfl | ⟨c, sg, ed, rfl, hce, hsge, hed1⟩
    · -- fraction present, no exponent
      have hstC : isdigitC (getC ((sgn ++ m ++ ('.' :: fd) ++ []) ++ d :: rest)
          (sgn.length + m.length)) = false := by
        rw [hch_f _ 0 (by simp) (by omega), getC_cons_zero]
        decide
      have hnnC : getC ((sgn ++ m ++ ('.' :: fd) ++ []) ++ d :: rest)
          (sgn.length + m.length) ≠ '\x00' := by
        rw [hch_f _ 0 (by simp) (by omega), getC_cons_zero]
        decide
      have hstC2 : isdigitC (getC ((sgn ++ m ++ ('.' :: fd) ++ []) ++ d :: rest)
          (sgn.length + m.length + ('.' :: fd).length)) = false := by
        rw [hch_d _ (by simp only [List.length_nil]; omega)]
        exact (eop_char_props hd).1
      have hnnC2 : getC ((sgn ++ m ++ ('.' :: fd) ++ []) ++ d :: rest)
          (sgn.length + m.length + ('.' :: fd).length) ≠ '\x00' := by
        rw [hch_d _ (by simp only [List.length_nil]; omega)]
        exact (eop_char_props hd).2.1
      refine ⟨sgn.length + m.length, sgn.length + m.length + ('.' :: fd).length,
        sgn.length + m.length + ('.' :: fd).length, true, false, ?_⟩
      rw [NumRun]
      try simp only []
      rw [hp0e]
      refine ⟨?_, ?_, ?_, ?_, ?_, ?_⟩
      · rw [hch_m _ 0 hmpos (by omega)]
        exact hmh.2
      · exact mantissa_clause hm (fun j hj => hch_m _ j hj rfl) hstC hnnC
      · rw [if_pos (by simp)]
        exact frac_clause (fun j hj => hch_f _ j hj (by omega)) hfdne hfddig hstC2 hnnC2
      · rw [if_neg (by simp)]
        refine ⟨?_, by trivial⟩
        rw [hch_d _ (by simp only [List.length_nil]; omega)]
        rintro (hx | hx)
        · exact (eop_char_props hd).2.2.2.1 hx
        · exact (eop_char_props hd).2.2.2.2 hx
      · rw [hch_d _ (by simp only [List.length_nil]; omega)]
        exact hd
      · intro hx
        exact absurd hx.1 (by decide)
    · -- fraction and exponent present
      obtain ⟨hedne, heddig⟩ := hed1
      have hstD : isdigitC (getC ((sgn ++ m ++ ('.' :: fd) ++ (c :: (sg ++ ed))) ++ d :: rest)
          (sgn.length + m.length)) = false := by
        rw [hch_f _ 0 (by simp) (by omega), getC_cons_zero]
        decide
      have hnnD : getC ((sgn ++ m ++ ('.' :: fd) ++ (c :: (sg ++ ed))) ++ d :: rest)
          (sgn.length + m.length) ≠ '\x00' := by
        rw [hch_f _ 0 (by simp) (by omega), getC_cons_zero]
        decide
      have hstD2 : isdigitC (getC ((sgn ++ m ++ ('.' :: fd) ++ (c :: (sg ++ ed))) ++ d :: rest)
          (sgn.length + m.length + ('.' :: fd).length)) = false := by
        rw [hch_e _ 0 (by simp) (by omega), getC_cons_zero]
        rcases hce with rfl | rfl <;> decide
      have hnnD2 : getC ((sgn ++ m ++ ('.' :: fd) ++ (c :: (sg ++ ed))) ++ d :: rest)
          (sgn.length + m.length + ('.' :: fd).length) ≠ '\x00' := by
        rw [hch_e _ 0 (by simp) (by omega), getC_cons_zero]
        rcases hce with rfl | rfl <;> decide
      have hstD3 : isdigitC (getC ((sgn ++ m ++ ('.' :: fd) ++ (c :: (sg ++ ed))) ++ d :: rest)
          (sgn.length + m.length + ('.' :: fd).length + (c :: (sg ++ ed)).length)) = false := by
        rw [hch_d _ (by omega)]
        exact (eop_char_props hd).1
      have hnnD3 : getC ((sgn ++ m ++ ('.' :: fd) ++ (c :: (sg ++ ed))) ++ d :: rest)
          (sgn.length + m.length + ('.' :: fd).length + (c :: (sg ++ ed)).length) ≠ '\x00' := by
        rw [hch_d _ (by omega)]
        exact (eop_char_props hd).2.1
      refine ⟨sgn.length + m.length, sgn.length + m.length + ('.' :: fd).length,
        sgn.length + m.length + ('.' :: fd).length + (c :: (sg ++ ed)).length,
        true, true, ?_⟩
      rw [NumRun]
      try simp only []
      rw [hp0e]
      refine ⟨?_, ?_, ?_, ?_, ?_, ?_⟩
      · rw [hch_m _ 0 hmpos (by omega)]
        exact hmh.2
      · exact mantissa_clause hm (fun j hj => hch_m _ j hj rfl) hstD hnnD
      · rw [if_pos (by simp)]
        exact frac_clause (fun j hj => hch_f _ j hj (by omega)) hfdne hfddig hstD2 hnnD2
      · rw [if_pos (by simp)]
        refine ⟨?_, ?_⟩
        · rw [hch_e _ 0 (by simp) (by omega), getC_cons_zero]
          exact hce
        · exact exp_clause (fun j hj => hch_e _ j hj (by omega)) hsge hedne heddig
            hstD3 hnnD3
      · rw [hch_d _ (by omega)]
        exact hd
      · intro hx
        exact absurd hx.1 (by decide)

/-- The trace's range check, extracted for integer-tagged runs. -/
theorem NumRun_intOk {buf : List Char} {pos : Nat} {prop : JNode} {p1 p2 p3 : Nat}
    (h : NumRun buf pos prop p1 p2 p3 false false) :
    intOkC buf prop.value p3 = true := by
  rw [NumRun] at h
  try simp only [] at h
  exact h.2.2.2.2.2 ⟨trivial, trivial⟩

/-- The comma-skip step of the tree-builder loop: a comma after optional
whitespace advances the position past itself and changes nothing else. -/
theorem objStep_comma {st : St} {pos p objIdx : Nat}
    (hgb : goBlank st.buf pos = some p) (hc : getC st.buf p = ',') :
    objStep st pos objIdx = .cont st (p + 1) objIdx := by
  rw [objStep, hgb]
  try simp only []
  rw [if_pos hc]

/-- The close-bracket check of the loop: the container's close character
after optional whitespace ends the root container, independently of what
preceded. -/
theorem objStep_close_any {st : St} {pos p o : Nat}
    (hgb : goBlank st.buf pos = some p)
    (hq : getC st.buf p = (if (getNode st o).type = .JSON_OBJ then '}' else ']'))
    (hsib : (getNode st o).sibling = none) :
    objStep st pos o = .done { st with buf := st.buf.set p '\x00' } (p + 1) := by
  have hnc : getC st.buf p ≠ ',' := by
    rw [hq]
    split <;> decide
  rw [objStep, hgb]
  try simp only []
  rw [if_neg hnc, if_pos hq]
  try simp only []
  rw [hsib]

/-- Trailing-comma leniency at the root: a comma followed (after optional
whitespace) by the root container's close character is accepted — the loop
skips the comma and the next iteration's close check ends the parse. -/
theorem trailing_comma_accepted {st : St} {pos p q o fuel : Nat}
    (hgb : goBlank st.buf pos = some p) (hc : getC st.buf p = ',')
    (hgb2 : goBlank st.buf (p + 1) = some q)
    (hq : getC st.buf q = (if (getNode st o).type = .JSON_OBJ then '}' else ']'))
    (hsib : (getNode st o).sibling = none) :
    objLoopN (fuel + 2) st pos o =
      some ({ st with buf := st.buf.set q '\x00' }, q + 1) := by
  rw [objLoopN, objStep_comma hgb hc]
  try simp only []
  rw [objLoopN, objStep_close_any hgb2 hq hsib]

/-- The container-type rejection test of `json_getPropertyValue`: the
numeric comparison `JSON_ARRAY >= type` holds exactly for the two container
types. -/
theorem code_le_array_iff (t : jsonType) :
    (t.code ≤ jsonType.JSON_ARRAY.code) ↔ (t = .JSON_OBJ ∨ t = .JSON_ARRAY) := by
  cases t <;> simp [jsonType.code]

/-- The lookup loop returns exactly the first name match on the truncated
sibling chain. -/
theorem getPropAux_eq_find (st : St) (property : List Char) :
    ∀ (fuel : Nat) (o : Option Nat),
      getPropAux st property fuel o =
        (sibChain st fuel o).find? (fun i => nameHit st property i)
  | 0, none => rfl
  | 0, some _ => rfl
  | fuel + 1, none => rfl
  | fuel + 1, some i => by
    rw [getPropAux, sibChain]
    try simp only []
    rw [List.find?_cons]
    cases hh : nameHit st property i with
    | true =>
      rw [show (match (getNode st i).name with
          | some np => decide (cstr st.buf np = property)
          | none => false) = true from hh]
      try simp only []
      rw [if_pos trivial]
    | false =>
      rw [show (match (getNode st i).name with
          | some np => decide (cstr st.buf np = property)
          | none => false) = false from hh]
      try simp only []
      exact getPropAux_eq_find st property fuel (getNode st i).sibling

theorem intLiteral_no_nul {s : List Char} (h : IntLiteral s) : ∀ c ∈ s, c ≠ '\x00' := by
  obtain ⟨sgn, m, rfl, hsgn, hm⟩ := h
  intro c hc
  rcases List.mem_append.mp hc with h1 | h2
  · rcases hsgn with rfl | rfl
    · cases h1
    · simp at h1
      subst h1
      decide
  · exact isdigitC_ne_nul (specMantissa_digits hm c h2)

/-! ## The claims -/

/-- C9: characters after the root container's closing bracket are never
examined — a parse that succeeds on `str` succeeds on `str ++ ext` and
builds the same tree over the extended buffer. -/
theorem suffix_irrelevant (str ext : List Char) (qty : Nat)
    (h : (json_create str qty).isSome = true) :
    json_create (str ++ ext) qty =
      (json_create str qty).map (fun st => { st with buf := st.buf ++ ext }) := by
  obtain ⟨st, hst⟩ := Option.isSome_iff_exists.mp h
  rw [hst, json_create_append hst]
  rfl

/-- C9's theorem applied to the document `[1]` followed by trailing garbage. -/
theorem suffix_irrelevant_witness :
    json_create (("[1]".toList) ++ ("]junk".toList)) 4 =
      (json_create ("[1]".toList) 4).map (fun st => { st with buf := st.buf ++ ("]junk".toList) }) :=
  suffix_irrelevant ("[1]".toList) ("]junk".toList) 4 (by decide)

/-- C10: the tree-builder loop terminates — every continuing or finishing
iteration strictly advances the scan position while staying inside the
buffer (whose final position holds the terminating NUL), and the loop's
result is independent of any fuel at least `buf.length + 1 - pos`. -/
theorem loop_progress (st : St) (pos objIdx fuel : Nat)
    (hfuel : st.buf.length + 1 - pos ≤ fuel) :
    (∀ st' p' o', objStep st pos objIdx = .cont st' p' o' →
       pos < p' ∧ p' ≤ st'.buf.length ∧ st'.buf.length = st.buf.length) ∧
    (∀ st' p', objStep st pos objIdx = .done st' p' →
       pos < p' ∧ p' ≤ st'.buf.length ∧ st'.buf.length = st.buf.length) ∧
    objLoopN (fuel + 1) st pos objIdx = objLoopN fuel st pos objIdx :=
  ⟨fun _ _ _ h => objStep_cont h, fun _ _ h => objStep_done h,
   objLoopN_succ fuel st pos objIdx hfuel⟩

/-- C10's theorem applied to a one-element document's loop state. -/
theorem loop_progress_witness :
    (∀ st' p' o', objStep { buf := ['[', '1', ']'], nodes := [default, default], nextFree := 1 }
        1 0 = .cont st' p' o' →
       1 < p' ∧ p' ≤ st'.buf.length ∧ st'.buf.length =
         (({ buf := ['[', '1', ']'], nodes := [default, default], nextFree := 1 } : St)).buf.length) ∧
    (∀ st' p', objStep { buf := ['[', '1', ']'], nodes := [default, default], nextFree := 1 }
        1 0 = .done st' p' →
       1 < p' ∧ p' ≤ st'.buf.length ∧ st'.buf.length =
         (({ buf := ['[', '1', ']'], nodes := [default, default], nextFree := 1 } : St)).buf.length) ∧
    objLoopN 4 { buf := ['[', '1', ']'], nodes := [default, default], nextFree := 1 } 1 0 =
      objLoopN 3 { buf := ['[', '1', ']'], nodes := [default, default], nextFree := 1 } 1 0 :=
  loop_progress { buf := ['[', '1', ']'], nodes := [default, default], nextFree := 1 } 1 0 3
    (by decide)

/-- C5: a pool of `K = n + 1` slots parses the `n`-element array document
(which needs exactly `K` nodes), the `(n + 1)`-element document fails
cleanly on pool exhaustion, and the allocator never hands out a slot
beyond the pool. -/
theorem pool_capacity (K n : Nat) (hK : K = n + 1) :
    (json_create (doc1s n) K).isSome = true ∧
    json_create (doc1s (n + 1)) K = none ∧
    (∀ st st' i, poolAlloc st = some (st', i) → i < st.nodes.length) := by
  subst hK
  refine ⟨?_, json_create_doc1s_fail, ?_⟩
  · have h := @json_create_doc1s_some n
    cases hv : (json_create (doc1s n) (n + 1)).isSome
    · rw [hv] at h
      cases h
    · rfl
  · intro st st' i h
    obtain ⟨hlt, heq⟩ := poolAlloc_eq h
    have : i = st.nextFree := congrArg Prod.snd heq
    omega

/-- C5's theorem applied to a pool of three slots. -/
theorem pool_capacity_witness :
    (json_create (doc1s 2) 3).isSome = true ∧
    json_create (doc1s 3) 3 = none ∧
    (∀ st st' i, poolAlloc st = some (st', i) → i < st.nodes.length) :=
  pool_capacity 3 2 rfl

/-- C2 (counterexample): the array document with a trailing comma parses
successfully, against the claim that it fails. -/
theorem trailing_comma_parses : (json_create ("[1,2,]".toList) 8).isSome = true := by
  decide

/-- C2 (amended): of the three inputs, `{"a":}` (missing value) and `{a:1}`
(unquoted key) are rejected, while `[1,2,]` (trailing comma) is accepted. -/
theorem error_inputs_amended :
    json_create ("\x7b\"a\":\x7d".toList) 8 = none ∧
    json_create ("{a:1}".toList) 8 = none ∧
    (json_create ("[1,2,]".toList) 8).isSome = true :=
  ⟨by decide, by decide, by decide⟩

/-- C7 (counterexample): after unescaping `a\tb\n\"c\"` the terminator is
written at the write cursor (index 7), not where the closing quote was —
index 11 still holds the quote character. -/
theorem parseString_quote_not_terminator :
    parseString ("a\\tb\\n\\\"c\\\"\"".toList) 0 =
      some (("a\tb\n\"c\"".toList ++ ['\x00']) ++ "c\\\"\"".toList, 12) ∧
    getC (("a\tb\n\"c\"".toList ++ ['\x00']) ++ "c\\\"\"".toList) 11 = '\"' ∧
    getC (("a\tb\n\"c\"".toList ++ ['\x00']) ++ "c\\\"\"".toList) 7 = '\x00' :=
  ⟨by decide, by decide, by decide⟩

/-- C7 (amended): unescaping `a\tb\n\"c\"` rewrites the buffer in place to
the seven characters `a<TAB>b<LF>"c"` followed by a NUL terminator at the
write cursor, returns the position just past the closing quote, and the
stored string reads back as that unescaped content. -/
theorem parseString_inplace :
    parseString ("a\\tb\\n\\\"c\\\"\"".toList) 0 =
      some (("a\tb\n\"c\"".toList ++ ['\x00']) ++ "c\\\"\"".toList, 12) ∧
    cstr (("a\tb\n\"c\"".toList ++ ['\x00']) ++ "c\\\"\"".toList) 0 = "a\tb\n\"c\"".toList :=
  ⟨by decide, by decide⟩

/-- C3: trailing-comma acceptance — the comma-skip step leaves the state
untouched and only advances the position, the following iteration's
close-bracket check ends the container independently, and concretely the
documents `[1,2,]` and `{"a":1,}` parse to the same trees as their
comma-free counterparts. -/
theorem trailing_comma_skip_close (st : St) (pos p q o fuel : Nat)
    (hgb : goBlank st.buf pos = some p) (hc : getC st.buf p = ',')
    (hgb2 : goBlank st.buf (p + 1) = some q)
    (hq : getC st.buf q = (if (getNode st o).type = .JSON_OBJ then '}' else ']'))
    (hsib : (getNode st o).sibling = none) :
    (objStep st pos o = .cont st (p + 1) o ∧
     objLoopN (fuel + 2) st pos o =
       some ({ st with buf := st.buf.set q '\x00' }, q + 1)) ∧
    (json_create ("[1,2,]".toList) 8).map readRoot =
      (json_create ("[1,2]".toList) 8).map readRoot ∧
    (json_create ("\x7b\"a\":1,\x7d".toList) 8).map readRoot =
      (json_create ("\x7b\"a\":1\x7d".toList) 8).map readRoot :=
  ⟨⟨objStep_comma hgb hc, trailing_comma_accepted hgb hc hgb2 hq hsib⟩, by rfl, by rfl⟩

/-- C3's theorem applied to a root array whose last element's comma is
followed by the closing bracket. -/
theorem trailing_comma_skip_close_witness :
    (objStep { buf := ['[', ',', ']'], nodes := [{ type := .JSON_ARRAY, name := none, value := 0, child := none, lastChild := none, sibling := none }], nextFree := 1 } 1 0 =
       .cont { buf := ['[', ',', ']'], nodes := [{ type := .JSON_ARRAY, name := none, value := 0, child := none, lastChild := none, sibling := none }], nextFree := 1 } (1 + 1) 0 ∧
     objLoopN (0 + 2) { buf := ['[', ',', ']'], nodes := [{ type := .JSON_ARRAY, name := none, value := 0, child := none, lastChild := none, sibling := none }], nextFree := 1 } 1 0 =
       some ({ buf := (['[', ',', ']'] : List Char).set 2 '\x00', nodes := [{ type := .JSON_ARRAY, name := none, value := 0, child := none, lastChild := none, sibling := none }], nextFree := 1 }, 2 + 1)) ∧
    (json_create ("[1,2,]".toList) 8).map readRoot =
      (json_create ("[1,2]".toList) 8).map readRoot ∧
    (json_create ("\x7b\"a\":1,\x7d".toList) 8).map readRoot =
      (json_create ("\x7b\"a\":1\x7d".toList) 8).map readRoot :=
  trailing_comma_skip_close
    { buf := ['[', ',', ']'], nodes := [{ type := .JSON_ARRAY, name := none, value := 0, child := none, lastChild := none, sibling := none }], nextFree := 1 }
    1 1 2 0 0 (by decide) (by decide) (by decide) (by decide) (by decide)

/-- C6: a scanned primitive is accepted only when the character right after
it is a comma, blank or close bracket: the delimiter set is exactly that
list, keyword literals succeed precisely under that check, a successful
number scan ends at such a delimiter, and `[truex]` is rejected. -/
theorem primitive_delimiter (buf : List Char) (pos p : Nat) (prop : JNode)
    (value : List Char) (ty : jsonType)
    (hchk : checkStr buf pos value = some p) :
    (∀ c : Char, isEndOfPrimitive c = true ↔
       c ∈ ([',', ' ', '\n', '\r', '\t', '\x0C', '}', ']'] : List Char)) ∧
    (primitiveValue buf pos prop value ty ≠ none ↔
       isEndOfPrimitive (getC buf p) = true) ∧
    (∀ buf2 pos2 prop2 r, numValue buf2 pos2 prop2 = some r →
       ∃ p3, pos2 < p3 ∧ isEndOfPrimitive (getC buf2 p3) = true) ∧
    json_create ("[truex]".toList) 8 = none := by
  refine ⟨isEndOfPrimitive_iff_mem, ?_, ?_, by decide⟩
  · rw [primitiveValue_eq hchk]
    cases he : isEndOfPrimitive (getC buf p) <;> simp [he]
  · intro buf2 pos2 prop2 r h
    obtain ⟨p3, ty3, hlt, heop, -, -⟩ := numValue_inv h
    exact ⟨p3, hlt, heop⟩

/-- C6's theorem applied to the literal `true` followed by a comma. -/
theorem primitive_delimiter_witness :
    (∀ c : Char, isEndOfPrimitive c = true ↔
       c ∈ ([',', ' ', '\n', '\r', '\t', '\x0C', '}', ']'] : List Char)) ∧
    (primitiveValue ("true,".toList) 0 default ("true".toList) .JSON_BOOLEAN ≠ none ↔
       isEndOfPrimitive (getC ("true,".toList) 4) = true) ∧
    (∀ buf2 pos2 prop2 r, numValue buf2 pos2 prop2 = some r →
       ∃ p3, pos2 < p3 ∧ isEndOfPrimitive (getC buf2 p3) = true) ∧
    json_create ("[truex]".toList) 8 = none :=
  primitive_delimiter ("true,".toList) 0 4 default ("true".toList) .JSON_BOOLEAN (by decide)

/-- C8: property lookup walks the child chain and returns the first name
match; `json_getPropertyValue` is absent exactly when there is no match or
the match is a container, and otherwise returns the scalar child's value
string. -/
theorem property_lookup (st : St) (o : Nat) (property : List Char) :
    (json_getProperty st o property =
       (sibChain st (st.nodes.length + 1) (getNode st o).child).find?
         (fun i => nameHit st property i)) ∧
    (json_getProperty st o property = none ↔
       ∀ i ∈ sibChain st (st.nodes.length + 1) (getNode st o).child,
         nameHit st property i = false) ∧
    (json_getPropertyValue st o property = none ↔
       json_getProperty st o property = none ∨
       ∃ i, json_getProperty st o property = some i ∧
         ((getNode st i).type = .JSON_OBJ ∨ (getNode st i).type = .JSON_ARRAY)) ∧
    (∀ i, json_getProperty st o property = some i →
       ¬ ((getNode st i).type = .JSON_OBJ ∨ (getNode st i).type = .JSON_ARRAY) →
       json_getPropertyValue st o property = some (json_getValue st i)) := by
  have hfind : json_getProperty st o property =
      (sibChain st (st.nodes.length + 1) (getNode st o).child).find?
        (fun i => nameHit st property i) :=
    getPropAux_eq_find st property _ _
  refine ⟨hfind, ?_, ?_, ?_⟩
  · rw [hfind]
    constructor
    · intro hn i hi
      have := List.find?_eq_none.mp hn i hi
      simpa using this
    · intro hall
      rw [List.find?_eq_none]
      intro i hi
      simp [hall i hi]
  · rw [json_getPropertyValue]
    rcases hjp : json_getProperty st o property with _ | i
    · constructor
      · intro _
        exact Or.inl rfl
      · intro _
        rfl
    · show (if (json_getType st i).code ≤ jsonType.JSON_ARRAY.code then none
          else some (json_getValue st i)) = none ↔
        some i = none ∨ ∃ j, some i = some j ∧
          ((getNode st j).type = .JSON_OBJ ∨ (getNode st j).type = .JSON_ARRAY)
      by_cases hc : (json_getType st i).code ≤ jsonType.JSON_ARRAY.code
      · rw [if_pos hc]
        constructor
        · intro _
          exact Or.inr ⟨i, rfl, (code_le_array_iff _).mp hc⟩
        · intro _
          rfl
      · rw [if_neg hc]
        constructor
        · intro hx
          simp at hx
        · rintro (hx | ⟨j, hji, hty⟩)
          · simp at hx
          · exfalso
            cases hji
            exact hc ((code_le_array_iff _).mpr hty)
  · intro i hi hnc
    rw [json_getPropertyValue, hi]
    show (if (json_getType st i).code ≤ jsonType.JSON_ARRAY.code then none
        else some (json_getValue st i)) = some (json_getValue st i)
    rw [if_neg (show ¬ (json_getType st i).code ≤ jsonType.JSON_ARRAY.code from
      fun hx => hnc ((code_le_array_iff _).mp hx))]

/-- C1: every integer literal in the 64-bit range scans successfully with
the lexeme stored NUL-terminated in place; the first out-of-range literals
on either side are rejected; and the check is by span length against the
sign's bound literal, deciding equal lengths by string comparison. -/
theorem integer_range_check (s : List Char) (hlit : IntLiteral s)
    (hlo : -(2 ^ 63 : Int) ≤ litVal s) (hhi : litVal s ≤ 2 ^ 63 - 1) :
    (numValue (s ++ [',']) 0 default =
       some (s ++ ['\x00'], s.length + 1,
         { (default : JNode) with type := .JSON_INTEGER }) ∧
     litVal (cstr (s ++ ['\x00']) 0) = litVal s) ∧
    numValue ("9223372036854775808".toList ++ [',']) 0 default = none ∧
    numValue ("-9223372036854775809".toList ++ [',']) 0 default = none ∧
    (∀ buf value p3 span, value < p3 → p3 ≤ buf.length →
       span = (buf.drop value).take (p3 - value) →
       (intOkC buf value p3 = true ↔ intFits span)) := by
  have hlt : litVal s < 2 ^ 63 := by
    have h2 : (2 : Int) ^ 63 = 9223372036854775808 := by norm_num
    rw [h2] at hhi ⊢
    omega
  refine ⟨⟨?_, ?_⟩, by decide, by decide,
    fun buf value p3 span h1 h2 hs => intOkC_iff_fits h1 h2 hs⟩
  · exact numValue_intLiteral hlit (intFits_of_range hlit hlo hlt)
  · rw [cstr_append_nul (intLiteral_no_nul hlit)]

/-- C1's theorem applied to the literal `42`. -/
theorem integer_range_check_witness :
    (numValue ((['4', '2'] : List Char) ++ [',']) 0 default =
       some ((['4', '2'] : List Char) ++ ['\x00'], (['4', '2'] : List Char).length + 1,
         { (default : JNode) with type := .JSON_INTEGER }) ∧
     litVal (cstr ((['4', '2'] : List Char) ++ ['\x00']) 0) = litVal ['4', '2']) ∧
    numValue ("9223372036854775808".toList ++ [',']) 0 default = none ∧
    numValue ("-9223372036854775809".toList ++ [',']) 0 default = none ∧
    (∀ buf value p3 span, value < p3 → p3 ≤ buf.length →
       span = (buf.drop value).take (p3 - value) →
       (intOkC buf value p3 = true ↔ intFits span)) :=
  integer_range_check ['4', '2']
    ⟨[], ['4', '2'], rfl, Or.inl rfl,
      Or.inr ⟨'4', ['2'], rfl, by decide, by decide, by decide⟩⟩
    (by decide) (by decide)

/-- C4: the number scanner accepts exactly the JSON number production
(up to the 64-bit range check on pure integers), and tags the literal Real
exactly when a fraction or exponent is present. -/
theorem number_grammar (s : List Char) (d : Char) (rest : List Char)
    (hse : ∀ c ∈ s, isEndOfPrimitive c = false) (hd : isEndOfPrimitive d = true) :
    ((numValue (s ++ d :: rest) 0 default).isSome = true ↔
       SpecNumber s ∧ (¬ realMark s → intFits s)) ∧
    (∀ buf' q prop', numValue (s ++ d :: rest) 0 default = some (buf', q, prop') →
       ((prop'.type = .JSON_REAL ↔ realMark s) ∧
        (prop'.type = .JSON_INTEGER ↔ ¬ realMark s))) := by
  constructor
  · constructor
    · intro hs
      obtain ⟨r, hr⟩ := Option.isSome_iff_exists.mp hs
      obtain ⟨p1, p2, p3, hF, hE, hrun, hre⟩ := numValue_run_of_some hr
      obtain ⟨hp3, hsp, hiff⟩ := spec_of_run hse hd hrun
      subst hp3
      refine ⟨hsp, ?_⟩
      intro hnr
      have hFE : (hF || hE) = false := by
        cases hor : hF || hE
        · rfl
        · exact absurd (hiff.mp hor) hnr
      obtain ⟨hFf, hEf⟩ := Bool.or_eq_false_iff.mp hFE
      subst hFf
      subst hEf
      have hok := NumRun_intOk hrun
      have hb := NumRun_bounds hrun
      have hlen0 : (0 : Nat) < s.length := by omega
      exact (intOkC_iff_fits hlen0 (by simp) (by
        rw [List.drop_zero, Nat.sub_zero, List.take_left])).mp hok
    · rintro ⟨hsp, hfit⟩
      obtain ⟨sgn, m, f, e, rfl, hsgn, hm, hf, he⟩ := hsp
      have hv : (default : JNode).value = 0 := rfl
      obtain ⟨p1, p2, p3, hF, hE, hrun⟩ := run_of_spec hv hsgn hm hf he hd hfit
      rw [numValue_some_of_run hrun]
      rfl
  · intro buf' q prop' hr
    obtain ⟨p1, p2, p3, hF, hE, hrun, hre⟩ := numValue_run_of_some hr
    obtain ⟨hp3, hsp, hiff⟩ := spec_of_run hse hd hrun
    simp only [Prod.mk.injEq] at hre
    obtain ⟨-, -, hprop⟩ := hre
    subst hprop
    have hiff2 : ({ (default : JNode) with
        type := if hF || hE then jsonType.JSON_REAL else .JSON_INTEGER } : JNode).type =
        jsonType.JSON_REAL ↔ (hF || hE) = true := by
      cases hF <;> cases hE <;> simp
    have hiff3 : ({ (default : JNode) with
        type := if hF || hE then jsonType.JSON_REAL else .JSON_INTEGER } : JNode).type =
        jsonType.JSON_INTEGER ↔ ¬ ((hF || hE) = true) := by
      cases hF <;> cases hE <;> simp
    exact ⟨hiff2.trans hiff, hiff3.trans (not_congr hiff)⟩

/-- C4's theorem applied to the literal `1.5`. -/
theorem number_grammar_witness :
    ((numValue (("1.5".toList) ++ ',' :: []) 0 default).isSome = true ↔
       SpecNumber ("1.5".toList) ∧ (¬ realMark ("1.5".toList) → intFits ("1.5".toList))) ∧
    (∀ buf' q prop', numValue (("1.5".toList) ++ ',' :: []) 0 default = some (buf', q, prop') →
       ((prop'.type = .JSON_REAL ↔ realMark ("1.5".toList)) ∧
        (prop'.type = .JSON_INTEGER ↔ ¬ realMark ("1.5".toList)))) :=
  number_grammar ("1.5".toList) ',' [] (by decide) (by decide)

end TinyJson
